import Mathlib

/-!
Verification of the dnstrie library (fanf2/dnstrie) against its
natural-language specification.

This file shallowly embeds the Rust sources:

  * `src/triebits.rs`    — trie-key codec (`BYTE_TO_BITS`, `BITS_TO_BYTE`,
                           `TrieName::from_dns_name`, `TrieName::make_dns_name`)
  * `src/dnsname/mod.rs` — shared wire/text parsing state machines
                           (`name_from_wire`, `name_from_text`, `Dodgy::fun`)
  * `src/dnsname/wire.rs`    — `WireLabels` and `cmp_any_labels`/`cmp_any_names`
  * `src/dnsname/scratch.rs` — `ScratchName` (`add_label`, `dodgy_from_wire`,
                               `dodgy_from_text`, `clear_err`)
  * `src/dnsname/labels.rs`  — the borrowed-position `WireLabels` label emitter
  * `src/scratchpad.rs`  — `ScratchPad` (`push`, `append`, `get_mut`)
  * `src/bmpvec.rs`      — `BmpVec` (bitmap-packed sparse vector)
  * `src/test/blimpvec.rs` — `BlimpVec`, the 64-slot reference model

Machine integers (`u8`, `u16`, `u64`, `usize`) are modelled as `Nat` with
explicit bounds or explicit `% 2 ^ w` where overflow matters.  Fallible Rust
functions returning `Result` are modelled with `Except Error`.  The Rust
`loop`s whose termination rests on a decreasing measure (the compression
high-water mark together with the name-length budget) are modelled with an
explicit fuel argument so that all definitions are executable; entry points
supply fuel that strictly exceeds any reachable iteration count, and fuel
exhaustion is reported by the dedicated `Error.bugFuel` value, which never
arises in any run analysed below.
-/

set_option maxRecDepth 100000

/-- The error type of `src/error.rs`, together with the variants used by the
in-tree drafts of the name parsers (`src/dnsname/scratch.rs` uses
`NameLengthWat`/`LabelLengthWat`, `src/triebits.rs` uses `BugTrieName`).
`escapeBad` carries the out-of-range decimal value as in
`src/dnsname/scratch.rs` and `src/dnsname/mod.rs`.  `bugFuel` is an artifact
of the fuelled modelling of the Rust `loop`s and corresponds to no source
error. -/
inductive Error where
  | compressBad
  | compressChain
  | labelType (b : Nat)
  | nameLength
  | nameSyntax
  | nameTrailing
  | nameTruncated
  | scratchOverflow
  | escapeBad (code : Nat)
  | wideWire
  | bugTrieName
  | bugWirePos (pos : Nat)
  | nameLengthWat
  | labelLengthWat
  | bugFuel
deriving DecidableEq, Repr

deriving instance DecidableEq for Except

/-- `u8::cmp` / `usize::cmp` (`Ord` on machine integers), as used by the
byte-wise comparisons in `src/dnsname/wire.rs` and by `<[u8]>::cmp`. -/
def cmpNat (a b : Nat) : Ordering :=
  if a < b then .lt else if a = b then .eq else .gt

/-- Lexicographic comparison of byte strings: the `Ord` instance of `&[u8]`
used on trie keys by `src/test/triebits.rs` (`slice1.cmp(slice2)`).  A strict
front segment compares as less. -/
def lexCmp : List Nat → List Nat → Ordering
  | [], [] => .eq
  | [], _ :: _ => .lt
  | _ :: _, [] => .gt
  | a :: as_, b :: bs =>
    match cmpNat a b with
    | .eq => lexCmp as_ bs
    | o => o

/-- `u8::to_ascii_lowercase`: ASCII upper-case folds to lower-case. -/
def foldByte (b : Nat) : Nat :=
  if 65 ≤ b ∧ b ≤ 90 then b + 32 else b

/-- `b'A' ≤ b ≤ b'Z'`, the byte range relocated by the code table. -/
def isUpperByte (b : Nat) : Prop := 65 ≤ b ∧ b ≤ 90

instance (b : Nat) : Decidable (isUpperByte b) := by
  unfold isUpperByte; infer_instance

/- ----------------------------------------------------------------------
`src/triebits.rs`: the trie-key code tables.
---------------------------------------------------------------------- -/

/-- `SHIFT_NOBYTE` from `src/triebits.rs`: the label separator in trie keys. -/
def SHIFT_NOBYTE : Nat := 1

/-- `SHIFT_BITMAP` from `src/triebits.rs`: least meaningful code value. -/
def SHIFT_BITMAP : Nat := 2

/-- `SHIFT_OFFSET` from `src/triebits.rs`: one past the greatest code value. -/
def SHIFT_OFFSET : Nat := 48

/-- `gen_byte_to_bits()` from `src/triebits.rs`.  The Rust `const fn` loops
`byte = 0..=255`, threading `(bit_one, bit_two, escaping)` and filling
`table[byte]`; since the writes are in index order the table is built here by
a left fold over `List.range 256` that appends one entry per byte.  Byte
ranges: `b'-'..=b'9'` is `45..=57`, `b'_'..=b'z'` is `95..=122`,
`b'A'..=b'Z'` is `65..=90`; `b'a' - b'_' = 2`. -/
def gen_byte_to_bits : List (Nat × Nat) :=
  ((List.range 256).foldl
    (fun (st : List (Nat × Nat) × Nat × Nat × Bool) byte =>
      let (table, bit_one, bit_two, escaping) := st
      if (45 ≤ byte ∧ byte ≤ 57) ∨ (95 ≤ byte ∧ byte ≤ 122) then
        -- common characters: escaping = false; bit_one += 1
        (table ++ [(bit_one + 1, 0)], bit_one + 1, bit_two, false)
      else if 65 ≤ byte ∧ byte ≤ 90 then
        -- map upper case to lower case
        (table ++ [((bit_one + 1) + 2 + (byte - 65), 0)],
          bit_one, bit_two, escaping)
      else if escaping = false ∨ 48 ≤ bit_two then
        -- bump to the next escape character
        (table ++ [(bit_one + 1, 2)], bit_one + 1, 3, true)
      else
        (table ++ [(bit_one, bit_two)], bit_one, bit_two + 1, escaping))
    ([], 2, 2, true)).1

/-- `BYTE_TO_BITS[b]` from `src/triebits.rs` (out-of-range indices, which a
`u8` cannot produce, default to `(0, 0)`). -/
def BYTE_TO_BITS (b : Nat) : Nat × Nat :=
  gen_byte_to_bits.getD b (0, 0)

/-- `gen_bits_to_byte()` from `src/triebits.rs`: iterate `byte = 0..=255`
skipping `b'A'..=b'Z'` (the Rust `if byte == b'A' { byte += 26 }`), and set
`table[one][two] = byte` for `(one, two) = BYTE_TO_BITS[byte]`. -/
def gen_bits_to_byte : List (List Nat) :=
  ((List.range 256).filter (fun b => decide (b < 65 ∨ 90 < b))).foldl
    (fun table byte =>
      let (one, two) := BYTE_TO_BITS byte
      table.set one ((table.getD one []).set two byte))
    (List.replicate 48 (List.replicate 48 0))

/-- `BITS_TO_BYTE[one][two]` from `src/triebits.rs`. -/
def BITS_TO_BYTE (one two : Nat) : Nat :=
  (gen_bits_to_byte.getD one []).getD two 0

/-- The one or two key bytes that `TrieName::from_dns_name` emits for one
name byte `c`: `push(one); if two > 0 { push(two) }`. -/
def codeBytes (c : Nat) : List Nat :=
  (BYTE_TO_BITS c).1 :: (if 0 < (BYTE_TO_BITS c).2 then [(BYTE_TO_BITS c).2] else [])


/- ----------------------------------------------------------------------
Decidable facts about the two code tables.  They are bundled into few
bounded quantifications so the tables are evaluated few times.
---------------------------------------------------------------------- -/

/-- Per-byte facts about `BYTE_TO_BITS` and `BITS_TO_BYTE`: code ranges
(`[2,48)` plus 0 for the absent second byte), invariance under ASCII case
folding, and that `BITS_TO_BYTE` inverts the code of a byte onto its
lower-cased form (with `BITS_TO_BYTE[one][0] = 0` exactly signalling a
two-byte code, as `TrieName::make_dns_name` relies on). -/
lemma byte_table_ok : ∀ b, b < 256 →
    (2 ≤ (BYTE_TO_BITS b).1 ∧ (BYTE_TO_BITS b).1 < 48 ∧
      ((BYTE_TO_BITS b).2 = 0 ∨ 2 ≤ (BYTE_TO_BITS b).2 ∧ (BYTE_TO_BITS b).2 < 48)) ∧
    BYTE_TO_BITS b = BYTE_TO_BITS (foldByte b) ∧
    ((BYTE_TO_BITS b).2 = 0 → BITS_TO_BYTE (BYTE_TO_BITS b).1 0 = foldByte b) ∧
    ((BYTE_TO_BITS b).2 ≠ 0 → BITS_TO_BYTE (BYTE_TO_BITS b).1 0 = 0 ∧
      BITS_TO_BYTE (BYTE_TO_BITS b).1 (BYTE_TO_BITS b).2 = foldByte b) := by
  decide

/-- A decisive lexicographic "less" between two byte strings: at some
position inside the common front segment the left string is strictly
smaller, with equality before it.  Unlike plain `lexCmp _ _ = .lt` this is
stable under appending arbitrary suffixes to either side. -/
def ltStop : List Nat → List Nat → Bool
  | a :: u, b :: v => decide (a < b) || (a == b && ltStop u v)
  | _, _ => false

lemma ltStop_append {u v : List Nat} (h : ltStop u v = true) :
    ∀ x y, lexCmp (u ++ x) (v ++ y) = .lt := by
  induction u generalizing v with
  | nil => simp [ltStop] at h
  | cons a u ih =>
    intro x y
    cases v with
    | nil => simp [ltStop] at h
    | cons b v =>
      simp only [ltStop, Bool.or_eq_true, decide_eq_true_eq, Bool.and_eq_true,
        beq_iff_eq] at h
      rcases h with h | ⟨rfl, h⟩
      · simp [lexCmp, cmpNat, h]
      · simpa [lexCmp, cmpNat] using ih h x y

lemma ltStop_trans : ∀ u v w : List Nat,
    ltStop u v = true → ltStop v w = true → ltStop u w = true := by
  intro u
  induction u with
  | nil => intro v w h; simp [ltStop] at h
  | cons a u ih =>
    intro v w huv hvw
    cases v with
    | nil => simp [ltStop] at huv
    | cons b v =>
      cases w with
      | nil => simp [ltStop] at hvw
      | cons c w =>
        simp only [ltStop, Bool.or_eq_true, decide_eq_true_eq, Bool.and_eq_true,
          beq_iff_eq] at huv hvw ⊢
        rcases huv with h1 | ⟨rfl, h1⟩ <;> rcases hvw with h2 | ⟨he, h2⟩
        · exact Or.inl (by omega)
        · subst he; exact Or.inl h1
        · exact Or.inl h2
        · subst he; exact Or.inr ⟨rfl, ih v w h1 h2⟩

/-- Executable check that consecutive entries of a list are related by
`ltStop` of their codes. -/
def codeChainOk : List Nat → Bool
  | a :: b :: l => ltStop (codeBytes a) (codeBytes b) && codeChainOk (b :: l)
  | _ => true

lemma chain'_of_codeChainOk : ∀ l : List Nat, codeChainOk l = true →
    List.Chain' (fun a b => ltStop (codeBytes a) (codeBytes b) = true) l := by
  intro l
  induction l with
  | nil => intro _; exact List.chain'_nil
  | cons a l ih =>
    intro h
    cases l with
    | nil => exact List.chain'_singleton a
    | cons b l =>
      simp only [codeChainOk, Bool.and_eq_true] at h
      exact List.chain'_cons.mpr ⟨h.1, ih h.2⟩

/-- The non-upper-case byte values in ascending order; on these bytes the
code table is strictly monotone. -/
def nonUpperBytes : List Nat :=
  (List.range 256).filter (fun b => decide (b < 65 ∨ 90 < b))

lemma chain_code_lt :
    List.Chain' (fun a b => ltStop (codeBytes a) (codeBytes b) = true)
      nonUpperBytes :=
  chain'_of_codeChainOk _ (by decide)

lemma pair_sublist_range : ∀ n i j : Nat, i < j → j < n →
    List.Sublist [i, j] (List.range n) := by
  intro n
  induction n with
  | zero => intro i j _ h; omega
  | succ n ih =>
    intro i j hij hj
    rw [List.range_succ]
    rcases Nat.lt_or_ge j n with h | h
    · exact (ih i j hij h).trans (List.sublist_append_left _ _)
    · have hje : j = n := by omega
      subst hje
      have h1 : List.Sublist [i] (List.range j) :=
        List.singleton_sublist.mpr (List.mem_range.mpr hij)
      have := List.Sublist.append h1 (List.Sublist.refl [j])
      simpa using this

/-- Strict monotonicity of the code table outside the relocated upper-case
block: if `i < j < 256` and neither is an upper-case letter then the code of
`i` is decisively lex-below the code of `j`. -/
lemma code_mono {i j : Nat} (hij : i < j) (hj : j < 256)
    (hi : ¬ isUpperByte i) (hjU : ¬ isUpperByte j) :
    ltStop (codeBytes i) (codeBytes j) = true := by
  haveI : IsTrans Nat (fun a b => ltStop (codeBytes a) (codeBytes b) = true) :=
    ⟨fun a b c => ltStop_trans _ _ _⟩
  have hpw := List.chain'_iff_pairwise.mp chain_code_lt
  have hi' : (fun b => decide (b < 65 ∨ 90 < b)) i = true := by
    simp only [decide_eq_true_eq]
    rcases Nat.lt_or_ge i 65 with h | h
    · exact Or.inl h
    · exact Or.inr (by by_contra hc; exact hi ⟨h, by omega⟩)
  have hj' : (fun b => decide (b < 65 ∨ 90 < b)) j = true := by
    simp only [decide_eq_true_eq]
    rcases Nat.lt_or_ge j 65 with h | h
    · exact Or.inl h
    · exact Or.inr (by by_contra hc; exact hjU ⟨h, by omega⟩)
  have hsub : List.Sublist [i, j] nonUpperBytes := by
    have h1 := pair_sublist_range 256 i j hij hj
    have h2 := h1.filter (fun b => decide (b < 65 ∨ 90 < b))
    have hi2 : i < 65 ∨ 90 < i := by simpa using hi'
    have hj2 : j < 65 ∨ 90 < j := by simpa using hj'
    rw [show List.filter (fun b => decide (b < 65 ∨ 90 < b)) [i, j] = [i, j] by
      simp [List.filter_cons, hi2, hj2]] at h2
    exact h2
  have := hpw.sublist hsub
  rcases List.pairwise_cons.mp this with ⟨h1, _⟩
  exact h1 j (List.mem_singleton.mpr rfl)

/- ----------------------------------------------------------------------
Ordering helper lemmas.
---------------------------------------------------------------------- -/

lemma cmpNat_eq_iff {a b : Nat} : cmpNat a b = .eq ↔ a = b := by
  unfold cmpNat; split <;> rename_i h
  · simp; omega
  · split <;> rename_i h2
    · simpa using h2
    · simp; omega

lemma cmpNat_lt_iff {a b : Nat} : cmpNat a b = .lt ↔ a < b := by
  unfold cmpNat; split <;> rename_i h
  · simpa using h
  · split <;> simp <;> omega

lemma cmpNat_gt_iff {a b : Nat} : cmpNat a b = .gt ↔ b < a := by
  unfold cmpNat; split <;> rename_i h
  · simp; omega
  · split <;> rename_i h2 <;> simp <;> omega

lemma lexCmp_append_cancel : ∀ (u x y : List Nat),
    lexCmp (u ++ x) (u ++ y) = lexCmp x y := by
  intro u
  induction u with
  | nil => intro x y; rfl
  | cons a u ih =>
    intro x y
    simp only [List.cons_append, lexCmp, cmpNat_eq_iff.mpr rfl]
    exact ih x y

lemma lexCmp_swap : ∀ (u v : List Nat), lexCmp v u = (lexCmp u v).swap := by
  intro u
  induction u with
  | nil => intro v; cases v <;> rfl
  | cons a u ih =>
    intro v
    cases v with
    | nil => rfl
    | cons b v =>
      simp only [lexCmp]
      rcases Nat.lt_trichotomy a b with h | h | h
      · rw [cmpNat_lt_iff.mpr h, cmpNat_gt_iff.mpr h]; rfl
      · subst h
        rw [cmpNat_eq_iff.mpr rfl]
        exact ih v
      · rw [cmpNat_gt_iff.mpr h, cmpNat_lt_iff.mpr h]; rfl

lemma ltStop_append_gt {u v : List Nat} (h : ltStop v u = true)
    (x y : List Nat) : lexCmp (u ++ x) (v ++ y) = .gt := by
  rw [lexCmp_swap (v ++ y) (u ++ x)]
  rw [ltStop_append h y x]
  rfl

lemma lexCmp_nil_lt {t : List Nat} (h : t ≠ []) : lexCmp [] t = .lt := by
  cases t with
  | nil => exact absurd rfl h
  | cons a t => rfl

lemma lexCmp_gt_nil {t : List Nat} (h : t ≠ []) : lexCmp t [] = .gt := by
  cases t with
  | nil => exact absurd rfl h
  | cons a t => rfl


lemma lexCmp_cons_lt {a b : Nat} (h : a < b) (x y : List Nat) :
    lexCmp (a :: x) (b :: y) = .lt := by
  simp [lexCmp, cmpNat_lt_iff.mpr h]

lemma lexCmp_cons_gt {a b : Nat} (h : b < a) (x y : List Nat) :
    lexCmp (a :: x) (b :: y) = .gt := by
  simp [lexCmp, cmpNat_gt_iff.mpr h]

lemma lexCmp_single_cons_lt {a : Nat} {t : List Nat} (h : t ≠ []) :
    lexCmp [a] (a :: t) = .lt := by
  simp [lexCmp, cmpNat_eq_iff.mpr rfl, lexCmp_nil_lt h]

lemma lexCmp_cons_single_gt {a : Nat} {t : List Nat} (h : t ≠ []) :
    lexCmp (a :: t) [a] = .gt := by
  simp [lexCmp, cmpNat_eq_iff.mpr rfl, lexCmp_gt_nil h]

/- ----------------------------------------------------------------------
Per-byte bridging facts between folded-byte order and code order.
---------------------------------------------------------------------- -/

lemma foldByte_lt_256 {b : Nat} (h : b < 256) : foldByte b < 256 := by
  unfold foldByte; split <;> omega

lemma foldByte_not_upper (b : Nat) : ¬ isUpperByte (foldByte b) := by
  unfold foldByte isUpperByte; split <;> omega

lemma codeBytes_fold {b : Nat} (hb : b < 256) :
    codeBytes b = codeBytes (foldByte b) := by
  unfold codeBytes
  rw [(byte_table_ok b hb).2.1]

lemma code_eq_of_fold_eq {a b : Nat} (ha : a < 256) (hb : b < 256)
    (h : foldByte a = foldByte b) : codeBytes a = codeBytes b := by
  rw [codeBytes_fold ha, codeBytes_fold hb, h]

lemma code_lt_of_fold_lt {a b : Nat} (ha : a < 256) (hb : b < 256)
    (h : foldByte a < foldByte b) :
    ltStop (codeBytes a) (codeBytes b) = true := by
  rw [codeBytes_fold ha, codeBytes_fold hb]
  exact code_mono h (foldByte_lt_256 hb) (foldByte_not_upper a)
    (foldByte_not_upper b)

lemma codeBytes_head_ge {b : Nat} (hb : b < 256) :
    2 ≤ (BYTE_TO_BITS b).1 := (byte_table_ok b hb).1.1

/- ----------------------------------------------------------------------
C1: `TrieName::from_dns_name` (src/triebits.rs) versus canonical DNS name
order (`cmp_any_labels` / `cmp_any_names`, src/dnsname/wire.rs).

A DNS name is represented abstractly by the list of its label texts in
reversed (root-first) order: entry `lab` of the list is exactly the slice
that `rlabel(lab)` returns.  Modelled from the spec: the `rlabel` accessor
itself is not under src/ (it lives in the generation of `dnsname/mod.rs`
that `triebits.rs` and `wire.rs` build on); per the spec, `rlabel(i)`
returns the i-th label counted from the root (i = 0 is the root), label
text only, without its length byte, and nothing once `i ≥ labs`.  The
recursions below over the label list are the loops `for lab in 1..labs`
(`from_dns_name`), `for lab in 0..` (`cmp_any_names`) and `for chr in 0..`
(`cmp_any_labels`) of the source, with `rlabel`/indexing running out of
range corresponding to the list running out.
---------------------------------------------------------------------- -/

/-- The key bytes that `TrieName::from_dns_name` emits for one label:
each byte's one- or two-byte code, then a single `SHIFT_NOBYTE`. -/
def encLabel (l : List Nat) : List Nat :=
  (l.map codeBytes).flatten ++ [SHIFT_NOBYTE]

/-- `TrieName::from_dns_name` from `src/triebits.rs`: clear the key, then
for `lab in 1..labs` emit the codes of `rlabel(lab)` followed by a
`SHIFT_NOBYTE`, and finally one more `SHIFT_NOBYTE` (double-NOBYTE
terminator).  The argument is the name's rlabel list (root first). -/
def from_dns_name (rlabels : List (List Nat)) : List Nat :=
  ((rlabels.drop 1).map encLabel).flatten ++ [SHIFT_NOBYTE]

/-- `cmp_any_labels` from `src/dnsname/wire.rs`: byte-wise comparison of two
label texts with ASCII case folded to lower case, `None < Some` making a
strict front segment compare as less. -/
def cmp_any_labels : List Nat → List Nat → Ordering
  | [], [] => .eq
  | [], _ :: _ => .lt
  | _ :: _, [] => .gt
  | a :: as_, b :: bs =>
    match cmpNat (foldByte a) (foldByte b) with
    | .eq => cmp_any_labels as_ bs
    | o => o

/-- `cmp_any_names` from `src/dnsname/wire.rs`: compare `rlabel(0)`,
`rlabel(1)`, … with `cmp_any_labels`; the name that runs out of labels
first compares as less. -/
def cmp_any_names : List (List Nat) → List (List Nat) → Ordering
  | [], [] => .eq
  | [], _ :: _ => .lt
  | _ :: _, [] => .gt
  | la :: ra, lb :: rb =>
    match cmp_any_labels la lb with
    | .eq => cmp_any_names ra rb
    | o => o

lemma encLabel_cons (b : Nat) (bs : List Nat) :
    encLabel (b :: bs) = codeBytes b ++ encLabel bs := by
  simp [encLabel]

lemma encLabel_cmp : ∀ (la lb : List Nat), (∀ c ∈ la, c < 256) →
    (∀ c ∈ lb, c < 256) → ∀ x y : List Nat,
    lexCmp (encLabel la ++ x) (encLabel lb ++ y) =
      (match cmp_any_labels la lb with | .eq => lexCmp x y | o => o) := by
  intro la
  induction la with
  | nil =>
    intro lb _ hlb x y
    cases lb with
    | nil =>
      rw [show lexCmp (encLabel [] ++ x) (encLabel [] ++ y) = lexCmp x y from
        lexCmp_append_cancel _ x y]
      rfl
    | cons b bs =>
      have hb : b < 256 := hlb b (by simp)
      rw [encLabel_cons, List.append_assoc]
      have h2 := codeBytes_head_ge hb
      exact lexCmp_cons_lt (by omega : 1 < (BYTE_TO_BITS b).1) x _
  | cons a as_ ih =>
    intro lb hla hlb x y
    have ha : a < 256 := hla a (by simp)
    cases lb with
    | nil =>
      rw [encLabel_cons, List.append_assoc]
      have h2 := codeBytes_head_ge ha
      exact lexCmp_cons_gt (by omega : 1 < (BYTE_TO_BITS a).1) _ y
    | cons b bs =>
      have hb : b < 256 := hlb b (by simp)
      rw [encLabel_cons, encLabel_cons, List.append_assoc, List.append_assoc]
      rcases Nat.lt_trichotomy (foldByte a) (foldByte b) with h | h | h
      · rw [ltStop_append (code_lt_of_fold_lt ha hb h) (encLabel as_ ++ x)
          (encLabel bs ++ y)]
        simp [cmp_any_labels, cmpNat_lt_iff.mpr h]
      · rw [code_eq_of_fold_eq ha hb h, lexCmp_append_cancel]
        rw [ih bs (fun c hc => hla c (by simp [hc]))
          (fun c hc => hlb c (by simp [hc])) x y]
        simp [cmp_any_labels, cmpNat_eq_iff.mpr h]
      · rw [ltStop_append_gt (code_lt_of_fold_lt hb ha h) (encLabel as_ ++ x)
          (encLabel bs ++ y)]
        simp [cmp_any_labels, cmpNat_gt_iff.mpr h]

lemma names_cmp : ∀ (ra rb : List (List Nat)),
    (∀ l ∈ ra, ∀ c ∈ l, c < 256) → (∀ l ∈ rb, ∀ c ∈ l, c < 256) →
    lexCmp ((ra.map encLabel).flatten ++ [SHIFT_NOBYTE])
      ((rb.map encLabel).flatten ++ [SHIFT_NOBYTE]) = cmp_any_names ra rb := by
  intro ra
  induction ra with
  | nil =>
    intro rb _ hrb
    cases rb with
    | nil => rfl
    | cons m ms =>
      simp only [List.map_nil, List.flatten_nil, List.nil_append,
        List.map_cons, List.flatten_cons, List.append_assoc]
      cases m with
      | nil =>
        exact lexCmp_single_cons_lt (by simp [encLabel])
      | cons c cs =>
        have hc : c < 256 := hrb (c :: cs) (by simp) c (by simp)
        rw [encLabel_cons, List.append_assoc]
        have h2 := codeBytes_head_ge hc
        exact lexCmp_cons_lt (by omega : 1 < (BYTE_TO_BITS c).1) _ _
  | cons l ls ih =>
    intro rb hra hrb
    cases rb with
    | nil =>
      simp only [List.map_nil, List.flatten_nil, List.nil_append,
        List.map_cons, List.flatten_cons, List.append_assoc]
      cases l with
      | nil =>
        exact lexCmp_cons_single_gt (by simp [encLabel])
      | cons c cs =>
        have hc : c < 256 := hra (c :: cs) (by simp) c (by simp)
        rw [encLabel_cons, List.append_assoc]
        have h2 := codeBytes_head_ge hc
        exact lexCmp_cons_gt (by omega : 1 < (BYTE_TO_BITS c).1) _ _
    | cons m ms =>
      simp only [List.map_cons, List.flatten_cons, List.append_assoc]
      rw [encLabel_cmp l m (hra l (by simp)) (hrb m (by simp))]
      rw [ih ms (fun l' hl' => hra l' (by simp [hl']))
        (fun l' hl' => hrb l' (by simp [hl']))]
      cases h : cmp_any_labels l m <;> simp [cmp_any_names, h]

/-- C1.  For any two DNS names (given by their rlabel lists, whose first
entry is the root label and whose bytes are byte-valued), comparing the trie
keys built by `TrieName::from_dns_name` as byte strings under lexicographic
order gives exactly the DNS canonical-order comparison `cmp_any_names` of
the two names. -/
theorem c1_triekey_order_matches_canonical (ra rb : List (List Nat))
    (hra0 : ra.head? = some []) (hrb0 : rb.head? = some [])
    (hra : ∀ l ∈ ra, ∀ c ∈ l, c < 256) (hrb : ∀ l ∈ rb, ∀ c ∈ l, c < 256) :
    lexCmp (from_dns_name ra) (from_dns_name rb) = cmp_any_names ra rb := by
  cases ra with
  | nil => simp at hra0
  | cons r0 ra' =>
    cases rb with
    | nil => simp at hrb0
    | cons s0 rb' =>
      have hr0 : r0 = [] := by simpa using hra0
      have hs0 : s0 = [] := by simpa using hrb0
      subst hr0; subst hs0
      unfold from_dns_name
      simp only [List.drop_succ_cons, List.drop_zero]
      rw [names_cmp ra' rb' (fun l h => hra l (by simp [h]))
        (fun l h => hrb l (by simp [h]))]
      rfl

theorem c1_witness :
    lexCmp (from_dns_name [[], [97]]) (from_dns_name [[], [98]]) =
      cmp_any_names [[], [97]] [[], [98]] :=
  c1_triekey_order_matches_canonical [[], [97]] [[], [98]] rfl rfl
    (by decide) (by decide)

/- ----------------------------------------------------------------------
C8: the code-table invariants of `src/triebits.rs`.
---------------------------------------------------------------------- -/

/-- C8 counterexample.  The claim asserts that for all `i < j` the code of
byte `i` is lexicographically less than the code of byte `j`, the only
permitted collisions being the A–Z / a–z case-fold pairs.  Taking
`i = 65 = b'A'` and `j = 91 = b'['`: the codes differ (so this is not a
case-fold collision) and the code of `b'A'` is lexicographically *greater*
than the code of `b'['`, because A–Z are relocated to collide with a–z while
`b'['` stays in the escape group opened after the digits. -/
theorem c8_counterexample :
    65 < 91 ∧ BYTE_TO_BITS 65 ≠ BYTE_TO_BITS 91 ∧
    lexCmp (codeBytes 65) (codeBytes 91) = Ordering.gt := by
  decide

/-- C8 amended.  The constant trie-key code tables satisfy:
`BYTE_TO_BITS[b'A'+k] = BYTE_TO_BITS[b'a'+k]` for `k = 0..=25`; every code
byte is 0 or lies in `[2,48)`; and lexicographic monotonicity across `i < j`
holds for all bytes *outside* the upper-case block A–Z (each upper-case
letter instead shares the code of its lower-case partner, so around the
relocated A–Z block strict monotonicity in raw byte order does not hold). -/
theorem c8_code_table_invariants :
    (∀ k, k < 26 → BYTE_TO_BITS (65 + k) = BYTE_TO_BITS (97 + k)) ∧
    (∀ b, b < 256 →
      ((BYTE_TO_BITS b).1 = 0 ∨ 2 ≤ (BYTE_TO_BITS b).1 ∧ (BYTE_TO_BITS b).1 < 48) ∧
      ((BYTE_TO_BITS b).2 = 0 ∨ 2 ≤ (BYTE_TO_BITS b).2 ∧ (BYTE_TO_BITS b).2 < 48)) ∧
    (∀ i j, i < j → j < 256 → ¬ isUpperByte i → ¬ isUpperByte j →
      lexCmp (codeBytes i) (codeBytes j) = Ordering.lt) := by
  refine ⟨?_, ?_, ?_⟩
  · intro k hk
    have h := (byte_table_ok (65 + k) (by omega)).2.1
    rw [show foldByte (65 + k) = 97 + k by unfold foldByte; split <;> omega] at h
    exact h
  · intro b hb
    rcases byte_table_ok b hb with ⟨⟨h1, h2, h3⟩, -⟩
    exact ⟨Or.inr ⟨h1, h2⟩, by rcases h3 with h | h; exact Or.inl h; exact Or.inr h⟩
  · intro i j hij hj hi hjU
    have h := ltStop_append (code_mono hij hj hi hjU) [] []
    simpa using h

theorem c8_witness :
    BYTE_TO_BITS (65 + 0) = BYTE_TO_BITS (97 + 0) ∧
    (((BYTE_TO_BITS 46).1 = 0 ∨ 2 ≤ (BYTE_TO_BITS 46).1 ∧ (BYTE_TO_BITS 46).1 < 48) ∧
      ((BYTE_TO_BITS 46).2 = 0 ∨ 2 ≤ (BYTE_TO_BITS 46).2 ∧ (BYTE_TO_BITS 46).2 < 48)) ∧
    lexCmp (codeBytes 97) (codeBytes 98) = Ordering.lt :=
  ⟨c8_code_table_invariants.1 0 (by omega),
   c8_code_table_invariants.2.1 46 (by omega),
   c8_code_table_invariants.2.2 97 98 (by omega) (by omega)
     (by simp [isUpperByte]) (by simp [isUpperByte])⟩

/- ----------------------------------------------------------------------
`src/dnsname/mod.rs` constants and the `Dodgy` byte accessor.
---------------------------------------------------------------------- -/

/-- `MAX_NAME` from `src/dnsname/mod.rs`. -/
def MAX_NAME : Nat := 255

/-- `MAX_LLEN` from `src/dnsname/mod.rs`. -/
def MAX_LLEN : Nat := 0x3F

/-- `MAX_LABS` from `src/dnsname/mod.rs`: `(MAX_NAME - 1) / 2 + 1 = 128`. -/
def MAX_LABS : Nat := (MAX_NAME - 1) / 2 + 1

/-- `Dodgy::get` from `src/dnsname/mod.rs` and `src/dnsname/scratch.rs`:
panic-free indexing into untrusted data, `NameTruncated` past the end. -/
def dodgyGet (bytes : List Nat) (pos : Nat) : Except Error Nat :=
  match bytes.get? pos with
  | some b => .ok b
  | none => .error .nameTruncated

/-- `ScratchPad::push` from `src/scratchpad.rs`, on a pad of capacity `cap`:
`get_mut(end)` fails with `ScratchOverflow` once the pad is full, otherwise
the element is written at `end` and `end` is incremented.  The initialized
elements of the pad are modelled by the list. -/
def scratchPush (cap : Nat) (l : List Nat) (x : Nat) : Except Error (List Nat) :=
  if l.length < cap then .ok (l ++ [x]) else .error .scratchOverflow

/- ----------------------------------------------------------------------
`src/dnsname/scratch.rs`: `ScratchName`.
---------------------------------------------------------------------- -/

/-- `ScratchName` from `src/dnsname/scratch.rs`: a label-position pad of
capacity `MAX_LABS` and a name pad of capacity `MAX_NAME`. -/
structure ScratchName where
  lpos : List Nat
  name : List Nat
deriving DecidableEq, Repr

/-- `ScratchName::labs`. -/
def ScratchName.labs (s : ScratchName) : Nat := s.lpos.length

/-- `ScratchName::nlen`. -/
def ScratchName.nlen (s : ScratchName) : Nat := s.name.length

/-- The cleared `ScratchName` (`ScratchName::clear` resets both pads). -/
def ScratchName.cleared : ScratchName := ⟨[], []⟩

/-- The byte-copying loop of `ScratchName::add_label`: push
`dodgy[rpos + i].to_ascii_lowercase()` for `i in 0..llen`. -/
def copyFoldBytes (dodgy : List Nat) : Nat → Nat → List Nat → Except Error (List Nat)
  | _, 0, nm => .ok nm
  | rpos, llen + 1, nm => do
    let b ← dodgyGet dodgy rpos
    let nm' ← scratchPush MAX_NAME nm (foldByte b)
    copyFoldBytes dodgy (rpos + 1) llen nm'

/-- `ScratchName::add_label` from `src/dnsname/scratch.rs`: record the write
position (`u8::try_from(nlen)`, whose failure is `NameLengthWat`), push the
length byte, then copy `llen` lower-cased bytes from the source. -/
def ScratchName.add_label (s : ScratchName) (dodgy : List Nat) (rpos llen : Nat) :
    Except Error ScratchName := do
  if 255 < s.name.length then .error .nameLengthWat
  else do
    let lp ← scratchPush MAX_LABS s.lpos s.name.length
    let nm ← scratchPush MAX_NAME s.name llen
    let nm ← copyFoldBytes dodgy rpos llen nm
    .ok ⟨lp, nm⟩

/- ----------------------------------------------------------------------
The shared wire-format parsing loop (`name_from_wire` in
`src/dnsname/mod.rs`, duplicated verbatim as `ScratchName::dodgy_from_wire`
in `src/dnsname/scratch.rs`), generic over the per-label emit
(`label_from_wire`).  `max` is the high-water mark for compression-pointer
targets and `end_` the furthest byte consumed.  The byte-range dispatch
`0x00..=0x3F` / `0x40..=0xBF` / `0xC0..=0xFF` is rendered by the two
comparisons below, exact for byte-valued wires.  Termination of the Rust
loop rests on `max` strictly decreasing at accepted pointers and `pos`
strictly increasing between them; the explicit fuel strictly exceeds any
reachable iteration count for the entry points below.
---------------------------------------------------------------------- -/

def name_from_wire_loop {σ : Type}
    (emit : σ → List Nat → Nat → Nat → Except Error σ)
    (wire : List Nat) :
    Nat → σ → Nat → Nat → Nat → Except Error (σ × Nat)
  | 0, _, _, _, _ => .error .bugFuel
  | fuel + 1, st, pos, max, end_ => do
    let b ← dodgyGet wire pos
    if b ≤ 0x3F then do
      let st' ← emit st wire pos b
      let pos' := pos + 1 + b
      let end' := Nat.max end_ pos'
      if b = 0 then .ok (st', end')
      else name_from_wire_loop emit wire fuel st' pos' max end'
    else if b ≤ 0xBF then .error (.labelType b)
    else do
      let end' := Nat.max end_ (pos + 2)
      let lo ← dodgyGet wire (pos + 1)
      let tgt := ((b &&& 0x3F) <<< 8) ||| lo
      let tb ← dodgyGet wire tgt
      if 0xC0 ≤ tb then .error .compressChain
      else if max ≤ tgt then .error .compressBad
      else name_from_wire_loop emit wire fuel st tgt tgt end'

/-- Fuel strictly exceeding the iteration count of any parse of `wire`:
between accepted pointers `pos` strictly increases and must stay inside the
wire, and targets of accepted pointers strictly decrease, so there are at
most `|wire| + 1` runs of at most `|wire| + 1` steps each. -/
def WIRE_FUEL (wire : List Nat) : Nat := (wire.length + 2) * (wire.length + 2)

/-- `ScratchName::dodgy_from_wire` from `src/dnsname/scratch.rs`: the shared
loop with `add_label(dodgy, pos + 1, llen)` as the per-label action, started
with `max = end = pos`. -/
def ScratchName.dodgy_from_wire (s : ScratchName) (wire : List Nat) (pos : Nat) :
    Except Error (ScratchName × Nat) :=
  name_from_wire_loop (fun s w p l => s.add_label w (p + 1) l) wire
    (WIRE_FUEL wire) s pos pos pos

/-- `ScratchName::from_wire` from `src/dnsname/scratch.rs`: run
`dodgy_from_wire` and, via `clear_err`, clear the name before propagating
any error.  Returns the final state of the target together with the
result. -/
def ScratchName.from_wire (s : ScratchName) (wire : List Nat) (pos : Nat) :
    ScratchName × Except Error Nat :=
  match s.dodgy_from_wire wire pos with
  | .ok (s', e) => (s', .ok e)
  | .error err => (ScratchName.cleared, .error err)

/- ----------------------------------------------------------------------
`src/dnsname/labels.rs`: the position-recording `WireLabels<P>`.
---------------------------------------------------------------------- -/

/-- `WireLabels<P>` from `src/dnsname/labels.rs`: a pad of label positions
(capacity `MAX_LABS`) and the accumulated uncompressed length. -/
structure WireLabels where
  lpos : List Nat
  nlen : Nat
deriving DecidableEq, Repr

/-- `WireLabels::labs`. -/
def WireLabels.labs (w : WireLabels) : Nat := w.lpos.length

/-- `WireLabels::label_from_wire` from `src/dnsname/labels.rs`:
`pos.try_into::<P>()` fails with `WideWire` (`bound` is `2^8` for `P = u8`
and `2^16` for `P = u16`), the position is pushed onto the pad, and then the
running length is checked against `MAX_NAME`, failing with `NameLength`. -/
def WireLabels.label_from_wire (bound : Nat) (w : WireLabels)
    (_wire : List Nat) (pos llen : Nat) : Except Error WireLabels := do
  if bound ≤ pos then .error .wideWire
  else do
    let lp ← scratchPush MAX_LABS w.lpos pos
    if MAX_NAME < w.nlen + 1 + llen then .error .nameLength
    else .ok ⟨lp, w.nlen + 1 + llen⟩

/-- `WireLabels::from_wire` from `src/dnsname/labels.rs`, which is
`Dodgy::fun(name_from_wire, self, wire, pos)` from `src/dnsname/mod.rs`:
clear the target, run the parse, and clear again if it failed.  Returns the
final state of the target together with the result. -/
def WireLabels.from_wire (bound : Nat) (_w : WireLabels) (wire : List Nat)
    (pos : Nat) : WireLabels × Except Error Nat :=
  match name_from_wire_loop (WireLabels.label_from_wire bound) wire
      (WIRE_FUEL wire) ⟨[], 0⟩ pos pos pos with
  | .ok (w', e) => (w', .ok e)
  | .error err => (⟨[], 0⟩, .error err)

/- ----------------------------------------------------------------------
`src/dnsname/scratch.rs`: `ScratchName::dodgy_from_text`, the RFC 1035
zone-file subset text parser.
---------------------------------------------------------------------- -/

/-- The backslash arm of `dodgy_from_text` (`src/dnsname/scratch.rs`), which
runs after `pos` has been advanced past the backslash itself: scan up to
three decimal digits (`for _ in 1..=3 { if let Ok(byte @ b'0'..=b'9') =
dodgy.get(pos) { … } }`); if any digits were found, `u8::try_from` the
accumulated value (failing with `EscapeBad(code)` above 255) and push it
onto the label pad (capacity `MAX_LLEN`); otherwise push the next byte
literally.  Returns the new label pad and position. -/
def escapeArm (text : List Nat) (pos : Nat) (label : List Nat) :
    Except Error (List Nat × Nat) :=
  let scan := ([1, 2, 3].foldl
    (fun (st : Option Nat × Nat) _ =>
      match text.get? st.2 with
      | some b =>
        if 48 ≤ b ∧ b ≤ 57 then (some (st.1.getD 0 * 10 + (b - 48)), st.2 + 1)
        else st
      | none => st)
    (none, pos))
  match scan.1 with
  | some code =>
    if 255 < code then .error (.escapeBad code)
    else do
      let l ← scratchPush MAX_LLEN label code
      .ok (l, scan.2)
  | none => do
    let b ← dodgyGet text scan.2
    let l ← scratchPush MAX_LLEN label b
    .ok (l, scan.2 + 1)

/-- The `check_or_add(Some(&mut label))` closure of `dodgy_from_text`:
convert the label length (`u8::try_from`, failing with `LabelLengthWat`),
call `add_label` with the buffered bytes, and bump the `root`/`sub`
counters.  The caller continues with an empty label pad (`label.clear()`). -/
def checkAddSome (s : ScratchName) (label : List Nat) (root sub : Nat) :
    Except Error (ScratchName × Nat × Nat) := do
  if 255 < label.length then .error .labelLengthWat
  else do
    let s' ← s.add_label label 0 label.length
    .ok (s', root + (if label.length = 0 then 1 else 0),
      sub + (if label.length = 0 then 0 else 1))

/-- The `check_or_add(None)` closure of `dodgy_from_text`: reject the
root/sub counter combinations that make the name malformed, append the root
label when no explicit root was seen, otherwise leave the name as is. -/
def checkAddNone (s : ScratchName) (root sub : Nat) :
    Except Error ScratchName :=
  if 1 < root ∨ (0 < root ∧ 0 < sub) ∨ (root = 0 ∧ sub = 0) then
    .error .nameSyntax
  else if root = 0 then s.add_label [] 0 0
  else .ok s

/-- The code after the `while` loop of `dodgy_from_text`: flush a pending
last label that lacked a trailing dot, run `check_or_add(None)`, and return
the final position. -/
def textFinish (s : ScratchName) (label : List Nat) (root sub pos : Nat) :
    Except Error (ScratchName × Nat) := do
  let (s, root, sub) ←
    if label.isEmpty then .ok (s, root, sub)
    else checkAddSome s label root sub
  let s ← checkAddNone s root sub
  .ok (s, pos)

/-- The `while let Ok(byte) = dodgy.get(pos)` loop of `dodgy_from_text`
(`src/dnsname/scratch.rs`).  Each iteration advances `pos` by at least one,
so fuel `|text| + 2` never runs out.  Byte values: `b'"' = 34`, the
terminators `\n \r \t space ; ( )` are `10 13 9 32 59 40 41` (on seeing one
the parser ungets it and stops), `b'\\' = 92`, `b'.' = 46`. -/
def textLoop (text : List Nat) :
    Nat → ScratchName → List Nat → Nat → Nat → Nat →
    Except Error (ScratchName × Nat)
  | 0, _, _, _, _, _ => .error .bugFuel
  | fuel + 1, s, label, root, sub, pos =>
    match text.get? pos with
    | none => textFinish s label root sub pos
    | some byte =>
      let pos := pos + 1
      if byte = 34 then .error .nameSyntax
      else if byte = 10 ∨ byte = 13 ∨ byte = 9 ∨ byte = 32 ∨ byte = 59 ∨
          byte = 40 ∨ byte = 41 then
        textFinish s label root sub (pos - 1)
      else if byte = 92 then do
        let (label', pos') ← escapeArm text pos label
        textLoop text fuel s label' root sub pos'
      else if byte = 46 then do
        let (s', root', sub') ← checkAddSome s label root sub
        textLoop text fuel s' [] root' sub' pos
      else do
        let label' ← scratchPush MAX_LLEN label byte
        textLoop text fuel s label' root sub pos

/-- `ScratchName::dodgy_from_text` from `src/dnsname/scratch.rs`. -/
def ScratchName.dodgy_from_text (s : ScratchName) (text : List Nat) :
    Except Error (ScratchName × Nat) :=
  textLoop text (text.length + 2) s [] 0 0 0

/-- `ScratchName::from_text` from `src/dnsname/scratch.rs`: run
`dodgy_from_text` and, via `clear_err`, clear the name before propagating
any error. -/
def ScratchName.from_text (s : ScratchName) (text : List Nat) :
    ScratchName × Except Error Nat :=
  match s.dodgy_from_text text with
  | .ok (s', e) => (s', .ok e)
  | .error err => (ScratchName.cleared, .error err)

@[simp] lemma ok_bind {α β : Type} (a : α) (f : α → Except Error β) :
    (Except.ok a >>= f) = f a := rfl

@[simp] lemma error_bind {α β : Type} (e : Error) (f : α → Except Error β) :
    ((Except.error e : Except Error α) >>= f) = Except.error e := rfl

/- ----------------------------------------------------------------------
C5: compression-pointer handling in the wire parser.
---------------------------------------------------------------------- -/

/-- The compression-pointer targets accepted during a parse, in order: an
instrumented twin of `name_from_wire_loop` that records each accepted `pos =
(hi & 0x3F) << 8 | lo` (the runs of both definitions visit identical states;
on any terminal outcome the recorded targets so far are returned). -/
def name_from_wire_targets {σ : Type}
    (emit : σ → List Nat → Nat → Nat → Except Error σ)
    (wire : List Nat) :
    Nat → σ → Nat → Nat → Nat → List Nat
  | 0, _, _, _, _ => []
  | fuel + 1, st, pos, max, end_ =>
    match dodgyGet wire pos with
    | .error _ => []
    | .ok b =>
      if b ≤ 0x3F then
        match emit st wire pos b with
        | .error _ => []
        | .ok st' =>
          if b = 0 then []
          else name_from_wire_targets emit wire fuel st' (pos + 1 + b) max
            (Nat.max end_ (pos + 1 + b))
      else if b ≤ 0xBF then []
      else
        match dodgyGet wire (pos + 1) with
        | .error _ => []
        | .ok lo =>
          let tgt := ((b &&& 0x3F) <<< 8) ||| lo
          match dodgyGet wire tgt with
          | .error _ => []
          | .ok tb =>
            if 0xC0 ≤ tb then []
            else if max ≤ tgt then []
            else tgt :: name_from_wire_targets emit wire fuel st tgt tgt
              (Nat.max end_ (pos + 2))

lemma targets_chain {σ : Type}
    (emit : σ → List Nat → Nat → Nat → Except Error σ) (wire : List Nat) :
    ∀ fuel (st : σ) pos max end_,
    List.Chain' (fun a b => b < a)
      (max :: name_from_wire_targets emit wire fuel st pos max end_) := by
  intro fuel
  induction fuel with
  | zero => intro st pos max end_; simp [name_from_wire_targets]
  | succ fuel ih =>
    intro st pos max end_
    unfold name_from_wire_targets
    cases hget : dodgyGet wire pos with
    | error e => simp
    | ok b =>
      simp only
      by_cases hb : b ≤ 0x3F
      · simp only [if_pos hb]
        cases hemit : emit st wire pos b with
        | error e => simp
        | ok st' =>
          simp only
          by_cases hb0 : b = 0
          · simp [hb0]
          · simpa [hb0] using ih st' (pos + 1 + b) max (Nat.max end_ (pos + 1 + b))
      · simp only [if_neg hb]
        by_cases hb2 : b ≤ 0xBF
        · simp [hb2]
        · simp only [if_neg hb2]
          cases hlo : dodgyGet wire (pos + 1) with
          | error e => simp
          | ok lo =>
            simp only
            cases htb : dodgyGet wire (((b &&& 0x3F) <<< 8) ||| lo) with
            | error e => simp
            | ok tb =>
              simp only
              by_cases hc : 0xC0 ≤ tb
              · simp [hc]
              · simp only [if_neg hc]
                by_cases hm : max ≤ (((b &&& 0x3F) <<< 8) ||| lo)
                · simp [hm]
                · simp only [if_neg hm]
                  refine List.chain'_cons.mpr ⟨by omega, ?_⟩
                  exact ih st (((b &&& 0x3F) <<< 8) ||| lo)
                    (((b &&& 0x3F) <<< 8) ||| lo) (Nat.max end_ (pos + 2))

/-- C5 counterexample.  The claim asserts that a pointer whose 14-bit target
is greater than or equal to the minimum already-seen offset makes the parse
fail with `CompressBad`.  The message `[0xC0, 0x00]` parsed from position 0
is such a pointer — its target 0 equals the minimum already-seen offset 0 —
yet the parse fails with `CompressChain`, because the chained-pointer check
runs before the high-water-mark check and the target byte `0xC0` is itself
in `0xC0..=0xFF`. -/
theorem c5_counterexample :
    (ScratchName.from_wire ScratchName.cleared [0xC0, 0x00] 0).2 =
      .error .compressChain ∧
    Error.compressChain ≠ Error.compressBad := by
  constructor
  · decide
  · decide

/-- C5 amended.  In message (compressed) wire parsing: a compression
pointer whose target byte is itself in `0xC0..=0xFF` makes the parse fail
with `CompressChain` (this check runs first); otherwise a pointer whose
14-bit target is greater than or equal to the minimum already-seen offset
makes the parse fail with `CompressBad`; and the accepted pointer targets,
prefixed by the initial high-water mark, strictly decrease over the course
of one parse. -/
theorem c5_compression_pointer_rules :
    (∀ (σ : Type) (emit : σ → List Nat → Nat → Nat → Except Error σ)
      (wire : List Nat) (fuel : Nat) (st : σ) (pos max end_ b lo tb : Nat),
      dodgyGet wire pos = .ok b → 0xC0 ≤ b →
      dodgyGet wire (pos + 1) = .ok lo →
      dodgyGet wire (((b &&& 0x3F) <<< 8) ||| lo) = .ok tb → 0xC0 ≤ tb →
      name_from_wire_loop emit wire (fuel + 1) st pos max end_ =
        .error .compressChain) ∧
    (∀ (σ : Type) (emit : σ → List Nat → Nat → Nat → Except Error σ)
      (wire : List Nat) (fuel : Nat) (st : σ) (pos max end_ b lo tb : Nat),
      dodgyGet wire pos = .ok b → 0xC0 ≤ b →
      dodgyGet wire (pos + 1) = .ok lo →
      dodgyGet wire (((b &&& 0x3F) <<< 8) ||| lo) = .ok tb → tb < 0xC0 →
      max ≤ ((b &&& 0x3F) <<< 8) ||| lo →
      name_from_wire_loop emit wire (fuel + 1) st pos max end_ =
        .error .compressBad) ∧
    (∀ (σ : Type) (emit : σ → List Nat → Nat → Nat → Except Error σ)
      (wire : List Nat) (fuel : Nat) (st : σ) (pos end_ : Nat),
      List.Chain' (fun a b => b < a)
        (pos :: name_from_wire_targets emit wire fuel st pos pos end_)) := by
  refine ⟨?_, ?_, ?_⟩
  · intro σ emit wire fuel st pos max end_ b lo tb hb hbhi hlo htb htbhi
    unfold name_from_wire_loop
    simp [hb, hlo, htb, show ¬ b ≤ 0x3F by omega, show ¬ b ≤ 0xBF by omega,
      htbhi]
  · intro σ emit wire fuel st pos max end_ b lo tb hb hbhi hlo htb htblo hmax
    unfold name_from_wire_loop
    simp [hb, hlo, htb, show ¬ b ≤ 0x3F by omega, show ¬ b ≤ 0xBF by omega,
      show ¬ 0xC0 ≤ tb by omega, hmax]
  · intro σ emit wire fuel st pos end_
    exact targets_chain emit wire fuel st pos pos end_

theorem c5_witness :
    name_from_wire_loop (fun (s : Unit) _ _ _ => .ok s) [0xC0, 0x00] 1 () 0 0 0 =
      .error .compressChain ∧
    name_from_wire_loop (fun (s : Unit) _ _ _ => .ok s) [0xC0, 0x01] 1 () 0 0 0 =
      .error .compressBad ∧
    List.Chain' (fun a b => b < a)
      (0 :: name_from_wire_targets (fun (s : Unit) _ _ _ => .ok s)
        [0xC0, 0x00] 1 () 0 0 0) :=
  ⟨c5_compression_pointer_rules.1 Unit _ [0xC0, 0x00] 0 () 0 0 0 0xC0 0x00 0xC0
      (by decide) (by decide) (by decide) (by decide) (by decide),
   c5_compression_pointer_rules.2.1 Unit _ [0xC0, 0x01] 0 () 0 0 0 0xC0 0x01 0x01
      (by decide) (by decide) (by decide) (by decide) (by decide) (by decide),
   c5_compression_pointer_rules.2.2 Unit _ [0xC0, 0x00] 1 () 0 0⟩

/- ----------------------------------------------------------------------
C6: on error the parse target is left cleared.
---------------------------------------------------------------------- -/

/-- C6.  For every call to `from_wire` or `from_text` on a `ScratchName`,
and every call to `from_wire` on a `WireLabels`, if the call returns an
error then the target is left cleared: `labs() == 0` and `nlen() == 0`, so
no half-parsed labels or name bytes are observable afterwards. -/
theorem c6_error_clears_target :
    (∀ (s : ScratchName) (wire : List Nat) (pos : Nat) (e : Error),
      (ScratchName.from_wire s wire pos).2 = .error e →
      (ScratchName.from_wire s wire pos).1.labs = 0 ∧
        (ScratchName.from_wire s wire pos).1.nlen = 0) ∧
    (∀ (s : ScratchName) (text : List Nat) (e : Error),
      (ScratchName.from_text s text).2 = .error e →
      (ScratchName.from_text s text).1.labs = 0 ∧
        (ScratchName.from_text s text).1.nlen = 0) ∧
    (∀ (bound : Nat) (w : WireLabels) (wire : List Nat) (pos : Nat) (e : Error),
      (WireLabels.from_wire bound w wire pos).2 = .error e →
      (WireLabels.from_wire bound w wire pos).1.labs = 0 ∧
        (WireLabels.from_wire bound w wire pos).1.nlen = 0) := by
  refine ⟨?_, ?_, ?_⟩
  · intro s wire pos e h
    unfold ScratchName.from_wire at h ⊢
    cases hd : s.dodgy_from_wire wire pos with
    | ok v => rw [hd] at h; cases h
    | error err => exact ⟨rfl, rfl⟩
  · intro s text e h
    unfold ScratchName.from_text at h ⊢
    cases hd : s.dodgy_from_text text with
    | ok v => rw [hd] at h; cases h
    | error err => exact ⟨rfl, rfl⟩
  · intro bound w wire pos e h
    unfold WireLabels.from_wire at h ⊢
    cases hd : name_from_wire_loop (WireLabels.label_from_wire bound) wire
        (WIRE_FUEL wire) ⟨[], 0⟩ pos pos pos with
    | ok v => rw [hd] at h; cases h
    | error err => exact ⟨rfl, rfl⟩

theorem c6_witness :
    (ScratchName.from_wire ScratchName.cleared [] 0).1.labs = 0 ∧
      (ScratchName.from_wire ScratchName.cleared [] 0).1.nlen = 0 :=
  c6_error_clears_target.1 ScratchName.cleared [] 0 .nameTruncated (by decide)

/- ----------------------------------------------------------------------
C7: the length and label-count budgets of wire parsing.
---------------------------------------------------------------------- -/

/-- C7 counterexample.  The claim asserts that wire parsing fails with a
`NameLabels` error whenever the name would have more than 128 labels.  The
error enum of `src/error.rs` has no `NameLabels` variant at all, and on the
129-label wire `(\x01 a) × 128, \x00` the parse instead fails with
`NameLength`: the length budget `nlen + 1 + llen ≤ 255` is exhausted at the
128th label, before the label-position pad (capacity 128) can overflow. -/
theorem c7_counterexample :
    (WireLabels.from_wire 256 ⟨[], 0⟩
        ((List.replicate 128 [1, 97]).flatten ++ [0]) 0).2 =
      .error .nameLength := by
  decide

/-- C7 amended.  In `WireLabels::label_from_wire` (src/dnsname/labels.rs):
after each label emit the cumulative `nlen + 1 + llen ≤ 255` budget is
enforced, failing with `NameLength`; the 128-label budget is enforced by the
label-position pad of capacity `MAX_LABS = 128`, whose overflow fails with
`ScratchOverflow` — not with a `NameLabels` error, which does not exist in
the error enum (and which wire parsing can never reach anyway, because the
length budget always runs out first, as the counterexample shows). -/
theorem c7_name_budgets :
    (∀ (bound : Nat) (w : WireLabels) (wire : List Nat) (pos llen : Nat),
      pos < bound → w.lpos.length < MAX_LABS →
      MAX_NAME < w.nlen + 1 + llen →
      WireLabels.label_from_wire bound w wire pos llen = .error .nameLength) ∧
    (∀ (bound : Nat) (w : WireLabels) (wire : List Nat) (pos llen : Nat),
      pos < bound → MAX_LABS ≤ w.lpos.length →
      WireLabels.label_from_wire bound w wire pos llen =
        .error .scratchOverflow) := by
  constructor
  · intro bound w wire pos llen hpos hlabs hlen
    unfold WireLabels.label_from_wire scratchPush
    simp [show ¬ bound ≤ pos by omega, hlabs, hlen]
  · intro bound w wire pos llen hpos hlabs
    unfold WireLabels.label_from_wire scratchPush
    simp [show ¬ bound ≤ pos by omega, show ¬ w.lpos.length < MAX_LABS by omega]

theorem c7_witness :
    WireLabels.label_from_wire 256 ⟨[0], 254⟩ [] 2 1 = .error .nameLength ∧
    WireLabels.label_from_wire 256 ⟨List.replicate 128 0, 0⟩ [] 2 1 =
      .error .scratchOverflow :=
  ⟨c7_name_budgets.1 256 ⟨[0], 254⟩ [] 2 1 (by decide) (by decide) (by decide),
   c7_name_budgets.2 256 ⟨List.replicate 128 0, 0⟩ [] 2 1 (by decide)
     (by decide)⟩

/- ----------------------------------------------------------------------
C9: decimal escapes in text parsing.
---------------------------------------------------------------------- -/

/-- C9.  In `ScratchName::dodgy_from_text`, after a backslash (the loop has
already advanced `pos` past it): three decimal digits decode to the single
byte with that decimal value, appended to the current label; a value above
255 makes the escape — and hence the whole parse — fail with `EscapeBad`
carrying the value; and a backslash followed by any non-digit byte appends
that byte to the current label unchanged.  The last conjunct shows that an
`EscapeBad` failure of the escape arm propagates out of the parsing loop. -/
theorem c9_text_escapes :
    (∀ (text label : List Nat) (pos d1 d2 d3 : Nat),
      text.get? pos = some d1 → 48 ≤ d1 → d1 ≤ 57 →
      text.get? (pos + 1) = some d2 → 48 ≤ d2 → d2 ≤ 57 →
      text.get? (pos + 2) = some d3 → 48 ≤ d3 → d3 ≤ 57 →
      (d1 - 48) * 100 + (d2 - 48) * 10 + (d3 - 48) ≤ 255 →
      label.length < MAX_LLEN →
      escapeArm text pos label =
        .ok (label ++ [(d1 - 48) * 100 + (d2 - 48) * 10 + (d3 - 48)], pos + 3)) ∧
    (∀ (text label : List Nat) (pos d1 d2 d3 : Nat),
      text.get? pos = some d1 → 48 ≤ d1 → d1 ≤ 57 →
      text.get? (pos + 1) = some d2 → 48 ≤ d2 → d2 ≤ 57 →
      text.get? (pos + 2) = some d3 → 48 ≤ d3 → d3 ≤ 57 →
      255 < (d1 - 48) * 100 + (d2 - 48) * 10 + (d3 - 48) →
      escapeArm text pos label =
        .error (.escapeBad ((d1 - 48) * 100 + (d2 - 48) * 10 + (d3 - 48)))) ∧
    (∀ (text label : List Nat) (pos c : Nat),
      text.get? pos = some c → ¬ (48 ≤ c ∧ c ≤ 57) →
      label.length < MAX_LLEN →
      escapeArm text pos label = .ok (label ++ [c], pos + 1)) ∧
    (∀ (text label : List Nat) (fuel : Nat) (s : ScratchName)
      (root sub pos v : Nat),
      text.get? pos = some 92 →
      escapeArm text (pos + 1) label = .error (.escapeBad v) →
      textLoop text (fuel + 1) s label root sub pos =
        .error (.escapeBad v)) := by
  refine ⟨?_, ?_, ?_, ?_⟩
  · intro text label pos d1 d2 d3 h1 h1a h1b h2 h2a h2b h3 h3a h3b hv hlen
    have hval : ((d1 - 48) * 10 + (d2 - 48)) * 10 + (d3 - 48) =
        (d1 - 48) * 100 + (d2 - 48) * 10 + (d3 - 48) := by ring
    unfold escapeArm
    simp only [List.foldl, h1, h2, h3, if_pos (And.intro h1a h1b),
      if_pos (And.intro h2a h2b), if_pos (And.intro h3a h3b),
      Option.getD_none, Option.getD_some, Nat.zero_mul, Nat.zero_add]
    rw [hval]
    simp [scratchPush, hlen, show ¬ 255 < (d1 - 48) * 100 + (d2 - 48) * 10 +
      (d3 - 48) by omega]
  · intro text label pos d1 d2 d3 h1 h1a h1b h2 h2a h2b h3 h3a h3b hv
    have hval : ((d1 - 48) * 10 + (d2 - 48)) * 10 + (d3 - 48) =
        (d1 - 48) * 100 + (d2 - 48) * 10 + (d3 - 48) := by ring
    unfold escapeArm
    simp only [List.foldl, h1, h2, h3, if_pos (And.intro h1a h1b),
      if_pos (And.intro h2a h2b), if_pos (And.intro h3a h3b),
      Option.getD_none, Option.getD_some, Nat.zero_mul, Nat.zero_add]
    rw [hval]
    simp [hv]
  · intro text label pos c h1 hc hlen
    have h1' : text[pos]? = some c := by
      rw [← List.get?_eq_getElem?]; exact h1
    unfold escapeArm
    simp only [List.foldl, h1, if_neg hc]
    simp [dodgyGet, h1, h1', scratchPush, hlen]
  · intro text label fuel s root sub pos v h92 harm
    unfold textLoop
    rw [h92]
    simp [harm]

theorem c9_witness :
    escapeArm [49, 50, 51] 0 [] = .ok ([123], 3) ∧
    escapeArm [57, 57, 57] 0 [] = .error (.escapeBad 999) ∧
    escapeArm [46, 120] 0 [] = .ok ([46], 1) ∧
    textLoop [92, 57, 57, 57] (4 + 1) ScratchName.cleared [] 0 0 0 =
      .error (.escapeBad 999) := by
  refine ⟨?_, ?_, ?_, ?_⟩
  · have h := c9_text_escapes.1 [49, 50, 51] [] 0 49 50 51 rfl (by decide)
      (by decide) rfl (by decide) (by decide) rfl (by decide) (by decide)
      (by decide) (by decide)
    simpa using h
  · have h := c9_text_escapes.2.1 [57, 57, 57] [] 0 57 57 57 rfl (by decide)
      (by decide) rfl (by decide) (by decide) rfl (by decide) (by decide)
      (by decide)
    simpa using h
  · have h := c9_text_escapes.2.2.1 [46, 120] [] 0 46 rfl (by decide)
      (by decide)
    simpa using h
  · exact c9_text_escapes.2.2.2 [92, 57, 57, 57] [] 4 ScratchName.cleared
      0 0 0 999 rfl (by decide)

/- ----------------------------------------------------------------------
C10: `ScratchPad::append` with an empty slice on an empty pad
(src/scratchpad.rs).
---------------------------------------------------------------------- -/

/-- `ScratchPad::get_mut` from `src/scratchpad.rs` on a pad of capacity
`size`: `self.uninit.get_mut(pos).ok_or(ScratchOverflow)` — in-bounds
positions succeed, everything else is `ScratchOverflow`.  Only the bounds
outcome is relevant here, so the returned pointer is modelled by the
position itself. -/
def ScratchPad.get_mut (size pos : Nat) : Except Error Nat :=
  if pos < size then .ok pos else .error .scratchOverflow

/-- `ScratchPad::append` from `src/scratchpad.rs` under release-build
(wrapping) `usize` arithmetic: bounds-check `end` and `end + len - 1`, copy,
and advance `end`.  The index `end + len - 1` is computed modulo `2^64`, so
for `end = len = 0` it wraps to `2^64 - 1`. -/
def ScratchPad.append (size : Nat) (pad elems : List Nat) :
    Except Error (List Nat) := do
  let len := elems.length
  let _ ← ScratchPad.get_mut size pad.length
  let _ ← ScratchPad.get_mut size ((pad.length + len + (2 ^ 64 - 1)) % 2 ^ 64)
  .ok (pad ++ elems)

/-- `ScratchPad::append` under debug-build (checked) `usize` arithmetic:
the subtraction `end + len - 1` panics on underflow (modelled by `none`). -/
def ScratchPad.append_checked (size : Nat) (pad elems : List Nat) :
    Option (Except Error (List Nat)) :=
  let len := elems.length
  if pad.length + len < 1 then none
  else some (do
    let _ ← ScratchPad.get_mut size pad.length
    let _ ← ScratchPad.get_mut size (pad.length + len - 1)
    .ok (pad ++ elems))

/-- C10.  For every `ScratchPad` with positive capacity (below the `usize`
limit), appending an empty slice to an empty pad never returns `Ok(())`:
under wrapping arithmetic the bounds index `end + len - 1` wraps to
`2^64 - 1` and the call returns `ScratchOverflow`, and under checked
arithmetic the subtraction panics — instead of the no-op that appending
zero elements would suggest. -/
theorem c10_empty_append_fails (size : Nat) (h0 : 0 < size)
    (h1 : size < 2 ^ 64) :
    ScratchPad.append size [] [] = .error .scratchOverflow ∧
    (∀ r, ScratchPad.append size [] [] ≠ .ok r) ∧
    ScratchPad.append_checked size [] [] = none := by
  have hidx : ((0 : Nat) + 0 + (2 ^ 64 - 1)) % 2 ^ 64 = 2 ^ 64 - 1 := by
    norm_num
  refine ⟨?_, ?_, ?_⟩
  · unfold ScratchPad.append ScratchPad.get_mut
    simp only [List.length_nil, hidx]
    simp [h0, show ¬ (18446744073709551615 : Nat) < size by omega]
  · intro r hr
    unfold ScratchPad.append ScratchPad.get_mut at hr
    simp only [List.length_nil, hidx] at hr
    simp [h0, show ¬ (18446744073709551615 : Nat) < size by omega] at hr
  · unfold ScratchPad.append_checked
    simp

theorem c10_witness :
    (0 : Nat) < 255 ∧
      ScratchPad.append 255 [] [] = .error .scratchOverflow :=
  ⟨by omega, (c10_empty_append_fails 255 (by omega) (by norm_num)).1⟩

/- ----------------------------------------------------------------------
C4: cross-representation equality and ordering.

A parsed name is represented by its list of label texts in wire order (head
label first, root label last).  `WireLabels` views the labels as parsed
(raw case); `ScratchName` and `HeapName` store the canonicalized
(lower-cased) labels — `ScratchName::add_label` and the `HeapName`
constructors fold every text byte — and expose the contiguous
`name()` bytes, each label as its length byte followed by its text.
Comparisons: `WireLabels` implements `==`/`cmp`/`partial_cmp` against any
other representation via `cmp_any_names` over the `rlabel` sequences
(src/dnsname/wire.rs), while `ScratchName`'s `PartialEq` compares
`self.name() == other.name()` (src/dnsname/scratch.rs).  Modelled from the
spec: `HeapName`'s comparison impls come from the `impl_dns_name!` macro
which is not under src/; per the spec they agree with the canonical
ordering, i.e. `cmp_any_names`, like `WireLabels`'.
---------------------------------------------------------------------- -/

/-- Canonicalization performed when a name is copied into a `ScratchName`
or `HeapName`: every label byte is lower-cased. -/
def canonLabels (ls : List (List Nat)) : List (List Nat) :=
  ls.map (fun l => l.map foldByte)

/-- The contiguous `name()` bytes of a stored name: for each label its
length byte followed by its text. -/
def nameBytes (ls : List (List Nat)) : List Nat :=
  (ls.map (fun l => l.length :: l)).flatten

/-- Well-formedness of a parsed name's wire-order label list: the last
label is the root (empty) label and every earlier label is non-empty
(`llen == 0` ends a parse, so interior empty labels cannot occur). -/
def wfLabels : List (List Nat) → Prop
  | [] => False
  | [l] => l = []
  | l :: rest => l ≠ [] ∧ wfLabels rest

lemma foldByte_idem (b : Nat) : foldByte (foldByte b) = foldByte b := by
  unfold foldByte
  split
  · rw [if_neg (by omega)]
  · rfl

lemma cmp_labels_fold_left : ∀ a b : List Nat,
    cmp_any_labels (a.map foldByte) b = cmp_any_labels a b := by
  intro a
  induction a with
  | nil => intro b; cases b <;> rfl
  | cons x a ih =>
    intro b
    cases b with
    | nil => rfl
    | cons y b =>
      show (match cmpNat (foldByte (foldByte x)) (foldByte y) with
        | .eq => cmp_any_labels (a.map foldByte) b | o => o) = _
      rw [foldByte_idem, ih]
      rfl

lemma cmp_labels_fold_right : ∀ a b : List Nat,
    cmp_any_labels a (b.map foldByte) = cmp_any_labels a b := by
  intro a
  induction a with
  | nil => intro b; cases b <;> rfl
  | cons x a ih =>
    intro b
    cases b with
    | nil => rfl
    | cons y b =>
      show (match cmpNat (foldByte x) (foldByte (foldByte y)) with
        | .eq => cmp_any_labels a (b.map foldByte) | o => o) = _
      rw [foldByte_idem, ih]
      rfl

lemma cmp_names_fold_left : ∀ ra rb : List (List Nat),
    cmp_any_names (ra.map (fun l => l.map foldByte)) rb =
      cmp_any_names ra rb := by
  intro ra
  induction ra with
  | nil => intro rb; cases rb <;> rfl
  | cons l ra ih =>
    intro rb
    cases rb with
    | nil => rfl
    | cons m rb =>
      show (match cmp_any_labels (l.map foldByte) m with
        | .eq => cmp_any_names (ra.map _) rb | o => o) = _
      rw [cmp_labels_fold_left, ih]
      rfl

lemma cmp_names_fold_right : ∀ ra rb : List (List Nat),
    cmp_any_names ra (rb.map (fun l => l.map foldByte)) =
      cmp_any_names ra rb := by
  intro ra
  induction ra with
  | nil => intro rb; cases rb <;> rfl
  | cons l ra ih =>
    intro rb
    cases rb with
    | nil => rfl
    | cons m rb =>
      show (match cmp_any_labels l (m.map foldByte) with
        | .eq => cmp_any_names ra (rb.map _) | o => o) = _
      rw [cmp_labels_fold_right, ih]
      rfl

lemma cmp_labels_eq_iff : ∀ a b : List Nat,
    cmp_any_labels a b = .eq ↔ a.map foldByte = b.map foldByte := by
  intro a
  induction a with
  | nil =>
    intro b
    cases b with
    | nil => simp [cmp_any_labels]
    | cons y b => simp [cmp_any_labels]
  | cons x a ih =>
    intro b
    cases b with
    | nil => simp [cmp_any_labels]
    | cons y b =>
      show (match cmpNat (foldByte x) (foldByte y) with
        | .eq => cmp_any_labels a b | o => o) = .eq ↔ _
      rcases h : cmpNat (foldByte x) (foldByte y) with hlt | heq | hgt
      · have := cmpNat_lt_iff.mp h
        simp only [List.map_cons, List.cons.injEq]
        constructor
        · intro hc; cases hc
        · intro ⟨h1, _⟩; omega
      · have heq' := cmpNat_eq_iff.mp h
        simp only [List.map_cons, List.cons.injEq]
        constructor
        · intro hc; exact ⟨heq', (ih b).mp hc⟩
        · intro ⟨_, h2⟩; exact (ih b).mpr h2
      · have := cmpNat_gt_iff.mp h
        simp only [List.map_cons, List.cons.injEq]
        constructor
        · intro hc; cases hc
        · intro ⟨h1, _⟩; omega

lemma cmp_names_eq_iff : ∀ ra rb : List (List Nat),
    cmp_any_names ra rb = .eq ↔
      ra.map (fun l => l.map foldByte) = rb.map (fun l => l.map foldByte) := by
  intro ra
  induction ra with
  | nil =>
    intro rb
    cases rb with
    | nil => simp [cmp_any_names]
    | cons m rb => simp [cmp_any_names]
  | cons l ra ih =>
    intro rb
    cases rb with
    | nil => simp [cmp_any_names]
    | cons m rb =>
      show (match cmp_any_labels l m with
        | .eq => cmp_any_names ra rb | o => o) = .eq ↔ _
      rcases h : cmp_any_labels l m with hlt | heq | hgt
      · simp only [List.map_cons, List.cons.injEq]
        constructor
        · intro hc; cases hc
        · intro ⟨h1, _⟩
          have := (cmp_labels_eq_iff l m).mpr h1
          rw [this] at h; cases h
      · have heq' := (cmp_labels_eq_iff l m).mp h
        simp only [List.map_cons, List.cons.injEq]
        constructor
        · intro hc; exact ⟨heq', (ih rb).mp hc⟩
        · intro ⟨_, h2⟩; exact (ih rb).mpr h2
      · simp only [List.map_cons, List.cons.injEq]
        constructor
        · intro hc; cases hc
        · intro ⟨h1, _⟩
          have := (cmp_labels_eq_iff l m).mpr h1
          rw [this] at h; cases h

lemma nameBytes_inj : ∀ la lb : List (List Nat), wfLabels la → wfLabels lb →
    (nameBytes la = nameBytes lb ↔ la = lb) := by
  intro la
  induction la with
  | nil => intro lb hla; cases hla
  | cons l1 rest1 ih =>
    intro lb hla hlb
    cases lb with
    | nil => cases hlb
    | cons l2 rest2 =>
      constructor
      · intro h
        simp only [nameBytes, List.map_cons, List.flatten_cons,
          List.cons_append] at h
        rcases List.cons.injEq _ _ _ _ ▸ h with ⟨hlen, hrest⟩
        rcases List.append_inj hrest (by omega) with ⟨hl, hr⟩
        subst hl
        cases rest1 with
        | nil =>
          cases rest2 with
          | nil => rfl
          | cons m2 ms2 =>
            -- rest1 empty means l1 is the root; rest2 nonempty means
            -- l1 = l2 is a non-root label of lb, contradiction
            have h1 : l1 = [] := hla
            rcases hlb with ⟨hne, _⟩
            exact absurd h1 hne
        | cons m1 ms1 =>
          cases rest2 with
          | nil =>
            have h2 : l1 = [] := hlb
            rcases hla with ⟨hne, _⟩
            exact absurd h2 hne
          | cons m2 ms2 =>
            rcases hla with ⟨-, hwa⟩
            rcases hlb with ⟨-, hwb⟩
            have := (ih _ hwa hwb).mp hr
            rw [this]
      · intro h; rw [h]

lemma wf_canonLabels : ∀ ls : List (List Nat), wfLabels ls →
    wfLabels (canonLabels ls) := by
  intro ls
  induction ls with
  | nil => intro h; cases h
  | cons l rest ih =>
    intro h
    cases rest with
    | nil =>
      have hl : l = [] := h
      subst hl
      show ([] : List Nat).map foldByte = []
      rfl
    | cons m ms =>
      rcases h with ⟨hne, hw⟩
      exact ⟨by simpa using hne, ih hw⟩

/-- C4.  For a pair of parsed inputs, represented by their wire-order label
lists `wa`, `wb` (with `canonLabels` the lower-cased labels stored by
`ScratchName`/`HeapName` and `List.reverse` giving the `rlabel` order):
every cross-representation `cmp`/`partial_cmp`/`==` computed with
`cmp_any_names` returns the same answer whichever of the raw or
canonicalized representations of either input it is given — so the answer
is determined only by the canonical label sequences — and `ScratchName`'s
name-bytes equality agrees with `cmp_any_names` equality. -/
theorem c4_cross_representation_agreement (wa wb : List (List Nat))
    (hwa : wfLabels wa) (hwb : wfLabels wb) :
    (cmp_any_names ((canonLabels wa).reverse) ((canonLabels wb).reverse) =
      cmp_any_names wa.reverse wb.reverse) ∧
    (cmp_any_names (wa.reverse) ((canonLabels wb).reverse) =
      cmp_any_names wa.reverse wb.reverse) ∧
    (cmp_any_names ((canonLabels wa).reverse) (wb.reverse) =
      cmp_any_names wa.reverse wb.reverse) ∧
    ((nameBytes (canonLabels wa) = nameBytes (canonLabels wb)) ↔
      cmp_any_names wa.reverse wb.reverse = .eq) := by
  have hrev : ∀ ls : List (List Nat),
      (canonLabels ls).reverse = ls.reverse.map (fun l => l.map foldByte) := by
    intro ls
    unfold canonLabels
    rw [List.map_reverse]
  refine ⟨?_, ?_, ?_, ?_⟩
  · rw [hrev, hrev, cmp_names_fold_left, cmp_names_fold_right]
  · rw [hrev, cmp_names_fold_right]
  · rw [hrev, cmp_names_fold_left]
  · rw [nameBytes_inj _ _ (wf_canonLabels wa hwa) (wf_canonLabels wb hwb)]
    rw [cmp_names_eq_iff]
    unfold canonLabels
    constructor
    · intro h
      have h2 := congrArg List.reverse h
      rw [List.map_reverse, List.map_reverse]
      exact h2
    · intro h
      have := congrArg List.reverse h
      rwa [List.map_reverse, List.map_reverse, List.reverse_reverse,
        List.reverse_reverse] at this

theorem c4_witness :
    (cmp_any_names ((canonLabels [[97], []]).reverse)
        ((canonLabels [[65], []]).reverse) =
      cmp_any_names [[97], []].reverse [[65], []].reverse) ∧
    (cmp_any_names ([[97], []].reverse) ((canonLabels [[65], []]).reverse) =
      cmp_any_names [[97], []].reverse [[65], []].reverse) ∧
    (cmp_any_names ((canonLabels [[97], []]).reverse) ([[65], []].reverse) =
      cmp_any_names [[97], []].reverse [[65], []].reverse) ∧
    ((nameBytes (canonLabels [[97], []]) = nameBytes (canonLabels [[65], []])) ↔
      cmp_any_names [[97], []].reverse [[65], []].reverse = .eq) :=
  c4_cross_representation_agreement [[97], []] [[65], []]
    (by simp [wfLabels]) (by simp [wfLabels])

/- ----------------------------------------------------------------------
C3 groundwork: bit-level facts about 64-bit bitmaps.
---------------------------------------------------------------------- -/

/-- `u64::count_ones` for values below `2^64`. -/
def popcount64 (n : Nat) : Nat :=
  ((List.range 64).filter (fun i => n.testBit i)).length

/-- The population count of the low `k` bits. -/
def popAux (k n : Nat) : Nat :=
  ((List.range k).filter (fun i => n.testBit i)).length

lemma popAux_zero (n : Nat) : popAux 0 n = 0 := rfl

lemma popAux_succ (k n : Nat) :
    popAux (k + 1) n = (if n % 2 = 1 then 1 else 0) + popAux k (n / 2) := by
  unfold popAux
  rw [List.range_succ_eq_map, List.filter_cons, List.filter_map]
  have hc : ((fun i => n.testBit i) ∘ Nat.succ) = fun i => (n / 2).testBit i := by
    funext i
    simp [Function.comp, Nat.testBit_succ]
  rw [hc]
  by_cases h : n % 2 = 1
  · simp [Nat.testBit_zero, h]
    omega
  · simp [Nat.testBit_zero, h]

lemma popAux_stable : ∀ (k n m : Nat), m < 2 ^ n →
    popAux (n + k) m = popAux n m := by
  intro k
  induction k with
  | zero => intro n m _; rfl
  | succ k ih =>
    intro n m hm
    unfold popAux
    rw [show n + (k + 1) = (n + k) + 1 by omega, List.range_succ,
      List.filter_append]
    have : m.testBit (n + k) = false :=
      Nat.testBit_lt_two_pow (lt_of_lt_of_le hm (Nat.pow_le_pow_right
        (by omega) (by omega)))
    simp only [List.filter_cons, this, List.filter_nil, Bool.false_eq_true,
      if_neg]
    simpa [List.append_nil] using ih n m hm

lemma and_two_pow_of_testBit_false {n p : Nat} (h : n.testBit p = false) :
    n &&& 2 ^ p = 0 := by
  apply Nat.eq_of_testBit_eq
  intro i
  rw [Nat.testBit_and, Nat.testBit_two_pow, Nat.zero_testBit]
  by_cases hip : p = i
  · subst hip; simp [h]
  · simp [hip]

lemma and_two_pow_of_testBit_true {n p : Nat} (h : n.testBit p = true) :
    n &&& 2 ^ p = 2 ^ p := by
  apply Nat.eq_of_testBit_eq
  intro i
  rw [Nat.testBit_and, Nat.testBit_two_pow]
  by_cases hip : p = i
  · subst hip; simp [h]
  · simp [hip]

lemma and_two_pow_ne_zero_iff {n p : Nat} :
    (n &&& 2 ^ p ≠ 0) ↔ n.testBit p = true := by
  constructor
  · intro h
    by_contra hc
    exact h (and_two_pow_of_testBit_false (by simpa using hc))
  · intro h
    rw [and_two_pow_of_testBit_true h]
    positivity

lemma bit_cons_testBit_zero (a c : Nat) (hc : c < 2) :
    (2 * a + c).testBit 0 = decide (c = 1) := by
  rw [Nat.testBit_zero]
  rcases (by omega : c = 0 ∨ c = 1) with h | h <;> subst h <;> simp <;> omega

lemma bit_cons_div_two (a c : Nat) (hc : c < 2) : (2 * a + c) / 2 = a := by
  omega

lemma bit_cons_testBit_succ (a c i : Nat) (hc : c < 2) :
    (2 * a + c).testBit (i + 1) = a.testBit i := by
  rw [Nat.testBit_succ, bit_cons_div_two a c hc]

lemma xor_double (a d c : Nat) (hc : c < 2) :
    (2 * a + c) ^^^ (2 * d) = 2 * (a ^^^ d) + c := by
  apply Nat.eq_of_testBit_eq
  intro i
  cases i with
  | zero =>
    rw [Nat.testBit_xor, bit_cons_testBit_zero a c hc,
      bit_cons_testBit_zero (a ^^^ d) c hc,
      show 2 * d = 2 * d + 0 by omega, bit_cons_testBit_zero d 0 (by omega)]
    simp
  | succ i =>
    rw [Nat.testBit_xor, bit_cons_testBit_succ a c i hc,
      bit_cons_testBit_succ (a ^^^ d) c i hc,
      show 2 * d = 2 * d + 0 by omega, bit_cons_testBit_succ d 0 i (by omega),
      Nat.testBit_xor]

lemma xor_eq_add_of_lt : ∀ (p a : Nat), a < 2 ^ p → a ^^^ 2 ^ p = a + 2 ^ p := by
  intro p
  induction p with
  | zero =>
    intro a ha
    interval_cases a
    rfl
  | succ p ih =>
    intro a ha
    have ha2 : a / 2 < 2 ^ p := by
      rw [Nat.pow_succ] at ha; omega
    have hdecomp : a = 2 * (a / 2) + a % 2 := by omega
    rw [hdecomp, Nat.pow_succ, Nat.mul_comm (2 ^ p) 2,
      xor_double (a / 2) (2 ^ p) (a % 2) (by omega), ih (a / 2) ha2]
    ring

/-- The bitmap whose bit `i` records whether slot `i` of the oracle list is
occupied. -/
def bitmapOf {V : Type} (l : List (Option V)) : Nat :=
  l.foldr (fun x acc => 2 * acc + (if x.isSome then 1 else 0)) 0

lemma bitmapOf_nil {V : Type} : bitmapOf ([] : List (Option V)) = 0 := rfl

lemma bitmapOf_cons {V : Type} (x : Option V) (xs : List (Option V)) :
    bitmapOf (x :: xs) = 2 * bitmapOf xs + (if x.isSome then 1 else 0) := rfl

lemma bitmapOf_lt {V : Type} : ∀ l : List (Option V),
    bitmapOf l < 2 ^ l.length := by
  intro l
  induction l with
  | nil => simp [bitmapOf_nil]
  | cons x xs ih =>
    rw [bitmapOf_cons, List.length_cons, Nat.pow_succ]
    by_cases h : x.isSome <;> simp [h] <;> omega

lemma testBit_bitmapOf {V : Type} : ∀ (l : List (Option V)) (p : Nat),
    (bitmapOf l).testBit p = (l.getD p none).isSome := by
  intro l
  induction l with
  | nil =>
    intro p
    rw [bitmapOf_nil, Nat.zero_testBit]
    simp [List.getD]
  | cons x xs ih =>
    intro p
    rw [bitmapOf_cons]
    cases p with
    | zero =>
      rw [bit_cons_testBit_zero _ _ (by split <;> omega)]
      by_cases h : x.isSome <;> simp [h, List.getD]
    | succ p =>
      rw [bit_cons_testBit_succ _ _ _ (by split <;> omega), ih p]
      simp [List.getD]

lemma bitmapOf_take_eq_mod {V : Type} : ∀ (l : List (Option V)) (p : Nat),
    bitmapOf (l.take p) = bitmapOf l % 2 ^ p := by
  intro l
  induction l with
  | nil => intro p; simp [bitmapOf_nil]
  | cons x xs ih =>
    intro p
    cases p with
    | zero => simp [bitmapOf_nil, Nat.mod_one]
    | succ p =>
      rw [List.take_succ_cons, bitmapOf_cons, bitmapOf_cons, ih p]
      set c := (if x.isSome then 1 else 0) with hc
      have hclt : c < 2 := by rw [hc]; split <;> omega
      have hq := Nat.div_add_mod (bitmapOf xs) (2 ^ p)
      have hr : bitmapOf xs % 2 ^ p < 2 ^ p :=
        Nat.mod_lt _ (by positivity)
      have hsplit : 2 * bitmapOf xs + c =
          2 ^ (p + 1) * (bitmapOf xs / 2 ^ p) +
            (2 * (bitmapOf xs % 2 ^ p) + c) := by
        have hpow : (2 : Nat) ^ (p + 1) * (bitmapOf xs / 2 ^ p) =
            2 * (2 ^ p * (bitmapOf xs / 2 ^ p)) := by ring
        omega
      have hlt : 2 * (bitmapOf xs % 2 ^ p) + c < 2 ^ (p + 1) := by
        have hpow : (2 : Nat) ^ (p + 1) = 2 ^ p * 2 := by ring
        omega
      rw [hsplit, Nat.mul_add_mod, Nat.mod_eq_of_lt hlt]

/-- Number of occupied slots of an oracle list. -/
def countSome {V : Type} (l : List (Option V)) : Nat :=
  l.countP (fun x => x.isSome)

lemma countSome_nil {V : Type} : countSome ([] : List (Option V)) = 0 := rfl

lemma countSome_cons {V : Type} (x : Option V) (xs : List (Option V)) :
    countSome (x :: xs) = (if x.isSome then 1 else 0) + countSome xs := by
  unfold countSome
  rw [List.countP_cons]
  by_cases h : x.isSome <;> simp [h, Nat.add_comm]

lemma popAux_bitmapOf {V : Type} : ∀ (l : List (Option V)),
    popAux l.length (bitmapOf l) = countSome l := by
  intro l
  induction l with
  | nil => rfl
  | cons x xs ih =>
    rw [List.length_cons, popAux_succ, bitmapOf_cons, countSome_cons]
    by_cases h : x.isSome
    · simp only [h, if_true]
      rw [bit_cons_div_two _ _ (by omega), ih, if_pos (by omega)]
    · simp only [h, Bool.false_eq_true, if_false]
      rw [bit_cons_div_two _ _ (by omega), ih, if_neg (by omega)]

lemma popcount64_bitmapOf {V : Type} (l : List (Option V))
    (hl : l.length ≤ 64) : popcount64 (bitmapOf l) = countSome l := by
  have h := popAux_stable (64 - l.length) l.length (bitmapOf l) (bitmapOf_lt l)
  rw [show l.length + (64 - l.length) = 64 by omega] at h
  unfold popcount64
  rw [show ((List.range 64).filter (fun i => (bitmapOf l).testBit i)).length =
    popAux 64 (bitmapOf l) from rfl, h, popAux_bitmapOf]

/- ----------------------------------------------------------------------
C3 groundwork: oracle-list surgery (set / filterMap / countSome).
---------------------------------------------------------------------- -/

lemma getD_set_eq {V : Type} : ∀ (l : List (Option V)) (p : Nat) (x : Option V),
    p < l.length → (l.set p x).getD p none = x := by
  intro l
  induction l with
  | nil => intro p x h; simp at h
  | cons y ys ih =>
    intro p x h
    cases p with
    | zero => rfl
    | succ p =>
      rw [List.set_cons_succ]
      simpa [List.getD] using ih p x (by simpa using h)

lemma getD_set_ne {V : Type} : ∀ (l : List (Option V)) (p i : Nat) (x : Option V),
    p ≠ i → (l.set p x).getD i none = l.getD i none := by
  intro l
  induction l with
  | nil => intro p i x h; simp [List.getD]
  | cons y ys ih =>
    intro p i x h
    cases p with
    | zero =>
      cases i with
      | zero => exact absurd rfl h
      | succ i => rfl
    | succ p =>
      cases i with
      | zero => rfl
      | succ i =>
        rw [List.set_cons_succ]
        simpa [List.getD] using ih p i x (by omega)

lemma take_set_self {V : Type} : ∀ (l : List (Option V)) (p : Nat) (x : Option V),
    (l.set p x).take p = l.take p := by
  intro l
  induction l with
  | nil => intro p x; simp
  | cons y ys ih =>
    intro p x
    cases p with
    | zero => simp
    | succ p =>
      rw [List.set_cons_succ, List.take_succ_cons, List.take_succ_cons, ih]

lemma set_none_of_none {V : Type} : ∀ (l : List (Option V)) (p : Nat),
    l.getD p none = none → l.set p none = l := by
  intro l
  induction l with
  | nil => intro p _; rfl
  | cons y ys ih =>
    intro p h
    cases p with
    | zero =>
      have : y = none := by simpa [List.getD] using h
      rw [this, List.set_cons_zero]
    | succ p =>
      rw [List.set_cons_succ, ih p (by simpa [List.getD] using h)]

lemma filterMap_get_rank {V : Type} : ∀ (l : List (Option V)) (p : Nat) (w : V),
    l.getD p none = some w →
    (l.filterMap id).get? (countSome (l.take p)) = some w := by
  intro l
  induction l with
  | nil => intro p w h; simp [List.getD] at h
  | cons x xs ih =>
    intro p w h
    cases p with
    | zero =>
      have hx : x = some w := by simpa [List.getD] using h
      subst hx
      simp [List.filterMap_cons, countSome_nil]
    | succ p =>
      rw [List.take_succ_cons, countSome_cons]
      cases x with
      | none =>
        simp only [Option.isSome_none, Bool.false_eq_true, if_false,
          Nat.zero_add, List.filterMap_cons]
        exact ih p w (by simpa [List.getD] using h)
      | some v =>
        simp only [Option.isSome_some, if_true, List.filterMap_cons, id]
        rw [Nat.add_comm 1 (countSome (xs.take p)), List.get?_cons_succ]
        exact ih p w (by simpa [List.getD] using h)

lemma filterMap_set_insert {V : Type} :
    ∀ (l : List (Option V)) (p : Nat) (v : V),
    l.getD p none = none → p < l.length →
    (l.set p (some v)).filterMap id =
      (l.filterMap id).insertIdx (countSome (l.take p)) v := by
  intro l
  induction l with
  | nil => intro p v _ h; simp at h
  | cons x xs ih =>
    intro p v h hp
    cases p with
    | zero =>
      have hx : x = none := by simpa [List.getD] using h
      subst hx
      simp [List.filterMap_cons, countSome_nil, List.insertIdx_zero]
    | succ p =>
      rw [List.set_cons_succ, List.take_succ_cons, countSome_cons]
      cases x with
      | none =>
        simp only [Option.isSome_none, Bool.false_eq_true, if_false,
          Nat.zero_add, List.filterMap_cons]
        exact ih p v (by simpa [List.getD] using h) (by simpa using hp)
      | some w =>
        simp only [Option.isSome_some, if_true, List.filterMap_cons, id]
        rw [Nat.add_comm 1 (countSome (xs.take p)), List.insertIdx_succ_cons]
        rw [ih p v (by simpa [List.getD] using h) (by simpa using hp)]

lemma filterMap_set_erase {V : Type} :
    ∀ (l : List (Option V)) (p : Nat) (w : V),
    l.getD p none = some w →
    (l.set p none).filterMap id =
      (l.filterMap id).eraseIdx (countSome (l.take p)) := by
  intro l
  induction l with
  | nil => intro p w h; simp [List.getD] at h
  | cons x xs ih =>
    intro p w h
    cases p with
    | zero =>
      have hx : x = some w := by simpa [List.getD] using h
      subst hx
      simp [List.filterMap_cons, countSome_nil]
    | succ p =>
      rw [List.set_cons_succ, List.take_succ_cons, countSome_cons]
      cases x with
      | none =>
        simp only [Option.isSome_none, Bool.false_eq_true, if_false,
          Nat.zero_add, List.filterMap_cons]
        exact ih p w (by simpa [List.getD] using h)
      | some u =>
        simp only [Option.isSome_some, if_true, List.filterMap_cons, id]
        rw [Nat.add_comm 1 (countSome (xs.take p)), List.eraseIdx_cons_succ]
        rw [ih p w (by simpa [List.getD] using h)]

lemma filterMap_set_overwrite {V : Type} :
    ∀ (l : List (Option V)) (p : Nat) (v w : V),
    l.getD p none = some w →
    (l.set p (some v)).filterMap id =
      (l.filterMap id).set (countSome (l.take p)) v := by
  intro l
  induction l with
  | nil => intro p v w h; simp [List.getD] at h
  | cons x xs ih =>
    intro p v w h
    cases p with
    | zero =>
      have hx : x = some w := by simpa [List.getD] using h
      subst hx
      simp [List.filterMap_cons, countSome_nil]
    | succ p =>
      rw [List.set_cons_succ, List.take_succ_cons, countSome_cons]
      cases x with
      | none =>
        simp only [Option.isSome_none, Bool.false_eq_true, if_false,
          Nat.zero_add, List.filterMap_cons]
        exact ih p v w (by simpa [List.getD] using h)
      | some u =>
        simp only [Option.isSome_some, if_true, List.filterMap_cons, id]
        rw [Nat.add_comm 1 (countSome (xs.take p)), List.set_cons_succ]
        rw [ih p v w (by simpa [List.getD] using h)]

lemma countSome_set_insert {V : Type} :
    ∀ (l : List (Option V)) (p : Nat) (v : V),
    l.getD p none = none → p < l.length →
    countSome (l.set p (some v)) = countSome l + 1 := by
  intro l
  induction l with
  | nil => intro p v _ h; simp at h
  | cons x xs ih =>
    intro p v h hp
    cases p with
    | zero =>
      have hx : x = none := by simpa [List.getD] using h
      subst hx
      simp [countSome_cons]
      omega
    | succ p =>
      rw [List.set_cons_succ, countSome_cons, countSome_cons,
        ih p v (by simpa [List.getD] using h) (by simpa using hp)]
      omega

lemma countSome_set_erase {V : Type} :
    ∀ (l : List (Option V)) (p : Nat) (w : V),
    l.getD p none = some w →
    countSome (l.set p none) = countSome l - 1 ∧ 0 < countSome l := by
  intro l
  induction l with
  | nil => intro p w h; simp [List.getD] at h
  | cons x xs ih =>
    intro p w h
    cases p with
    | zero =>
      have hx : x = some w := by simpa [List.getD] using h
      subst hx
      simp [countSome_cons]
    | succ p =>
      rw [List.set_cons_succ, countSome_cons, countSome_cons]
      rcases ih p w (by simpa [List.getD] using h) with ⟨h1, h2⟩
      constructor
      · rw [h1]; omega
      · omega

lemma countSome_set_overwrite {V : Type} :
    ∀ (l : List (Option V)) (p : Nat) (v w : V),
    l.getD p none = some w →
    countSome (l.set p (some v)) = countSome l := by
  intro l
  induction l with
  | nil => intro p v w h; simp [List.getD] at h
  | cons x xs ih =>
    intro p v w h
    cases p with
    | zero =>
      have hx : x = some w := by simpa [List.getD] using h
      subst hx
      simp [countSome_cons]
    | succ p =>
      rw [List.set_cons_succ, countSome_cons, countSome_cons,
        ih p v w (by simpa [List.getD] using h)]

lemma bitmapOf_set_insert {V : Type} (l : List (Option V)) (p : Nat) (v : V)
    (h : l.getD p none = none) (hp : p < l.length) :
    bitmapOf (l.set p (some v)) = bitmapOf l ^^^ 2 ^ p := by
  apply Nat.eq_of_testBit_eq
  intro i
  rw [testBit_bitmapOf, Nat.testBit_xor, testBit_bitmapOf,
    Nat.testBit_two_pow]
  by_cases hip : p = i
  · subst hip
    rw [getD_set_eq l p _ hp, h]
    simp
  · rw [getD_set_ne l p i _ hip]
    simp [hip]

lemma bitmapOf_set_erase {V : Type} (l : List (Option V)) (p : Nat) (w : V)
    (h : l.getD p none = some w) (hp : p < l.length) :
    bitmapOf (l.set p none) = bitmapOf l ^^^ 2 ^ p := by
  apply Nat.eq_of_testBit_eq
  intro i
  rw [testBit_bitmapOf, Nat.testBit_xor, testBit_bitmapOf,
    Nat.testBit_two_pow]
  by_cases hip : p = i
  · subst hip
    rw [getD_set_eq l p _ hp, h]
    simp
  · rw [getD_set_ne l p i _ hip]
    simp [hip]

lemma bitmapOf_set_overwrite {V : Type} (l : List (Option V)) (p : Nat)
    (v w : V) (h : l.getD p none = some w) (hp : p < l.length) :
    bitmapOf (l.set p (some v)) = bitmapOf l := by
  apply Nat.eq_of_testBit_eq
  intro i
  rw [testBit_bitmapOf, testBit_bitmapOf]
  by_cases hip : p = i
  · subst hip
    rw [getD_set_eq l p _ hp, h]
    simp
  · rw [getD_set_ne l p i _ hip]

lemma rank_eq_countSome_take {V : Type} (l : List (Option V)) (p : Nat)
    (hl : l.length ≤ 64) :
    popcount64 (bitmapOf l &&& (1 <<< p - 1)) = countSome (l.take p) := by
  rw [show (1 <<< p : Nat) = 2 ^ p by simp [Nat.shiftLeft_eq],
    Nat.and_pow_two_sub_one_eq_mod, ← bitmapOf_take_eq_mod,
    popcount64_bitmapOf]
  calc (l.take p).length = min p l.length := List.length_take p l
    _ ≤ 64 := by omega

/- ----------------------------------------------------------------------
C3: `BmpVec` (src/bmpvec.rs) and its reference model `BlimpVec`
(src/test/blimpvec.rs).

A `BmpVec<T>` is a 64-bit bitmap plus a packed allocation holding exactly
`popcount(bmp)` elements; the allocation is modelled by the list of its
elements and the `u64` bitmap by a `Nat` below `2^64`.  Functions that can
panic (`set` on an out-of-range insert, `BlimpVec::set` out of range)
return `Option`, with `none` the panic.
---------------------------------------------------------------------- -/

/-- `bitmask(pos)` from the `bmp` module of `src/bmpvec.rs`: for
`0 ≤ pos ≤ 63`, the `Bit` `1 << pos` and the `Mask` of all lesser bits;
`None` out of range. -/
def bitmask (pos : Nat) : Option (Nat × Nat) :=
  if pos ≤ 63 then some (1 <<< pos, 1 <<< pos - 1) else none

structure BmpVec (V : Type) where
  bmp : Nat
  vec : List V
deriving DecidableEq, Repr

/-- `Bmp & Mask`: popcount of the covered lesser bits — the rank. -/
def bmpRank (bmp mask : Nat) : Nat := popcount64 (bmp &&& mask)

/-- `BmpVec::contains`. -/
def BmpVec.contains {V : Type} (b : BmpVec V) (pos : Nat) : Bool :=
  match bitmask pos with
  | some (bit, _) => b.bmp &&& bit != 0
  | none => false

/-- `BmpVec::get` (via `get_ptr`: bit test, then read at the rank). -/
def BmpVec.get {V : Type} (b : BmpVec V) (pos : Nat) : Option V :=
  match bitmask pos with
  | some (bit, mask) =>
    if b.bmp &&& bit != 0 then b.vec.get? (bmpRank b.bmp mask) else none
  | none => none

/-- `BmpVec::get_mut` reads through the same `get_ptr` as `get`. -/
def BmpVec.get_mut {V : Type} (b : BmpVec V) (pos : Nat) : Option V :=
  BmpVec.get b pos

/-- `BmpVec::set` from `src/bmpvec.rs`.  Returns `none` for the
out-of-range-insert panic, otherwise the old value and the new vector:
overwrite in place when the bit is set, splice in at the rank (and set the
bit) when inserting, splice out at the rank (and clear the bit) when
removing; removing an absent or out-of-range element returns `None` and
leaves the vector unchanged. -/
def BmpVec.set {V : Type} (b : BmpVec V) (pos : Nat) (val : Option V) :
    Option (Option V × BmpVec V) :=
  match bitmask pos, val with
  | some (bit, mask), some v =>
    if b.bmp &&& bit != 0 then
      some (b.vec.get? (bmpRank b.bmp mask),
        ⟨b.bmp, b.vec.set (bmpRank b.bmp mask) v⟩)
    else
      some (none, ⟨b.bmp ^^^ bit, b.vec.insertIdx (bmpRank b.bmp mask) v⟩)
  | some (bit, mask), none =>
    if b.bmp &&& bit != 0 then
      some (b.vec.get? (bmpRank b.bmp mask),
        ⟨b.bmp ^^^ bit, b.vec.eraseIdx (bmpRank b.bmp mask)⟩)
    else some (none, b)
  | none, some _ => none
  | none, none => some (none, b)

/-- `BmpVec::insert`. -/
def BmpVec.insert {V : Type} (b : BmpVec V) (pos : Nat) (v : V) :
    Option (Option V × BmpVec V) :=
  b.set pos (some v)

/-- `BmpVec::remove`. -/
def BmpVec.remove {V : Type} (b : BmpVec V) (pos : Nat) :
    Option (Option V × BmpVec V) :=
  b.set pos none

/-- `BmpVec::len` (`Bmp::len` is the popcount). -/
def BmpVec.len {V : Type} (b : BmpVec V) : Nat := popcount64 b.bmp

/-- `BmpVec::is_empty` (`Bmp::is_empty` tests the bitmap against zero). -/
def BmpVec.isEmptyB {V : Type} (b : BmpVec V) : Bool := b.bmp == 0

/-- `BmpVec::keys` (`bmp::Iter` yields each set bit position, ascending
0 through 63). -/
def BmpVec.keys {V : Type} (b : BmpVec V) : List Nat :=
  (List.range 64).filter (fun i => b.bmp &&& 1 <<< i != 0)

/-- `BmpVec::values` (iterates the packed slice). -/
def BmpVec.values {V : Type} (b : BmpVec V) : List V := b.vec

/-- `BmpVec::new`. -/
def BmpVec.new (V : Type) : BmpVec V := ⟨0, []⟩

structure BlimpVec (V : Type) where
  len : Nat
  vec : List (Option V)
deriving DecidableEq, Repr

/-- `BlimpVec::new`: 64 empty slots. -/
def BlimpVec.new (V : Type) : BlimpVec V := ⟨0, List.replicate 64 none⟩

/-- `BlimpVec::get_pos`: the position, when within the slot vector. -/
def BlimpVec.get_pos {V : Type} (o : BlimpVec V) (pos : Nat) : Option Nat :=
  if pos < o.vec.length then some pos else none

/-- `BlimpVec::get`. -/
def BlimpVec.get {V : Type} (o : BlimpVec V) (pos : Nat) : Option V :=
  match o.get_pos pos with
  | some p => o.vec.getD p none
  | none => none

/-- `BlimpVec::get_mut` reads the same slot as `get`. -/
def BlimpVec.get_mut {V : Type} (o : BlimpVec V) (pos : Nat) : Option V :=
  BlimpVec.get o pos

/-- `BlimpVec::contains`. -/
def BlimpVec.contains {V : Type} (o : BlimpVec V) (pos : Nat) : Bool :=
  (o.get pos).isSome

/-- `BlimpVec::set` from `src/test/blimpvec.rs`: replace the slot, panic
(`none`) out of range, and adjust `len` by whether a value appeared or
disappeared. -/
def BlimpVec.set {V : Type} (o : BlimpVec V) (pos : Nat) (val : Option V) :
    Option (Option V × BlimpVec V) :=
  match o.get_pos pos with
  | some p =>
    let old := o.vec.getD p none
    let len' :=
      match old.isSome, val.isSome with
      | false, true => o.len + 1
      | true, false => o.len - 1
      | _, _ => o.len
    some (old, ⟨len', o.vec.set p val⟩)
  | none => none

/-- `BlimpVec::insert`. -/
def BlimpVec.insert {V : Type} (o : BlimpVec V) (pos : Nat) (v : V) :
    Option (Option V × BlimpVec V) :=
  o.set pos (some v)

/-- `BlimpVec::remove`. -/
def BlimpVec.remove {V : Type} (o : BlimpVec V) (pos : Nat) :
    Option (Option V × BlimpVec V) :=
  o.set pos none

/-- `BlimpVec::is_empty`. -/
def BlimpVec.isEmptyB {V : Type} (o : BlimpVec V) : Bool := o.len == 0

/-- `BlimpVec::keys`: positions of the occupied slots, ascending. -/
def BlimpVec.keys {V : Type} (o : BlimpVec V) : List Nat :=
  (o.vec.enum.filter (fun pv => pv.2.isSome)).map (fun pv => pv.1)

/-- `BlimpVec::values`: the occupied slots' values in slot order. -/
def BlimpVec.values {V : Type} (o : BlimpVec V) : List V :=
  o.vec.filterMap id

/-- The coupling between a `BmpVec` and the oracle it refines: the oracle
has its 64 slots, its `len` field counts the occupied slots, the bitmap has
exactly the occupied slots' bits set, and the packed vector holds the
occupied slots' values in slot order. -/
def Couples {V : Type} (b : BmpVec V) (o : BlimpVec V) : Prop :=
  o.vec.length = 64 ∧ o.len = countSome o.vec ∧
  b.bmp = bitmapOf o.vec ∧ b.vec = o.vec.filterMap id

lemma couples_new (V : Type) : Couples (BmpVec.new V) (BlimpVec.new V) := by
  refine ⟨by simp [BlimpVec.new], ?_, ?_, ?_⟩
  · show (0 : Nat) = countSome (List.replicate 64 (none : Option V))
    unfold countSome
    rw [List.countP_eq_length_filter]
    simp [List.filter_replicate]
  · show (0 : Nat) = bitmapOf (List.replicate 64 (none : Option V))
    induction (64 : Nat) with
    | zero => rfl
    | succ n ih =>
      rw [List.replicate_succ, bitmapOf_cons, ← ih]
      simp
  · show ([] : List V) = (List.replicate 64 (none : Option V)).filterMap id
    simp

/- ----------------------------------------------------------------------
C3: per-operation agreement between `BmpVec` and `BlimpVec`.
---------------------------------------------------------------------- -/

lemma bit_test_couples {V : Type} {b : BmpVec V} {o : BlimpVec V}
    (hC : Couples b o) (p : Nat) :
    (b.bmp &&& 1 <<< p != 0) = (o.vec.getD p none).isSome := by
  rcases hC with ⟨-, -, hbmp, -⟩
  rw [hbmp, show (1 <<< p : Nat) = 2 ^ p by simp [Nat.shiftLeft_eq]]
  cases h : (o.vec.getD p none).isSome with
  | true =>
    rw [and_two_pow_of_testBit_true (by rw [testBit_bitmapOf]; exact h)]
    simp
  | false =>
    rw [and_two_pow_of_testBit_false (by rw [testBit_bitmapOf]; exact h)]
    simp

lemma rank_couples {V : Type} {b : BmpVec V} {o : BlimpVec V}
    (hC : Couples b o) (p : Nat) :
    bmpRank b.bmp (1 <<< p - 1) = countSome (o.vec.take p) := by
  rcases hC with ⟨hlen, -, hbmp, -⟩
  unfold bmpRank
  rw [hbmp]
  exact rank_eq_countSome_take o.vec p (by omega)

lemma get_agree {V : Type} {b : BmpVec V} {o : BlimpVec V}
    (hC : Couples b o) (p : Nat) (hp : p ≤ 63) :
    BmpVec.get b p = BlimpVec.get o p := by
  have hlen := hC.1
  have hvec := hC.2.2.2
  unfold BmpVec.get BlimpVec.get BlimpVec.get_pos bitmask
  rw [if_pos hp, if_pos (by omega : p < o.vec.length)]
  simp only
  rw [bit_test_couples hC p]
  cases h : o.vec.getD p none with
  | none => simp [h]
  | some w =>
    simp only [h, Option.isSome_some, if_true]
    rw [rank_couples hC p, hvec]
    exact filterMap_get_rank o.vec p w h

lemma len_agree {V : Type} {b : BmpVec V} {o : BlimpVec V}
    (hC : Couples b o) : BmpVec.len b = o.len := by
  rcases hC with ⟨hlen, hcnt, hbmp, -⟩
  unfold BmpVec.len
  rw [hbmp, popcount64_bitmapOf _ (by omega), hcnt]

lemma bitmapOf_eq_zero_iff {V : Type} : ∀ l : List (Option V),
    bitmapOf l = 0 ↔ countSome l = 0 := by
  intro l
  induction l with
  | nil => simp [bitmapOf_nil, countSome_nil]
  | cons x xs ih =>
    rw [bitmapOf_cons, countSome_cons]
    constructor
    · intro h
      have h1 : bitmapOf xs = 0 := by omega
      have h2 : (if x.isSome then 1 else 0) = 0 := by omega
      rw [ih.mp h1]
      omega
    · intro h
      have h1 : countSome xs = 0 := by omega
      have h2 : (if x.isSome then 1 else 0) = 0 := by omega
      rw [ih.mpr h1]
      omega

lemma isEmpty_agree {V : Type} {b : BmpVec V} {o : BlimpVec V}
    (hC : Couples b o) : BmpVec.isEmptyB b = BlimpVec.isEmptyB o := by
  rcases hC with ⟨-, hcnt, hbmp, -⟩
  unfold BmpVec.isEmptyB BlimpVec.isEmptyB
  rw [hbmp, hcnt]
  cases h : decide (bitmapOf o.vec = 0) with
  | true =>
    have h1 := of_decide_eq_true h
    simp [h1, (bitmapOf_eq_zero_iff o.vec).mp h1]
  | false =>
    have h1 := of_decide_eq_false h
    have h2 : countSome o.vec ≠ 0 :=
      fun hc => h1 ((bitmapOf_eq_zero_iff o.vec).mpr hc)
    simp [h1, h2]

/-- The occupied positions of an oracle segment, first slot at index `k`. -/
def keysOfList {V : Type} : Nat → List (Option V) → List Nat
  | _, [] => []
  | k, x :: xs =>
    if x.isSome then k :: keysOfList (k + 1) xs else keysOfList (k + 1) xs

lemma keysOfList_cons {V : Type} (k : Nat) (x : Option V) (xs : List (Option V)) :
    keysOfList k (x :: xs) =
      if x.isSome then k :: keysOfList (k + 1) xs else keysOfList (k + 1) xs := rfl

lemma keysOfList_shift {V : Type} : ∀ (l : List (Option V)) (k : Nat),
    keysOfList (k + 1) l = (keysOfList k l).map Nat.succ := by
  intro l
  induction l with
  | nil => intro k; rfl
  | cons x xs ih =>
    intro k
    unfold keysOfList
    by_cases h : x.isSome <;> simp [h, ih (k + 1), Nat.succ_eq_add_one]

lemma filter_testBit_keysOfList {V : Type} : ∀ (l : List (Option V)) (n : Nat),
    l.length ≤ n →
    (List.range n).filter (fun i => (bitmapOf l).testBit i) =
      keysOfList 0 l := by
  intro l
  induction l with
  | nil =>
    intro n _
    rw [show keysOfList 0 ([] : List (Option V)) = [] from rfl]
    rw [bitmapOf_nil]
    apply List.eq_nil_iff_forall_not_mem.mpr
    intro i hi
    rcases List.mem_filter.mp hi with ⟨-, h2⟩
    rw [Nat.zero_testBit] at h2
    cases h2
  | cons x xs ih =>
    intro n hn
    cases n with
    | zero => simp at hn
    | succ m =>
      rw [List.range_succ_eq_map, List.filter_cons, List.filter_map]
      have hcomp : ((fun i => (bitmapOf (x :: xs)).testBit i) ∘ Nat.succ) =
          fun i => (bitmapOf xs).testBit i := by
        funext i
        rw [Function.comp_apply, Nat.testBit_succ, bitmapOf_cons,
          bit_cons_div_two _ _ (by split <;> omega)]
      rw [hcomp, ih m (by simpa using hn), ← keysOfList_shift,
        keysOfList_cons]
      rw [bitmapOf_cons, bit_cons_testBit_zero _ _ (by split <;> omega)]
      by_cases h : x.isSome
      · simp [h]
      · simp [h]

lemma keys_agree {V : Type} {b : BmpVec V} {o : BlimpVec V}
    (hC : Couples b o) : BmpVec.keys b = BlimpVec.keys o := by
  have hlen := hC.1
  have hbmp := hC.2.2.1
  unfold BmpVec.keys BlimpVec.keys
  have h1 : (List.range 64).filter (fun i => b.bmp &&& 1 <<< i != 0) =
      (List.range 64).filter (fun i => b.bmp.testBit i) := by
    apply List.filter_congr
    intro i _
    rw [show (1 <<< i : Nat) = 2 ^ i by simp [Nat.shiftLeft_eq]]
    cases h : b.bmp.testBit i with
    | true =>
      rw [and_two_pow_of_testBit_true h]
      simp
    | false =>
      rw [and_two_pow_of_testBit_false h]
      simp
  rw [h1, hbmp, filter_testBit_keysOfList o.vec 64 (by omega)]
  -- remains: keysOfList 0 o.vec = the enum-based keys
  have : ∀ (l : List (Option V)) (k : Nat),
      ((l.enumFrom k).filter (fun pv => pv.2.isSome)).map (fun pv => pv.1) =
        keysOfList k l := by
    intro l
    induction l with
    | nil => intro k; rfl
    | cons x xs ih2 =>
      intro k
      rw [List.enumFrom_cons, List.filter_cons]
      unfold keysOfList
      by_cases h : x.isSome
      · simp only [h, if_pos, List.map_cons]
        rw [ih2 (k + 1)]
      · simp only [h, Bool.false_eq_true, if_neg, if_false]
        rw [ih2 (k + 1)]
  rw [show o.vec.enum = o.vec.enumFrom 0 from rfl, this o.vec 0]

lemma bmp_set_some_eq {V : Type} (b : BmpVec V) (p : Nat) (hp : p ≤ 63)
    (v : V) :
    BmpVec.set b p (some v) =
      if b.bmp &&& 1 <<< p != 0 then
        some (b.vec.get? (bmpRank b.bmp (1 <<< p - 1)),
          ⟨b.bmp, b.vec.set (bmpRank b.bmp (1 <<< p - 1)) v⟩)
      else
        some (none,
          ⟨b.bmp ^^^ 1 <<< p,
            b.vec.insertIdx (bmpRank b.bmp (1 <<< p - 1)) v⟩) := by
  unfold BmpVec.set bitmask
  rw [if_pos hp]

lemma bmp_set_none_eq {V : Type} (b : BmpVec V) (p : Nat) (hp : p ≤ 63) :
    BmpVec.set b p none =
      if b.bmp &&& 1 <<< p != 0 then
        some (b.vec.get? (bmpRank b.bmp (1 <<< p - 1)),
          ⟨b.bmp ^^^ 1 <<< p,
            b.vec.eraseIdx (bmpRank b.bmp (1 <<< p - 1))⟩)
      else some (none, b) := by
  unfold BmpVec.set bitmask
  rw [if_pos hp]

lemma blimp_set_eq {V : Type} (o : BlimpVec V) (p : Nat)
    (hp : p < o.vec.length) (val : Option V) :
    BlimpVec.set o p val =
      some (o.vec.getD p none,
        ⟨match (o.vec.getD p none).isSome, val.isSome with
          | false, true => o.len + 1
          | true, false => o.len - 1
          | _, _ => o.len,
         o.vec.set p val⟩) := by
  unfold BlimpVec.set BlimpVec.get_pos
  rw [if_pos hp]

lemma blimp_get_eq {V : Type} (o : BlimpVec V) (p : Nat)
    (hp : p < o.vec.length) :
    BlimpVec.get o p = o.vec.getD p none := by
  unfold BlimpVec.get BlimpVec.get_pos
  rw [if_pos hp]

lemma contains_agree {V : Type} {b : BmpVec V} {o : BlimpVec V}
    (hC : Couples b o) (p : Nat) (hp : p ≤ 63) :
    BmpVec.contains b p = BlimpVec.contains o p := by
  have hplt : p < o.vec.length := by have := hC.1; omega
  unfold BmpVec.contains BlimpVec.contains bitmask
  rw [if_pos hp]
  show (b.bmp &&& 1 <<< p != 0) = (BlimpVec.get o p).isSome
  rw [blimp_get_eq o p hplt]
  exact bit_test_couples hC p

lemma set_agree {V : Type} {b : BmpVec V} {o : BlimpVec V}
    (hC : Couples b o) (p : Nat) (hp : p ≤ 63) (val : Option V) :
    ∃ r b' o', BmpVec.set b p val = some (r, b') ∧
      BlimpVec.set o p val = some (r, o') ∧ Couples b' o' := by
  obtain ⟨hlen, hcnt, hbmp, hvec⟩ := hC
  have hplt : p < o.vec.length := by omega
  have hbit : (b.bmp &&& 1 <<< p != 0) = (o.vec.getD p none).isSome :=
    bit_test_couples ⟨hlen, hcnt, hbmp, hvec⟩ p
  have hrank : bmpRank b.bmp (1 <<< p - 1) = countSome (o.vec.take p) :=
    rank_couples ⟨hlen, hcnt, hbmp, hvec⟩ p
  have hpow : (1 <<< p : Nat) = 2 ^ p := by simp [Nat.shiftLeft_eq]
  rw [blimp_set_eq o p hplt val]
  cases hold : o.vec.getD p none with
  | some w =>
    have hbT : (b.bmp &&& 1 <<< p != 0) = true := by
      rw [hbit, hold]; rfl
    have hget : b.vec.get? (bmpRank b.bmp (1 <<< p - 1)) = some w := by
      rw [hvec, hrank]; exact filterMap_get_rank o.vec p w hold
    cases val with
    | some v =>
      rw [bmp_set_some_eq b p hp v, if_pos hbT, hget]
      refine ⟨some w, _, _, rfl, rfl, ?_, ?_, ?_, ?_⟩
      · rw [List.length_set]; exact hlen
      · show o.len = countSome (o.vec.set p (some v))
        rw [countSome_set_overwrite o.vec p v w hold, hcnt]
      · show b.bmp = bitmapOf (o.vec.set p (some v))
        rw [bitmapOf_set_overwrite o.vec p v w hold hplt, hbmp]
      · show b.vec.set (bmpRank b.bmp (1 <<< p - 1)) v =
          (o.vec.set p (some v)).filterMap id
        rw [filterMap_set_overwrite o.vec p v w hold, hrank, hvec]
    | none =>
      rw [bmp_set_none_eq b p hp, if_pos hbT, hget]
      rcases countSome_set_erase o.vec p w hold with ⟨hce, hcpos⟩
      refine ⟨some w, _, _, rfl, rfl, ?_, ?_, ?_, ?_⟩
      · rw [List.length_set]; exact hlen
      · show o.len - 1 = countSome (o.vec.set p none)
        rw [hce, hcnt]
      · show b.bmp ^^^ 1 <<< p = bitmapOf (o.vec.set p none)
        rw [bitmapOf_set_erase o.vec p w hold hplt, hbmp, hpow]
      · show b.vec.eraseIdx (bmpRank b.bmp (1 <<< p - 1)) =
          (o.vec.set p none).filterMap id
        rw [filterMap_set_erase o.vec p w hold, hrank, hvec]
  | none =>
    have hbF : (b.bmp &&& 1 <<< p != 0) = false := by
      rw [hbit, hold]; rfl
    cases val with
    | some v =>
      rw [bmp_set_some_eq b p hp v, if_neg (by simp [hbF])]
      refine ⟨none, _, _, rfl, rfl, ?_, ?_, ?_, ?_⟩
      · rw [List.length_set]; exact hlen
      · show o.len + 1 = countSome (o.vec.set p (some v))
        rw [countSome_set_insert o.vec p v hold hplt, hcnt]
      · show b.bmp ^^^ 1 <<< p = bitmapOf (o.vec.set p (some v))
        rw [bitmapOf_set_insert o.vec p v hold hplt, hbmp, hpow]
      · show b.vec.insertIdx (bmpRank b.bmp (1 <<< p - 1)) v =
          (o.vec.set p (some v)).filterMap id
        rw [filterMap_set_insert o.vec p v hold hplt, hrank, hvec]
    | none =>
      rw [bmp_set_none_eq b p hp, if_neg (by simp [hbF]),
        set_none_of_none o.vec p hold]
      exact ⟨none, b, ⟨o.len, o.vec⟩, rfl, rfl, hlen, hcnt, hbmp, hvec⟩

/-- One exercising operation from `src/test/exercise.rs`
(`bmpvec_blimpvec`): positions are taken in `0..63`. -/
inductive MapOp (V : Type) where
  | opContains : Fin 64 → MapOp V
  | opInsert : Fin 64 → V → MapOp V
  | opRemove : Fin 64 → MapOp V
  | opGet : Fin 64 → MapOp V
  | opGetMut : Fin 64 → MapOp V
  | opLen : MapOp V
  | opIsEmpty : MapOp V
  | opKeys : MapOp V
  | opValues : MapOp V
deriving DecidableEq, Repr

/-- The observable outcome of one operation. -/
inductive MapRes (V : Type) where
  | rBool : Bool → MapRes V
  | rOpt : Option V → MapRes V
  | rNat : Nat → MapRes V
  | rKeyList : List Nat → MapRes V
  | rValList : List V → MapRes V
deriving DecidableEq, Repr

/-- Run one operation on a `BmpVec`; `none` is a panic. -/
def stepBmp {V : Type} (b : BmpVec V) : MapOp V → Option (MapRes V × BmpVec V)
  | .opContains p => some (.rBool (BmpVec.contains b p.val), b)
  | .opInsert p v =>
    (BmpVec.insert b p.val v).map (fun rb => (.rOpt rb.1, rb.2))
  | .opRemove p =>
    (BmpVec.remove b p.val).map (fun rb => (.rOpt rb.1, rb.2))
  | .opGet p => some (.rOpt (BmpVec.get b p.val), b)
  | .opGetMut p => some (.rOpt (BmpVec.get_mut b p.val), b)
  | .opLen => some (.rNat (BmpVec.len b), b)
  | .opIsEmpty => some (.rBool (BmpVec.isEmptyB b), b)
  | .opKeys => some (.rKeyList (BmpVec.keys b), b)
  | .opValues => some (.rValList (BmpVec.values b), b)

/-- Run one operation on the `BlimpVec` oracle; `none` is a panic. -/
def stepBlimp {V : Type} (o : BlimpVec V) :
    MapOp V → Option (MapRes V × BlimpVec V)
  | .opContains p => some (.rBool (BlimpVec.contains o p.val), o)
  | .opInsert p v =>
    (BlimpVec.insert o p.val v).map (fun ro => (.rOpt ro.1, ro.2))
  | .opRemove p =>
    (BlimpVec.remove o p.val).map (fun ro => (.rOpt ro.1, ro.2))
  | .opGet p => some (.rOpt (BlimpVec.get o p.val), o)
  | .opGetMut p => some (.rOpt (BlimpVec.get_mut o p.val), o)
  | .opLen => some (.rNat o.len, o)
  | .opIsEmpty => some (.rBool (BlimpVec.isEmptyB o), o)
  | .opKeys => some (.rKeyList (BlimpVec.keys o), o)
  | .opValues => some (.rValList (BlimpVec.values o), o)

/-- Run a whole operation sequence on a `BmpVec`, collecting each step's
result; `none` if any step panics. -/
def runBmp {V : Type} : BmpVec V → List (MapOp V) → Option (List (MapRes V))
  | _, [] => some []
  | b, op :: ops =>
    match stepBmp b op with
    | some (r, b') => (runBmp b' ops).map (fun rs => r :: rs)
    | none => none

/-- Run a whole operation sequence on the oracle. -/
def runBlimp {V : Type} :
    BlimpVec V → List (MapOp V) → Option (List (MapRes V))
  | _, [] => some []
  | o, op :: ops =>
    match stepBlimp o op with
    | some (r, o') => (runBlimp o' ops).map (fun rs => r :: rs)
    | none => none

lemma step_agree {V : Type} {b : BmpVec V} {o : BlimpVec V}
    (hC : Couples b o) (op : MapOp V) :
    ∃ r b' o', stepBmp b op = some (r, b') ∧ stepBlimp o op = some (r, o') ∧
      Couples b' o' := by
  have hle : ∀ p : Fin 64, p.val ≤ 63 := fun p => by
    have := p.isLt; omega
  cases op with
  | opContains p =>
    refine ⟨.rBool (BmpVec.contains b p.val), b, o, rfl, ?_, hC⟩
    show some (MapRes.rBool (BlimpVec.contains o p.val), o) =
      some (MapRes.rBool (BmpVec.contains b p.val), o)
    rw [contains_agree hC p.val (hle p)]
  | opInsert p v =>
    obtain ⟨r, b', o', hb, ho, hc⟩ := set_agree hC p.val (hle p) (some v)
    refine ⟨.rOpt r, b', o', ?_, ?_, hc⟩
    · show (BmpVec.set b p.val (some v)).map
        (fun rb => (MapRes.rOpt rb.1, rb.2)) = some (MapRes.rOpt r, b')
      rw [hb]
      rfl
    · show (BlimpVec.set o p.val (some v)).map
        (fun ro => (MapRes.rOpt ro.1, ro.2)) = some (MapRes.rOpt r, o')
      rw [ho]
      rfl
  | opRemove p =>
    obtain ⟨r, b', o', hb, ho, hc⟩ := set_agree hC p.val (hle p) none
    refine ⟨.rOpt r, b', o', ?_, ?_, hc⟩
    · show (BmpVec.set b p.val none).map
        (fun rb => (MapRes.rOpt rb.1, rb.2)) = some (MapRes.rOpt r, b')
      rw [hb]
      rfl
    · show (BlimpVec.set o p.val none).map
        (fun ro => (MapRes.rOpt ro.1, ro.2)) = some (MapRes.rOpt r, o')
      rw [ho]
      rfl
  | opGet p =>
    refine ⟨.rOpt (BmpVec.get b p.val), b, o, rfl, ?_, hC⟩
    show some (MapRes.rOpt (BlimpVec.get o p.val), o) =
      some (MapRes.rOpt (BmpVec.get b p.val), o)
    rw [get_agree hC p.val (hle p)]
  | opGetMut p =>
    refine ⟨.rOpt (BmpVec.get_mut b p.val), b, o, rfl, ?_, hC⟩
    show some (MapRes.rOpt (BlimpVec.get_mut o p.val), o) =
      some (MapRes.rOpt (BmpVec.get_mut b p.val), o)
    show some (MapRes.rOpt (BlimpVec.get o p.val), o) =
      some (MapRes.rOpt (BmpVec.get b p.val), o)
    rw [get_agree hC p.val (hle p)]
  | opLen =>
    refine ⟨.rNat (BmpVec.len b), b, o, rfl, ?_, hC⟩
    show some (MapRes.rNat o.len, o) = some (MapRes.rNat (BmpVec.len b), o)
    rw [len_agree hC]
  | opIsEmpty =>
    refine ⟨.rBool (BmpVec.isEmptyB b), b, o, rfl, ?_, hC⟩
    show some (MapRes.rBool (BlimpVec.isEmptyB o), o) =
      some (MapRes.rBool (BmpVec.isEmptyB b), o)
    rw [isEmpty_agree hC]
  | opKeys =>
    refine ⟨.rKeyList (BmpVec.keys b), b, o, rfl, ?_, hC⟩
    show some (MapRes.rKeyList (BlimpVec.keys o), o) =
      some (MapRes.rKeyList (BmpVec.keys b), o)
    rw [keys_agree hC]
  | opValues =>
    refine ⟨.rValList (BmpVec.values b), b, o, rfl, ?_, hC⟩
    show some (MapRes.rValList (BlimpVec.values o), o) =
      some (MapRes.rValList (BmpVec.values b), o)
    show some (MapRes.rValList (o.vec.filterMap id), o) =
      some (MapRes.rValList b.vec, o)
    rw [hC.2.2.2]

lemma run_agree {V : Type} :
    ∀ (ops : List (MapOp V)) (b : BmpVec V) (o : BlimpVec V),
    Couples b o → ∃ res, runBmp b ops = some res ∧ runBlimp o ops = some res := by
  intro ops
  induction ops with
  | nil => intro b o _; exact ⟨[], rfl, rfl⟩
  | cons op ops ih =>
    intro b o hC
    obtain ⟨r, b', o', hb, ho, hc⟩ := step_agree hC op
    obtain ⟨res, hrb, hro⟩ := ih b' o' hc
    refine ⟨r :: res, ?_, ?_⟩
    · simp [runBmp, hb, hrb]
    · simp [runBlimp, ho, hro]

/- ----------------------------------------------------------------------
C3: conversions `BlimpVec -> BmpVec -> BlimpVec` (the two `From` impls of
src/test/blimpvec.rs) and their round trips.
---------------------------------------------------------------------- -/

/-- `BlimpVec::iter` collected to a list: enumerate the slots, keep the
occupied ones as `(pos, value)`. -/
def BlimpVec.iterList {V : Type} (o : BlimpVec V) : List (Nat × V) :=
  o.vec.enum.filterMap (fun pv => pv.2.map (fun v => (pv.1, v)))

/-- `BmpVec::iter` collected to a list: the keys iterator zipped with the
values iterator. -/
def BmpVec.iterList {V : Type} (b : BmpVec V) : List (Nat × V) :=
  (BmpVec.keys b).zip (BmpVec.values b)

/-- The `for (pos, val) in … { bmp.insert(pos, *val) }` loop of
`From<&BlimpVec<T>> for BmpVec<T>`; `none` is a panicking insert. -/
def insFoldBmp {V : Type} : BmpVec V → List (Nat × V) → Option (BmpVec V)
  | b, [] => some b
  | b, pv :: rest =>
    match BmpVec.insert b pv.1 pv.2 with
    | some rb => insFoldBmp rb.2 rest
    | none => none

/-- The insertion loop of `From<&BmpVec<T>> for BlimpVec<T>`. -/
def insFoldBlimp {V : Type} : BlimpVec V → List (Nat × V) → Option (BlimpVec V)
  | o, [] => some o
  | o, pv :: rest =>
    match BlimpVec.insert o pv.1 pv.2 with
    | some ro => insFoldBlimp ro.2 rest
    | none => none

/-- `From<&BlimpVec<T>> for BmpVec<T>`. -/
def bmpFromBlimp {V : Type} (o : BlimpVec V) : Option (BmpVec V) :=
  insFoldBmp (BmpVec.new V) (BlimpVec.iterList o)

/-- `From<&BmpVec<T>> for BlimpVec<T>`. -/
def blimpFromBmp {V : Type} (b : BmpVec V) : Option (BlimpVec V) :=
  insFoldBlimp (BlimpVec.new V) (BmpVec.iterList b)

/-- The `(position, value)` pairs of the occupied slots of an oracle
segment whose first slot sits at index `k`. -/
def pairsOf {V : Type} : Nat → List (Option V) → List (Nat × V)
  | _, [] => []
  | k, none :: xs => pairsOf (k + 1) xs
  | k, some v :: xs => (k, v) :: pairsOf (k + 1) xs

lemma iterList_eq_pairsOf {V : Type} : ∀ (l : List (Option V)) (k : Nat),
    (l.enumFrom k).filterMap (fun pv => pv.2.map (fun v => (pv.1, v))) =
      pairsOf k l := by
  intro l
  induction l with
  | nil => intro k; rfl
  | cons x xs ih =>
    intro k
    rw [List.enumFrom_cons, List.filterMap_cons]
    cases x with
    | none =>
      show (xs.enumFrom (k + 1)).filterMap _ = pairsOf k (none :: xs)
      rw [ih (k + 1)]
      rfl
    | some v =>
      show (k, v) :: (xs.enumFrom (k + 1)).filterMap _ =
        pairsOf k (some v :: xs)
      rw [ih (k + 1)]
      rfl

lemma blimp_iterList_eq {V : Type} (o : BlimpVec V) :
    BlimpVec.iterList o = pairsOf 0 o.vec := by
  unfold BlimpVec.iterList
  exact iterList_eq_pairsOf o.vec 0

lemma zip_keysOfList_filterMap {V : Type} : ∀ (l : List (Option V)) (k : Nat),
    (keysOfList k l).zip (l.filterMap id) = pairsOf k l := by
  intro l
  induction l with
  | nil => intro k; rfl
  | cons x xs ih =>
    intro k
    rw [keysOfList_cons, List.filterMap_cons]
    cases x with
    | none =>
      simp only [Option.isSome_none, Bool.false_eq_true, if_false]
      show (keysOfList (k + 1) xs).zip (xs.filterMap id) =
        pairsOf k (none :: xs)
      rw [ih (k + 1)]
      rfl
    | some v =>
      simp only [Option.isSome_some, if_true, id]
      show (k :: keysOfList (k + 1) xs).zip (v :: xs.filterMap id) =
        pairsOf k (some v :: xs)
      rw [List.zip_cons_cons, ih (k + 1)]
      rfl

lemma mem_pairsOf {V : Type} : ∀ (l : List (Option V)) (k : Nat)
    (pv : Nat × V), pv ∈ pairsOf k l → k ≤ pv.1 ∧ pv.1 < k + l.length := by
  intro l
  induction l with
  | nil => intro k pv h; cases h
  | cons x xs ih =>
    intro k pv h
    cases x with
    | none =>
      have h2 := ih (k + 1) pv h
      constructor <;> [omega; (simp only [List.length_cons]; omega)]
    | some v =>
      rcases List.mem_cons.mp h with h1 | h1
      · subst h1
        simp only [List.length_cons]
        omega
      · have h2 := ih (k + 1) pv h1
        constructor <;> [omega; (simp only [List.length_cons]; omega)]

lemma insFold_agree {V : Type} : ∀ (ps : List (Nat × V)) (b : BmpVec V)
    (o : BlimpVec V), Couples b o → (∀ pv ∈ ps, pv.1 ≤ 63) →
    ∃ b' o', insFoldBmp b ps = some b' ∧ insFoldBlimp o ps = some o' ∧
      Couples b' o' := by
  intro ps
  induction ps with
  | nil => intro b o hC _; exact ⟨b, o, rfl, rfl, hC⟩
  | cons pv rest ih =>
    intro b o hC hmem
    obtain ⟨r, b', o', hb, ho, hc⟩ :=
      set_agree hC pv.1 (hmem pv (List.mem_cons_self pv rest)) (some pv.2)
    obtain ⟨b'', o'', hrb, hro, hcc⟩ :=
      ih b' o' hc (fun q hq => hmem q (List.mem_cons_of_mem pv hq))
    refine ⟨b'', o'', ?_, ?_, hcc⟩
    · simp [insFoldBmp, BmpVec.insert, hb, hrb]
    · simp [insFoldBlimp, BlimpVec.insert, ho, hro]

lemma oracle_vec_unique {V : Type} : ∀ (l1 l2 : List (Option V)),
    l1.length = l2.length → bitmapOf l1 = bitmapOf l2 →
    l1.filterMap id = l2.filterMap id → l1 = l2 := by
  intro l1
  induction l1 with
  | nil =>
    intro l2 hl _ _
    cases l2 with
    | nil => rfl
    | cons y ys => simp at hl
  | cons x xs ih =>
    intro l2 hl hb hf
    cases l2 with
    | nil => simp at hl
    | cons y ys =>
      rw [bitmapOf_cons, bitmapOf_cons] at hb
      cases x with
      | none =>
        cases y with
        | none =>
          rw [List.filterMap_cons, List.filterMap_cons] at hf
          simp only [Option.isSome_none, Bool.false_eq_true, if_false] at hb
          rw [ih ys (by simpa using hl) (by omega) hf]
        | some w =>
          exfalso
          simp only [Option.isSome_none, Option.isSome_some,
            Bool.false_eq_true, if_false, if_true] at hb
          omega
      | some v =>
        cases y with
        | none =>
          exfalso
          simp only [Option.isSome_none, Option.isSome_some,
            Bool.false_eq_true, if_false, if_true] at hb
          omega
        | some w =>
          rw [List.filterMap_cons, List.filterMap_cons] at hf
          simp only [Option.isSome_some, if_true, id] at hb hf
          rw [List.cons.injEq] at hf
          obtain ⟨hvw, htl⟩ := hf
          subst hvw
          rw [ih ys (by simpa using hl) (by omega) htl]

lemma couples_bmp_unique {V : Type} {b b' : BmpVec V} {o : BlimpVec V}
    (h : Couples b o) (h' : Couples b' o) : b = b' := by
  obtain ⟨-, -, h3, h4⟩ := h
  obtain ⟨-, -, h3', h4'⟩ := h'
  cases b with
  | mk bmp vec =>
    cases b' with
    | mk bmp' vec' =>
      congr 1
      · exact h3.trans h3'.symm
      · exact h4.trans h4'.symm

lemma couples_blimp_unique {V : Type} {b : BmpVec V} {o o' : BlimpVec V}
    (h : Couples b o) (h' : Couples b o') : o = o' := by
  obtain ⟨h1, h2, h3, h4⟩ := h
  obtain ⟨h1', h2', h3', h4'⟩ := h'
  have hv : o.vec = o'.vec :=
    oracle_vec_unique o.vec o'.vec (by omega) (by rw [← h3, ← h3'])
      (by rw [← h4, ← h4'])
  have hn : o.len = o'.len := by rw [h2, h2', hv]
  cases o with
  | mk n1 v1 =>
    cases o' with
    | mk n2 v2 =>
      congr 1

lemma bmp_keys_eq_keysOfList {V : Type} {b : BmpVec V} {o : BlimpVec V}
    (hC : Couples b o) : BmpVec.keys b = keysOfList 0 o.vec := by
  have hlen := hC.1
  have hbmp := hC.2.2.1
  unfold BmpVec.keys
  have h1 : (List.range 64).filter (fun i => b.bmp &&& 1 <<< i != 0) =
      (List.range 64).filter (fun i => b.bmp.testBit i) := by
    apply List.filter_congr
    intro i _
    rw [show (1 <<< i : Nat) = 2 ^ i by simp [Nat.shiftLeft_eq]]
    cases h : b.bmp.testBit i with
    | true =>
      rw [and_two_pow_of_testBit_true h]
      simp
    | false =>
      rw [and_two_pow_of_testBit_false h]
      simp
  rw [h1, hbmp, filter_testBit_keysOfList o.vec 64 (by omega)]

lemma bmp_iterList_eq {V : Type} {b : BmpVec V} {o : BlimpVec V}
    (hC : Couples b o) : BmpVec.iterList b = pairsOf 0 o.vec := by
  unfold BmpVec.iterList BmpVec.values
  rw [bmp_keys_eq_keysOfList hC, hC.2.2.2, zip_keysOfList_filterMap]

lemma get?_of_drop_cons {α : Type} : ∀ (l : List α) (k : Nat) (y : α)
    (ys : List α), l.drop k = y :: ys → l.get? k = some y := by
  intro l
  induction l with
  | nil => intro k y ys h; rw [List.drop_nil] at h; cases h
  | cons x xs ih =>
    intro k y ys h
    cases k with
    | zero =>
      rw [List.drop_zero, List.cons.injEq] at h
      rw [h.1]
      rfl
    | succ k =>
      rw [List.drop_succ_cons] at h
      exact ih k y ys h

lemma drop_succ_of_drop_cons {α : Type} : ∀ (l : List α) (k : Nat) (y : α)
    (ys : List α), l.drop k = y :: ys → l.drop (k + 1) = ys := by
  intro l
  induction l with
  | nil => intro k y ys h; rw [List.drop_nil] at h; cases h
  | cons x xs ih =>
    intro k y ys h
    cases k with
    | zero =>
      rw [List.drop_zero, List.cons.injEq] at h
      rw [List.drop_succ_cons, List.drop_zero]
      exact h.2
    | succ k =>
      rw [List.drop_succ_cons] at h
      rw [List.drop_succ_cons]
      exact ih k y ys h

lemma getD_of_get {α : Type} (l : List α) (k : Nat) (y d : α)
    (h : l.get? k = some y) : l.getD k d = y := by
  rw [List.get?_eq_getElem?] at h
  simp [List.getD, h]

lemma take_succ_of_get {α : Type} (l : List α) (k : Nat) (y : α)
    (h : l.get? k = some y) : l.take (k + 1) = l.take k ++ [y] := by
  have h2 : l[k]? = some y := by
    rw [← List.get?_eq_getElem?]
    exact h
  rw [List.take_succ, h2]
  rfl

lemma take_set_succ {α : Type} : ∀ (l : List α) (k : Nat) (v : α),
    k < l.length → (l.set k v).take (k + 1) = l.take k ++ [v] := by
  intro l
  induction l with
  | nil => intro k v h; simp at h
  | cons x xs ih =>
    intro k v h
    cases k with
    | zero => rfl
    | succ k =>
      rw [List.set_cons_succ, List.take_succ_cons, List.take_succ_cons,
        ih k v (by simpa using h)]
      rfl

lemma drop_set_succ {α : Type} : ∀ (l : List α) (k : Nat) (v : α),
    (l.set k v).drop (k + 1) = l.drop (k + 1) := by
  intro l
  induction l with
  | nil => intro k v; rfl
  | cons x xs ih =>
    intro k v
    cases k with
    | zero => rfl
    | succ k =>
      rw [List.set_cons_succ, List.drop_succ_cons, List.drop_succ_cons]
      exact ih k v

lemma insFoldBlimp_pairsOf {V : Type} : ∀ (l : List (Option V)) (k : Nat)
    (o : BlimpVec V), o.vec.length = 64 → k + l.length = 64 →
    o.vec.drop k = List.replicate l.length none →
    insFoldBlimp o (pairsOf k l) =
      some ⟨o.len + countSome l, o.vec.take k ++ l⟩ := by
  intro l
  induction l with
  | nil =>
    intro k o hlen hk hdrop
    show some o = some ⟨o.len + countSome ([] : List (Option V)),
      o.vec.take k ++ []⟩
    rw [List.length_nil] at hk
    rw [countSome_nil, List.append_nil, show k = o.vec.length by omega,
      List.take_length]
    rfl
  | cons x xs ih =>
    intro k o hlen hk hdrop
    have hklt : k < 64 := by
      rw [List.length_cons] at hk
      omega
    have hdl : o.vec.drop k = none :: List.replicate xs.length none := by
      rw [hdrop, List.length_cons, List.replicate_succ]
    have hget : o.vec.get? k = some none :=
      get?_of_drop_cons o.vec k none _ hdl
    have hgd : o.vec.getD k none = none :=
      getD_of_get o.vec k none none hget
    cases x with
    | none =>
      have hcnt : o.len + countSome (none :: xs) = o.len + countSome xs := by
        rw [countSome_cons]
        simp
      have hvec2 : o.vec.take (k + 1) ++ xs =
          o.vec.take k ++ (none :: xs) := by
        rw [take_succ_of_get o.vec k none hget]
        simp
      rw [hcnt, ← hvec2]
      exact ih (k + 1) o hlen (by rw [List.length_cons] at hk; omega)
        (drop_succ_of_drop_cons o.vec k none _ hdl)
    | some v =>
      have hins : BlimpVec.insert o k v =
          some (none, ⟨o.len + 1, o.vec.set k (some v)⟩) := by
        show BlimpVec.set o k (some v) = _
        rw [blimp_set_eq o k (by omega) (some v), hgd]
        rfl
      show (match BlimpVec.insert o k v with
        | some ro => insFoldBlimp ro.2 (pairsOf (k + 1) xs)
        | none => none) = _
      rw [hins]
      show insFoldBlimp ⟨o.len + 1, o.vec.set k (some v)⟩
        (pairsOf (k + 1) xs) = _
      rw [ih (k + 1) ⟨o.len + 1, o.vec.set k (some v)⟩
        (by show (o.vec.set k (some v)).length = 64
            rw [List.length_set, hlen])
        (by rw [List.length_cons] at hk; omega)
        (by show (o.vec.set k (some v)).drop (k + 1) =
              List.replicate xs.length none
            rw [drop_set_succ, drop_succ_of_drop_cons o.vec k none _ hdl])]
      show some (⟨o.len + 1 + countSome xs,
        (o.vec.set k (some v)).take (k + 1) ++ xs⟩ : BlimpVec V) = _
      have hc2 : o.len + 1 + countSome xs =
          o.len + countSome (some v :: xs) := by
        rw [countSome_cons]
        simp only [Option.isSome_some, if_true]
        omega
      have hv2 : (o.vec.set k (some v)).take (k + 1) ++ xs =
          o.vec.take k ++ (some v :: xs) := by
        rw [take_set_succ o.vec k (some v) (by omega)]
        simp
      rw [hc2, hv2]

lemma mod_two_pow_succ (bmp n : Nat) :
    bmp % 2 ^ (n + 1) = 2 * (bmp / 2 % 2 ^ n) + bmp % 2 := by
  have hq : 0 < (2:Nat) ^ n := by positivity
  have e1 : 2 ^ n * (bmp / 2 / 2 ^ n) + bmp / 2 % 2 ^ n = bmp / 2 :=
    Nat.div_add_mod (bmp / 2) (2 ^ n)
  have h2 : (2:Nat) ^ (n + 1) = 2 * 2 ^ n := by ring
  have h3 : (2:Nat) ^ (n + 1) * (bmp / 2 / 2 ^ n) =
      2 * (2 ^ n * (bmp / 2 / 2 ^ n)) := by
    rw [h2]
    ring
  have e2 : bmp = 2 ^ (n + 1) * (bmp / 2 / 2 ^ n) +
      (2 * (bmp / 2 % 2 ^ n) + bmp % 2) := by
    rw [h3]
    omega
  have hm : bmp / 2 % 2 ^ n < 2 ^ n := Nat.mod_lt _ hq
  have hbound : 2 * (bmp / 2 % 2 ^ n) + bmp % 2 < 2 ^ (n + 1) := by
    rw [h2]
    omega
  calc bmp % 2 ^ (n + 1)
      = (2 ^ (n + 1) * (bmp / 2 / 2 ^ n) +
        (2 * (bmp / 2 % 2 ^ n) + bmp % 2)) % 2 ^ (n + 1) := by rw [← e2]
    _ = (2 * (bmp / 2 % 2 ^ n) + bmp % 2) % 2 ^ (n + 1) :=
        Nat.mul_add_mod _ _ _
    _ = 2 * (bmp / 2 % 2 ^ n) + bmp % 2 := Nat.mod_eq_of_lt hbound

/-- Rebuild the oracle slot list from a bitmap and a packed value list:
slot `i` (low bit first) is occupied by the next packed value when bit `i`
is set. -/
def expandAux {V : Type} : Nat → Nat → List V → List (Option V)
  | 0, _, _ => []
  | n + 1, bmp, vec =>
    if bmp % 2 = 1 then vec.head? :: expandAux n (bmp / 2) vec.tail
    else none :: expandAux n (bmp / 2) vec

lemma expandAux_succ {V : Type} (n bmp : Nat) (vec : List V) :
    expandAux (n + 1) bmp vec =
      if bmp % 2 = 1 then vec.head? :: expandAux n (bmp / 2) vec.tail
      else none :: expandAux n (bmp / 2) vec := rfl

lemma expandAux_spec {V : Type} : ∀ (n bmp : Nat) (vec : List V),
    popAux n bmp ≤ vec.length →
    (expandAux n bmp vec).length = n ∧
    bitmapOf (expandAux n bmp vec) = bmp % 2 ^ n ∧
    countSome (expandAux n bmp vec) = popAux n bmp ∧
    (expandAux n bmp vec).filterMap id = vec.take (popAux n bmp) := by
  intro n
  induction n with
  | zero =>
    intro bmp vec _
    exact ⟨rfl, by rw [Nat.pow_zero, Nat.mod_one]; rfl, rfl, rfl⟩
  | succ n ih =>
    intro bmp vec hp
    rw [popAux_succ] at hp
    by_cases hb : bmp % 2 = 1
    · rw [if_pos hb] at hp
      rw [popAux_succ, expandAux_succ, if_pos hb, if_pos hb]
      cases vec with
      | nil =>
        rw [List.length_nil] at hp
        omega
      | cons h t =>
        rw [List.length_cons] at hp
        obtain ⟨ihl, ihb, ihc, ihf⟩ := ih (bmp / 2) t (by omega)
        simp only [List.head?_cons, List.tail_cons]
        refine ⟨?_, ?_, ?_, ?_⟩
        · rw [List.length_cons, ihl]
        · rw [bitmapOf_cons, ihb, mod_two_pow_succ]
          simp only [Option.isSome_some, if_true]
          omega
        · rw [countSome_cons, ihc]
          simp only [Option.isSome_some, if_true]
        · simp only [List.filterMap_cons, id]
          rw [ihf]
          show h :: t.take (popAux n (bmp / 2)) =
            (h :: t).take (1 + popAux n (bmp / 2))
          rw [Nat.add_comm 1 _, List.take_succ_cons]
    · have hb0 : bmp % 2 = 0 := by omega
      rw [if_neg hb] at hp
      rw [popAux_succ, expandAux_succ, if_neg hb, if_neg hb]
      obtain ⟨ihl, ihb, ihc, ihf⟩ := ih (bmp / 2) vec (by omega)
      refine ⟨?_, ?_, ?_, ?_⟩
      · rw [List.length_cons, ihl]
      · rw [bitmapOf_cons, ihb, mod_two_pow_succ]
        simp only [Option.isSome_none, Bool.false_eq_true, if_false]
        omega
      · rw [countSome_cons, ihc]
        simp only [Option.isSome_none, Bool.false_eq_true, if_false]
      · simp only [List.filterMap_cons, id]
        rw [ihf, Nat.zero_add]

/-- The representation invariant of a `BmpVec`: a 64-bit bitmap, and an
allocation holding exactly one element per set bit. -/
def BmpInv {V : Type} (b : BmpVec V) : Prop :=
  b.bmp < 2 ^ 64 ∧ b.vec.length = popcount64 b.bmp

/-- The representation invariant of the oracle: 64 slots and an accurate
`len` field. -/
def BlimpInv {V : Type} (o : BlimpVec V) : Prop :=
  o.vec.length = 64 ∧ o.len = countSome o.vec

/-- Rebuild a full oracle slot list from a `BmpVec`'s raw parts. -/
def expand {V : Type} (bmp : Nat) (vec : List V) : List (Option V) :=
  expandAux 64 bmp vec

lemma couples_expand {V : Type} (b : BmpVec V) (hI : BmpInv b) :
    Couples b ⟨b.vec.length, expand b.bmp b.vec⟩ ∧
    BlimpInv ⟨b.vec.length, expand b.bmp b.vec⟩ := by
  obtain ⟨h1, h2⟩ := hI
  have hpop : popAux 64 b.bmp = popcount64 b.bmp := rfl
  have hpe : popAux 64 b.bmp = b.vec.length := by rw [hpop, h2]
  obtain ⟨el, eb, ec, ef⟩ :=
    expandAux_spec 64 b.bmp b.vec (Nat.le_of_eq hpe)
  have hmod : b.bmp % 2 ^ 64 = b.bmp := Nat.mod_eq_of_lt h1
  have hx : expand b.bmp b.vec = expandAux 64 b.bmp b.vec := rfl
  have hcs : countSome (expand b.bmp b.vec) = b.vec.length := by
    rw [hx, ec, hpe]
  refine ⟨⟨?_, ?_, ?_, ?_⟩, ?_, ?_⟩
  · show (expand b.bmp b.vec).length = 64
    rw [hx, el]
  · show b.vec.length = countSome (expand b.bmp b.vec)
    rw [hcs]
  · show b.bmp = bitmapOf (expand b.bmp b.vec)
    rw [hx, eb, hmod]
  · show b.vec = (expand b.bmp b.vec).filterMap id
    rw [hx, ef, hpe, List.take_length]
  · show (expand b.bmp b.vec).length = 64
    rw [hx, el]
  · show b.vec.length = countSome (expand b.bmp b.vec)
    rw [hcs]

lemma bmpFromBlimp_couples {V : Type} (o : BlimpVec V) (hI : BlimpInv o) :
    ∃ b, bmpFromBlimp o = some b ∧ Couples b o := by
  obtain ⟨hlen, hcnt⟩ := hI
  have hmem : ∀ pv ∈ pairsOf 0 o.vec, pv.1 ≤ 63 := by
    intro pv hpv
    have h2 := mem_pairsOf o.vec 0 pv hpv
    omega
  obtain ⟨b1, o1, hb1, ho1, hc1⟩ :=
    insFold_agree (pairsOf 0 o.vec) (BmpVec.new V) (BlimpVec.new V)
      (couples_new V) hmem
  have hrec : insFoldBlimp (BlimpVec.new V) (pairsOf 0 o.vec) =
      some ⟨(BlimpVec.new V).len + countSome o.vec,
        (BlimpVec.new V).vec.take 0 ++ o.vec⟩ :=
    insFoldBlimp_pairsOf o.vec 0 (BlimpVec.new V)
      (by show (List.replicate 64 (none : Option V)).length = 64; simp)
      (by omega)
      (by show (List.replicate 64 (none : Option V)).drop 0 =
            List.replicate o.vec.length none
          rw [List.drop_zero, hlen])
  have ho1o : o1 = o := by
    have h2 : some o1 = some (⟨(BlimpVec.new V).len + countSome o.vec,
        (BlimpVec.new V).vec.take 0 ++ o.vec⟩ : BlimpVec V) := by
      rw [← ho1, hrec]
    have h3 := Option.some.inj h2
    rw [h3]
    show (⟨0 + countSome o.vec,
      (List.replicate 64 (none : Option V)).take 0 ++ o.vec⟩ : BlimpVec V) = o
    rw [List.take_zero, List.nil_append, Nat.zero_add, ← hcnt]
  refine ⟨b1, ?_, ho1o ▸ hc1⟩
  show insFoldBmp (BmpVec.new V) (BlimpVec.iterList o) = some b1
  rw [blimp_iterList_eq o]
  exact hb1

lemma blimpFromBmp_eq {V : Type} {b : BmpVec V} {o : BlimpVec V}
    (hC : Couples b o) (hI : BlimpInv o) : blimpFromBmp b = some o := by
  obtain ⟨hlen, hcnt⟩ := hI
  unfold blimpFromBmp
  rw [bmp_iterList_eq hC,
    insFoldBlimp_pairsOf o.vec 0 (BlimpVec.new V)
      (by show (List.replicate 64 (none : Option V)).length = 64; simp)
      (by omega)
      (by show (List.replicate 64 (none : Option V)).drop 0 =
            List.replicate o.vec.length none
          rw [List.drop_zero, hlen])]
  show some (⟨0 + countSome o.vec,
    (List.replicate 64 (none : Option V)).take 0 ++ o.vec⟩ : BlimpVec V) =
    some o
  rw [List.take_zero, List.nil_append, Nat.zero_add, ← hcnt]

lemma roundtrip_blimp {V : Type} (o : BlimpVec V) (hI : BlimpInv o) :
    ∃ b, bmpFromBlimp o = some b ∧ blimpFromBmp b = some o := by
  obtain ⟨b, hb, hc⟩ := bmpFromBlimp_couples o hI
  exact ⟨b, hb, blimpFromBmp_eq hc hI⟩

lemma roundtrip_bmp {V : Type} (b : BmpVec V) (hI : BmpInv b) :
    ∃ o, blimpFromBmp b = some o ∧ bmpFromBlimp o = some b := by
  obtain ⟨hc, hoI⟩ := couples_expand b hI
  refine ⟨⟨b.vec.length, expand b.bmp b.vec⟩, blimpFromBmp_eq hc hoI, ?_⟩
  obtain ⟨b1, hb1, hc1⟩ := bmpFromBlimp_couples _ hoI
  rw [hb1, couples_bmp_unique hc1 hc]

/-- C3: for every sequence of Contains / Insert / Remove / Get / GetMut /
Len / IsEmpty / Keys / Values operations with positions in 0..63, a
`BmpVec` and the 64-slot oracle `BlimpVec` (any coupled pair, in
particular the two empty containers) return exactly the same results at
every step, neither ever panicking; and the two `From` conversions are
mutually inverse on representation-invariant values. -/
theorem c3_bmpvec_matches_oracle :
    (∀ (V : Type) (ops : List (MapOp V)) (b : BmpVec V) (o : BlimpVec V),
      Couples b o →
      ∃ res, runBmp b ops = some res ∧ runBlimp o ops = some res) ∧
    (∀ (V : Type) (o : BlimpVec V), BlimpInv o →
      ∃ b, bmpFromBlimp o = some b ∧ blimpFromBmp b = some o) ∧
    (∀ (V : Type) (b : BmpVec V), BmpInv b →
      ∃ o, blimpFromBmp b = some o ∧ bmpFromBlimp o = some b) :=
  ⟨fun _ ops b o hC => run_agree ops b o hC,
   fun _ o hI => roundtrip_blimp o hI,
   fun _ b hI => roundtrip_bmp b hI⟩

theorem c3_witness :
    Couples (BmpVec.new Nat) (BlimpVec.new Nat) ∧
    BlimpInv (⟨1, (List.replicate 64 (none : Option Nat)).set 5
      (some 7)⟩ : BlimpVec Nat) ∧
    BmpInv (⟨32, [9]⟩ : BmpVec Nat) ∧
    (∃ res, runBmp (BmpVec.new Nat)
        [MapOp.opInsert (3 : Fin 64) 5, MapOp.opGet (3 : Fin 64),
          MapOp.opLen, MapOp.opKeys, MapOp.opRemove (3 : Fin 64),
          MapOp.opIsEmpty] = some res ∧
      runBlimp (BlimpVec.new Nat)
        [MapOp.opInsert (3 : Fin 64) 5, MapOp.opGet (3 : Fin 64),
          MapOp.opLen, MapOp.opKeys, MapOp.opRemove (3 : Fin 64),
          MapOp.opIsEmpty] = some res) ∧
    (∃ b, bmpFromBlimp (⟨1, (List.replicate 64 (none : Option Nat)).set 5
        (some 7)⟩ : BlimpVec Nat) = some b ∧
      blimpFromBmp b = some ⟨1, (List.replicate 64 (none : Option Nat)).set 5
        (some 7)⟩) ∧
    (∃ o, blimpFromBmp (⟨32, [9]⟩ : BmpVec Nat) = some o ∧
      bmpFromBlimp o = some ⟨32, [9]⟩) :=
  ⟨⟨by decide, by decide, by decide, by decide⟩,
   ⟨by decide, by decide⟩,
   ⟨by decide, by decide⟩,
   c3_bmpvec_matches_oracle.1 Nat
     [MapOp.opInsert (3 : Fin 64) 5, MapOp.opGet (3 : Fin 64),
       MapOp.opLen, MapOp.opKeys, MapOp.opRemove (3 : Fin 64),
       MapOp.opIsEmpty] (BmpVec.new Nat) (BlimpVec.new Nat)
     ⟨by decide, by decide, by decide, by decide⟩,
   c3_bmpvec_matches_oracle.2.1 Nat
     ⟨1, (List.replicate 64 (none : Option Nat)).set 5 (some 7)⟩
     ⟨by decide, by decide⟩,
   c3_bmpvec_matches_oracle.2.2 Nat ⟨32, [9]⟩ ⟨by decide, by decide⟩⟩

/- ----------------------------------------------------------------------
C2: `TrieName::make_dns_name` (src/triebits.rs) inverts
`TrieName::from_dns_name` up to canonicalization.

`make_dns_name` rebuilds a compressed wire-format scratch buffer `pname`
whose labels link backward via 14-bit compression pointers, then reparses
it with `WireLabels::<u16>::from_wire` (src/dnsname/wire.rs) and promotes
the result to a `HeapName` (`From<&WireLabels<P>> for HeapName`,
src/dnsname/heap.rs), which lower-cases each label as it copies it.  The
buffer is modelled by a total function `Nat → Nat` (zero-initialized, as
Rust's `[0u8; MAX_PNAME]`), with every store bounds-checked so that an
out-of-range index — a Rust panic — surfaces as `none`.
---------------------------------------------------------------------- -/

/-- Modelled from the spec: `MAX_PNAME`, the size of `make_dns_name`'s
scratch buffer, comes from the prelude which is not under src/.  Per the
spec the buffer holds, per label, its length byte, its text and a two-byte
back-pointer, which `MAX_TRIENAME = MAX_NAME * 2 + 2 = 512` bytes
over-estimate. -/
def MAX_PNAME : Nat := 512

/-- A point update of the buffer. -/
def upd (F : Nat → Nat) (p v : Nat) : Nat → Nat :=
  fun i => if i = p then v else F i

/-- One store `pname[p] = v`: Rust's indexed store, which panics (`none`)
out of range. -/
def pwrite (pname : Nat → Nat) (p v : Nat) : Option (Nat → Nat) :=
  if p < MAX_PNAME then some (upd pname p v)
  else none

/-- The `while let Some(one) = it.next()` loop of
`TrieName::make_dns_name` (src/triebits.rs): `SHIFT_NOBYTE` closes a label
(writing its length byte and a pointer to the previous label, or breaking
on an empty label), a code with `BITS_TO_BYTE[one][0] != 0` decodes to one
byte, and otherwise the next key byte completes a two-byte code
(`BugTrieName` when the key ends mid-code).  Returns the filled buffer and
the final `ppos`; `none` is an out-of-range store. -/
def mkLoop : List Nat → (Nat → Nat) → Nat → Nat → Nat →
    Option (Except Error ((Nat → Nat) × Nat))
  | [], pname, ppos, _, _ => some (.ok (pname, ppos))
  | one :: rest, pname, ppos, lpos, pos =>
    if one = SHIFT_NOBYTE then
      if pos - lpos - 1 = 0 then some (.ok (pname, ppos))
      else
        (pwrite pname lpos ((pos - lpos - 1) % 256)).bind fun pn1 =>
        (pwrite pn1 pos (0xC0 ||| ((ppos >>> 8) % 256))).bind fun pn2 =>
        (pwrite pn2 (pos + 1) (ppos &&& 0xFF)).bind fun pn3 =>
        mkLoop rest pn3 lpos (pos + 2) (pos + 3)
    else if BITS_TO_BYTE one 0 ≠ 0 then
      (pwrite pname pos (BITS_TO_BYTE one 0)).bind fun pn1 =>
      mkLoop rest pn1 ppos lpos (pos + 1)
    else
      match rest with
      | [] => some (.error .bugTrieName)
      | two :: rest2 =>
        (pwrite pname pos (BITS_TO_BYTE one two)).bind fun pn1 =>
        mkLoop rest2 pn1 ppos lpos (pos + 1)

/-- The scratch buffer materialized as the byte slice `&pname[..]`. -/
def wireOf (P : Nat → Nat) : List Nat := (List.range MAX_PNAME).map P

/-- `WireLabels::<u16>::label_from_wire` from `src/dnsname/wire.rs`:
`from_usize` fails with `BugWirePos` past `u16::MAX`, the position is
pushed onto the label pad, the running length grows by `1 + llen` and must
stay within 255 (`NameLength`).  The state is the pair
`(lpos list, nlen)`. -/
def wireEmit (st : List Nat × Nat) (_wire : List Nat) (pos llen : Nat) :
    Except Error (List Nat × Nat) :=
  if 65536 ≤ pos then .error (.bugWirePos pos)
  else
    match scratchPush MAX_LABS st.1 pos with
    | .error e => .error e
    | .ok lp =>
      if 255 < st.2 + 1 + llen then .error .nameLength
      else .ok (lp, st.2 + 1 + llen)

/-- The label-copying loop of `From<&WireLabels<P>> for HeapName`
(src/dnsname/heap.rs): for each recorded label position, slice the label
text out of the wire (`WireLabels::label` reads the length byte at the
position and the text after it) and lower-case it.  The result is the
label list of the constructed `HeapName`, in wire order. -/
def heapLabels (wire : List Nat) (lpos : List Nat) : List (List Nat) :=
  lpos.map (fun p => ((wire.drop (p + 1)).take (wire.getD p 0)).map foldByte)

/-- `TrieName::make_dns_name` from `src/triebits.rs` on a trie key:
run the rebuild loop from `ppos = 0`, `lpos = 1`, `pos = 2` over a
zero-filled buffer, reparse the buffer from the final `ppos` with
`WireLabels::<u16>::from_wire`, and promote to a `HeapName` (its label
list, wire order).  `none` is a panic. -/
def make_dns_name (key : List Nat) :
    Option (Except Error (List (List Nat))) :=
  match mkLoop key (fun _ => 0) 0 1 2 with
  | none => none
  | some (.error e) => some (.error e)
  | some (.ok (pname, ppos)) =>
    match name_from_wire_loop wireEmit (wireOf pname)
        (WIRE_FUEL (wireOf pname)) ([], 0) ppos ppos ppos with
    | .error e => some (.error e)
    | .ok ((lposList, _nlen), _end) =>
      some (.ok (heapLabels (wireOf pname) lposList))

/-- Sequential stores: write the bytes of `bs` at `p`, `p+1`, … -/
def writeSeq (pname : Nat → Nat) : Nat → List Nat → Nat → Nat
  | _, [], i => pname i
  | p, b :: bs, i =>
    writeSeq (fun j => if j = p then b else pname j) (p + 1) bs i

lemma pwrite_lt {pname : Nat → Nat} {p : Nat} (v : Nat) (h : p < 512) :
    pwrite pname p v = some (upd pname p v) := by
  simp [pwrite, MAX_PNAME, h]

lemma upd_eq (F : Nat → Nat) (p v : Nat) : upd F p v p = v := by
  simp [upd]

lemma upd_ne {p i : Nat} (F : Nat → Nat) (v : Nat) (h : i ≠ p) :
    upd F p v i = F i := by
  simp [upd, h]

lemma writeSeq_frame : ∀ (bs : List Nat) (pname : Nat → Nat) (p i : Nat),
    i < p ∨ p + bs.length ≤ i → writeSeq pname p bs i = pname i := by
  intro bs
  induction bs with
  | nil => intro pname p i _; rfl
  | cons b bs ih =>
    intro pname p i h
    have h' : i < p + 1 ∨ (p + 1) + bs.length ≤ i := by
      rw [List.length_cons] at h
      omega
    have h2 : ¬ (i = p) := by
      rw [List.length_cons] at h
      omega
    show writeSeq (fun j => if j = p then b else pname j) (p + 1) bs i = _
    rw [ih _ (p + 1) i h']
    show (if i = p then b else pname i) = pname i
    rw [if_neg h2]

lemma writeSeq_at : ∀ (bs : List Nat) (pname : Nat → Nat) (p j : Nat),
    j < bs.length → writeSeq pname p bs (p + j) = bs.getD j 0 := by
  intro bs
  induction bs with
  | nil => intro pname p j h; simp at h
  | cons b bs ih =>
    intro pname p j h
    cases j with
    | zero =>
      show writeSeq (fun j => if j = p then b else pname j) (p + 1) bs (p + 0) = b
      rw [writeSeq_frame bs _ (p + 1) (p + 0) (by omega)]
      rw [if_pos (by omega)]
    | succ j =>
      show writeSeq (fun j => if j = p then b else pname j) (p + 1) bs
        (p + (j + 1)) = (b :: bs).getD (j + 1) 0
      rw [show p + (j + 1) = (p + 1) + j by omega,
        ih _ (p + 1) j (by rw [List.length_cons] at h; omega)]
      rfl

lemma single_code_pos : ∀ b, b < 256 → (BYTE_TO_BITS b).2 = 0 →
    0 < foldByte b := by
  decide

lemma ptr_decode : ∀ q, q < 512 →
    (((192 + q / 256) &&& 63) <<< 8) ||| (q % 256) = q := by
  decide

lemma ptr_hi_byte : ∀ q, q < 512 →
    (0xC0 ||| ((q >>> 8) % 256)) = 192 + q / 256 := by
  decide

lemma ptr_lo_byte : ∀ q, q < 512 → q &&& 0xFF = q % 256 := by
  decide

/-- The buffer positions `make_dns_name` assigns to the labels it writes,
first label at `p`: each label occupies its length byte, its text and two
pointer bytes. -/
def posLabels : Nat → List (List Nat) → List (Nat × List Nat)
  | _, [] => []
  | p, l :: ls => (p, l) :: posLabels (p + l.length + 3) ls

/-- The buffer position of the first listed label (the root, at 0, when
none is listed). -/
def headPos : List (Nat × List Nat) → Nat
  | [] => 0
  | pl :: _ => pl.1

/-- The back-linked label chain that `make_dns_name` writes, as read by the
reparse: starting at `p`, each listed `(position, label)` has its length
byte at the position, its lower-cased text after it, and a two-byte
compression pointer to the next (strictly lower) listed position, the
chain ending in a zero length byte at position 0 (the root).  Every byte
the chain touches lies below `bnd`, so stores at `bnd` and beyond preserve
it. -/
def ChainAt (P : Nat → Nat) : Nat → Nat → List (Nat × List Nat) → Prop
  | bnd, p, [] => p = 0 ∧ P 0 = 0 ∧ p < bnd
  | bnd, p, pl :: rest =>
    pl.1 = p ∧ p + pl.2.length + 3 ≤ bnd ∧
    P p = pl.2.length ∧ 1 ≤ pl.2.length ∧ pl.2.length ≤ 63 ∧
    (∀ i, i < pl.2.length → P (p + 1 + i) = foldByte (pl.2.getD i 0)) ∧
    headPos rest < p ∧
    P (p + 1 + pl.2.length) = 192 + headPos rest / 256 ∧
    P (p + 2 + pl.2.length) = headPos rest % 256 ∧
    ChainAt P p (headPos rest) rest

/-- Buffer space consumed by encoding these labels. -/
def encWeight (ls : List (List Nat)) : Nat :=
  ls.foldr (fun l a => l.length + 3 + a) 0

/-- Uncompressed name length of a label list plus the root label. -/
def labelsWeight (ls : List (List Nat)) : Nat :=
  ls.foldr (fun l a => 1 + l.length + a) 1

/-- Uncompressed name length of a positioned label list plus the root. -/
def pairsWeight (pls : List (Nat × List Nat)) : Nat :=
  pls.foldr (fun pl a => 1 + pl.2.length + a) 1

lemma chainAt_frame : ∀ (pls : List (Nat × List Nat)) (P Q : Nat → Nat)
    (bnd p : Nat), (∀ i, i < bnd → P i = Q i) →
    ChainAt P bnd p pls → ChainAt Q bnd p pls := by
  intro pls
  induction pls with
  | nil =>
    intro P Q bnd p h hc
    obtain ⟨h1, h2, h3⟩ := hc
    exact ⟨h1, by rw [← h (0 : Nat) (by omega)]; exact h2, h3⟩
  | cons pl rest ih =>
    intro P Q bnd p h hc
    obtain ⟨h1, h2, h3, h4, h5, h6, h7, h8, h9, h10⟩ := hc
    refine ⟨h1, h2, ?_, h4, h5, ?_, h7, ?_, ?_, ?_⟩
    · rw [← h p (by omega)]; exact h3
    · intro i hi
      rw [← h (p + 1 + i) (by omega)]
      exact h6 i hi
    · rw [← h (p + 1 + pl.2.length) (by omega)]; exact h8
    · rw [← h (p + 2 + pl.2.length) (by omega)]; exact h9
    · exact ih P Q p (headPos rest) (fun i hi => h i (by omega)) h10

lemma chainAt_mono {pls : List (Nat × List Nat)} {P : Nat → Nat}
    {bnd bnd' p : Nat} (h : bnd ≤ bnd') (hc : ChainAt P bnd p pls) :
    ChainAt P bnd' p pls := by
  cases pls with
  | nil =>
    obtain ⟨h1, h2, h3⟩ := hc
    exact ⟨h1, h2, by omega⟩
  | cons pl rest =>
    obtain ⟨h1, h2, h3⟩ := hc
    exact ⟨h1, by omega, h3⟩

lemma writeSeq_cons (pname : Nat → Nat) (p b : Nat) (bs : List Nat) :
    writeSeq pname p (b :: bs) =
      writeSeq (fun j => if j = p then b else pname j) (p + 1) bs :=
  funext (fun _ => rfl)

lemma getD_map_lt (f : Nat → Nat) : ∀ (l : List Nat) (i : Nat),
    i < l.length → (l.map f).getD i 0 = f (l.getD i 0) := by
  intro l
  induction l with
  | nil => intro i h; simp at h
  | cons x xs ih =>
    intro i h
    cases i with
    | zero => rfl
    | succ i =>
      show (xs.map f).getD i 0 = f (xs.getD i 0)
      exact ih i (by rw [List.length_cons] at h; omega)

lemma chainAt_lt {P : Nat → Nat} {bnd p : Nat}
    {pls : List (Nat × List Nat)} (h : ChainAt P bnd p pls) : p < bnd := by
  cases pls with
  | nil => exact h.2.2
  | cons pl rest =>
    have h2 := h.2.1
    omega

lemma encWeight_cons (l : List Nat) (ls : List (List Nat)) :
    encWeight (l :: ls) = l.length + 3 + encWeight ls := rfl

lemma posLabels_cons (p : Nat) (l : List Nat) (ls : List (List Nat)) :
    posLabels p (l :: ls) = (p, l) :: posLabels (p + l.length + 3) ls := rfl

lemma mkLoop_cons (one : Nat) (rest : List Nat) (pname : Nat → Nat)
    (ppos lpos pos : Nat) :
    mkLoop (one :: rest) pname ppos lpos pos =
      if one = SHIFT_NOBYTE then
        if pos - lpos - 1 = 0 then some (.ok (pname, ppos))
        else
          (pwrite pname lpos ((pos - lpos - 1) % 256)).bind fun pn1 =>
          (pwrite pn1 pos (0xC0 ||| ((ppos >>> 8) % 256))).bind fun pn2 =>
          (pwrite pn2 (pos + 1) (ppos &&& 0xFF)).bind fun pn3 =>
          mkLoop rest pn3 lpos (pos + 2) (pos + 3)
      else if BITS_TO_BYTE one 0 ≠ 0 then
        (pwrite pname pos (BITS_TO_BYTE one 0)).bind fun pn1 =>
        mkLoop rest pn1 ppos lpos (pos + 1)
      else
        match rest with
        | [] => some (.error .bugTrieName)
        | two :: rest2 =>
          (pwrite pname pos (BITS_TO_BYTE one two)).bind fun pn1 =>
          mkLoop rest2 pn1 ppos lpos (pos + 1) := by
  cases rest with
  | nil => rfl
  | cons two rest2 => rfl

lemma mkLoop_codes : ∀ (l : List Nat) (rest : List Nat) (pname : Nat → Nat)
    (ppos lpos pos : Nat), (∀ c ∈ l, c < 256) → pos + l.length ≤ 512 →
    mkLoop ((l.map codeBytes).flatten ++ rest) pname ppos lpos pos =
      mkLoop rest (writeSeq pname pos (l.map foldByte)) ppos lpos
        (pos + l.length) := by
  intro l
  induction l with
  | nil => intro rest pname ppos lpos pos _ _; rfl
  | cons c cs ih =>
    intro rest pname ppos lpos pos hb hsz
    have hc : c < 256 := hb c (List.mem_cons_self c cs)
    obtain ⟨⟨hone2, hone48, htwo⟩, hfold, hsingle, hdouble⟩ :=
      byte_table_ok c hc
    have hszc : pos + cs.length + 1 ≤ 512 := by
      rw [List.length_cons] at hsz
      omega
    have harith : pos + 1 + cs.length = pos + (c :: cs).length := by
      rw [List.length_cons]
      omega
    by_cases h2 : (BYTE_TO_BITS c).2 = 0
    · have hcode : codeBytes c = [(BYTE_TO_BITS c).1] := by
        unfold codeBytes
        rw [if_neg (by omega)]
      have hflat : ((c :: cs).map codeBytes).flatten ++ rest =
          (BYTE_TO_BITS c).1 :: ((cs.map codeBytes).flatten ++ rest) := by
        rw [List.map_cons, List.flatten_cons, hcode]
        rfl
      rw [hflat]
      rw [mkLoop_cons]
      rw [if_neg (show ¬ ((BYTE_TO_BITS c).1 = SHIFT_NOBYTE) by
        unfold SHIFT_NOBYTE; omega)]
      rw [if_pos (show BITS_TO_BYTE (BYTE_TO_BITS c).1 0 ≠ 0 by
        rw [hsingle h2]
        have := single_code_pos c hc h2
        omega)]
      rw [hsingle h2, pwrite_lt (foldByte c) (by omega)]
      show mkLoop ((cs.map codeBytes).flatten ++ rest)
        (fun i => if i = pos then foldByte c else pname i) ppos lpos
        (pos + 1) = _
      rw [ih rest _ ppos lpos (pos + 1) (fun x hx => hb x (List.mem_cons_of_mem c hx))
        (by omega), harith]
      rw [List.map_cons, writeSeq_cons]
    · have htwo2 : 2 ≤ (BYTE_TO_BITS c).2 := by
        rcases htwo with h | h
        · omega
        · omega
      have hcode : codeBytes c = [(BYTE_TO_BITS c).1, (BYTE_TO_BITS c).2] := by
        unfold codeBytes
        rw [if_pos (by omega)]
      have hflat : ((c :: cs).map codeBytes).flatten ++ rest =
          (BYTE_TO_BITS c).1 :: (BYTE_TO_BITS c).2 ::
            ((cs.map codeBytes).flatten ++ rest) := by
        rw [List.map_cons, List.flatten_cons, hcode]
        rfl
      rw [hflat]
      rw [mkLoop_cons]
      rw [if_neg (show ¬ ((BYTE_TO_BITS c).1 = SHIFT_NOBYTE) by
        unfold SHIFT_NOBYTE; omega)]
      rw [if_neg (show ¬ (BITS_TO_BYTE (BYTE_TO_BITS c).1 0 ≠ 0) by
        rw [(hdouble h2).1]
        omega)]
      show (pwrite pname pos
          (BITS_TO_BYTE (BYTE_TO_BITS c).1 (BYTE_TO_BITS c).2)).bind
        (fun pn1 => mkLoop ((cs.map codeBytes).flatten ++ rest) pn1 ppos
          lpos (pos + 1)) = _
      rw [(hdouble h2).2, pwrite_lt (foldByte c) (by omega)]
      show mkLoop ((cs.map codeBytes).flatten ++ rest)
        (fun i => if i = pos then foldByte c else pname i) ppos lpos
        (pos + 1) = _
      rw [ih rest _ ppos lpos (pos + 1) (fun x hx => hb x (List.mem_cons_of_mem c hx))
        (by omega), harith]
      rw [List.map_cons, writeSeq_cons]

lemma mkLoop_nb (rest : List Nat) (F : Nat → Nat) (ppos lpos llen : Nat)
    (h1 : 1 ≤ llen) (h63 : llen ≤ 63) (hpp : ppos < 512)
    (hsz : lpos + llen + 3 ≤ 512) :
    mkLoop (SHIFT_NOBYTE :: rest) F ppos lpos (lpos + 1 + llen) =
      mkLoop rest
        (upd (upd (upd F lpos llen) (lpos + 1 + llen) (192 + ppos / 256))
          (lpos + 1 + llen + 1) (ppos % 256))
        lpos (lpos + 1 + llen + 2) (lpos + 1 + llen + 3) := by
  rw [mkLoop_cons, if_pos rfl,
    show lpos + 1 + llen - lpos - 1 = llen by omega,
    if_neg (show ¬ (llen = 0) by omega),
    Nat.mod_eq_of_lt (show llen < 256 by omega),
    pwrite_lt llen (by omega)]
  simp only [Option.some_bind]
  rw [ptr_hi_byte ppos (by omega), pwrite_lt _ (by omega)]
  simp only [Option.some_bind]
  rw [ptr_lo_byte ppos (by omega), pwrite_lt _ (by omega)]
  simp only [Option.some_bind]

lemma mk_encode : ∀ (ls : List (List Nat)) (pname : Nat → Nat)
    (ppos lpos : Nat) (prev : List (Nat × List Nat)),
    (∀ l ∈ ls, (1 ≤ l.length ∧ l.length ≤ 63) ∧ ∀ c ∈ l, c < 256) →
    lpos + encWeight ls + 1 ≤ 512 →
    headPos prev = ppos →
    ChainAt pname lpos ppos prev →
    ∃ P, mkLoop ((ls.map encLabel).flatten ++ [SHIFT_NOBYTE]) pname ppos
        lpos (lpos + 1) =
      some (.ok (P, headPos ((posLabels lpos ls).reverse ++ prev))) ∧
      ChainAt P (lpos + encWeight ls)
        (headPos ((posLabels lpos ls).reverse ++ prev))
        ((posLabels lpos ls).reverse ++ prev) := by
  intro ls
  induction ls with
  | nil =>
    intro pname ppos lpos prev _ _ hhp hchain
    refine ⟨pname, ?_, ?_⟩
    · show mkLoop [SHIFT_NOBYTE] pname ppos lpos (lpos + 1) = _
      rw [mkLoop_cons, if_pos rfl, if_pos (by omega),
        show (posLabels lpos ([] : List (List Nat))).reverse ++ prev = prev
          by rfl, hhp]
    · rw [show (posLabels lpos ([] : List (List Nat))).reverse ++ prev = prev
        by rfl, hhp, show encWeight [] = 0 from rfl, Nat.add_zero]
      exact hchain
  | cons l ls ih =>
    intro pname ppos lpos prev hlab hsz hhp hchain
    obtain ⟨⟨hl1, hl63⟩, hbytes⟩ := hlab l (List.mem_cons_self l ls)
    have hppos : ppos < lpos := chainAt_lt hchain
    rw [encWeight_cons] at hsz
    have hkey : ((l :: ls).map encLabel).flatten ++ [SHIFT_NOBYTE] =
        (l.map codeBytes).flatten ++ (SHIFT_NOBYTE ::
          ((ls.map encLabel).flatten ++ [SHIFT_NOBYTE])) := by
      rw [List.map_cons, List.flatten_cons]
      show (((l.map codeBytes).flatten ++ [SHIFT_NOBYTE]) ++
        (ls.map encLabel).flatten) ++ [SHIFT_NOBYTE] = _
      rw [List.append_assoc, List.append_assoc]
      rfl
    rw [hkey,
      mkLoop_codes l _ pname ppos lpos (lpos + 1) hbytes (by omega),
      mkLoop_nb _ _ ppos lpos l.length hl1 hl63 (by omega) (by omega),
      show lpos + 1 + l.length + 2 = lpos + l.length + 3 by omega,
      show lpos + 1 + l.length + 3 = lpos + l.length + 3 + 1 by omega]
    have e2 : ((lpos, l) : Nat × List Nat).2 = l := rfl
    have hchain2 : ChainAt
        (upd (upd (upd (writeSeq pname (lpos + 1) (l.map foldByte)) lpos
            l.length) (lpos + 1 + l.length) (192 + ppos / 256))
          (lpos + 1 + l.length + 1) (ppos % 256))
        (lpos + l.length + 3) lpos ((lpos, l) :: prev) := by
      refine ⟨rfl, by rw [e2], ?_, hl1, hl63, ?_, ?_, ?_, ?_, ?_⟩
      · rw [e2,
          upd_ne _ _ (show lpos ≠ lpos + 1 + l.length + 1 by omega),
          upd_ne _ _ (show lpos ≠ lpos + 1 + l.length by omega),
          upd_eq]
      · rw [e2]
        intro i hi
        rw [upd_ne _ _ (show lpos + 1 + i ≠ lpos + 1 + l.length + 1 by
            omega),
          upd_ne _ _ (show lpos + 1 + i ≠ lpos + 1 + l.length by omega),
          upd_ne _ _ (show lpos + 1 + i ≠ lpos by omega),
          writeSeq_at (l.map foldByte) pname (lpos + 1) i
            (by rw [List.length_map]; exact hi),
          getD_map_lt foldByte l i hi]
      · rw [hhp]
        exact hppos
      · rw [e2,
          upd_ne _ _ (show lpos + 1 + l.length ≠ lpos + 1 + l.length + 1
            by omega),
          upd_eq, hhp]
      · rw [e2,
          show lpos + 2 + l.length = lpos + 1 + l.length + 1 by omega,
          upd_eq, hhp]
      · rw [hhp]
        refine chainAt_frame prev pname _ lpos ppos ?_ hchain
        intro i hi
        rw [upd_ne _ _ (show i ≠ lpos + 1 + l.length + 1 by omega),
          upd_ne _ _ (show i ≠ lpos + 1 + l.length by omega),
          upd_ne _ _ (show i ≠ lpos by omega),
          writeSeq_frame (l.map foldByte) pname (lpos + 1) i
            (Or.inl (by omega))]
    obtain ⟨P, hP, hPc⟩ := ih _ lpos (lpos + l.length + 3) ((lpos, l) :: prev)
      (fun x hx => hlab x (List.mem_cons_of_mem l hx)) (by omega) rfl hchain2
    refine ⟨P, ?_, ?_⟩
    · rw [posLabels_cons, List.reverse_cons, List.append_assoc,
        List.singleton_append]
      exact hP
    · rw [posLabels_cons, List.reverse_cons, List.append_assoc,
        List.singleton_append, encWeight_cons,
        show lpos + (l.length + 3 + encWeight ls) =
          lpos + l.length + 3 + encWeight ls by omega]
      exact hPc

lemma wire_get (P : Nat → Nat) (i : Nat) (h : i < 512) :
    dodgyGet (wireOf P) i = .ok (P i) := by
  unfold dodgyGet wireOf
  rw [List.get?_map, List.get?_range (show i < MAX_PNAME from h)]
  rfl

lemma pairsWeight_cons (pl : Nat × List Nat) (rest : List (Nat × List Nat)) :
    pairsWeight (pl :: rest) = 1 + pl.2.length + pairsWeight rest := rfl

lemma pairsWeight_pos : ∀ pls : List (Nat × List Nat), 1 ≤ pairsWeight pls := by
  intro pls
  induction pls with
  | nil => exact Nat.le_refl 1
  | cons pl rest ih =>
    rw [pairsWeight_cons]
    omega

lemma parse_chain : ∀ (pls : List (Nat × List Nat)) (P : Nat → Nat)
    (bnd : Nat) (st : List Nat × Nat) (fuel p max end_ : Nat),
    ChainAt P bnd p pls → bnd ≤ 510 → p ≤ max →
    st.1.length + pls.length + 1 ≤ 128 →
    st.2 + pairsWeight pls ≤ 255 →
    2 * pls.length + 1 ≤ fuel →
    ∃ end2, name_from_wire_loop wireEmit (wireOf P) fuel st p max end_ =
      .ok ((st.1 ++ pls.map Prod.fst ++ [0], st.2 + pairsWeight pls), end2) := by
  intro pls
  induction pls with
  | nil =>
    intro P bnd st fuel p max end_ hchain hbnd hpmax hcap hbud hfuel
    obtain ⟨hp0, hP0, hpb⟩ := hchain
    subst hp0
    rw [show pairsWeight ([] : List (Nat × List Nat)) = 1 from rfl] at hbud
    cases fuel with
    | zero => omega
    | succ f =>
      unfold name_from_wire_loop
      rw [wire_get P 0 (by omega)]
      simp only [ok_bind, hP0]
      rw [if_pos (show (0 : Nat) ≤ 0x3F by omega)]
      have hemit : wireEmit st (wireOf P) 0 0 =
          .ok (st.1 ++ [0], st.2 + 1 + 0) := by
        unfold wireEmit scratchPush
        rw [if_neg (show ¬ (65536 ≤ 0) by omega),
          if_pos (show st.1.length < MAX_LABS by
            unfold MAX_LABS MAX_NAME
            rw [List.length_nil] at hcap
            omega)]
        show (if 255 < st.2 + 1 + 0 then Except.error Error.nameLength
          else Except.ok (st.1 ++ [0], st.2 + 1 + 0)) = _
        rw [if_neg (show ¬ (255 < st.2 + 1 + 0) by omega)]
      rw [hemit]
      simp only [ok_bind]
      rw [if_pos trivial]
      refine ⟨Nat.max end_ (0 + 1 + 0), ?_⟩
      rw [show st.1 ++ List.map Prod.fst ([] : List (Nat × List Nat)) ++ [0] =
          st.1 ++ [0] by simp,
        show pairsWeight ([] : List (Nat × List Nat)) = 1 from rfl,
        show st.2 + 1 + 0 = st.2 + 1 by omega]
  | cons pl rest ih =>
    intro P bnd st fuel p max end_ hchain hbnd hpmax hcap hbud hfuel
    obtain ⟨h1, h2, h3, h4, h5, h6, h7, h8, h9, h10⟩ := hchain
    rw [pairsWeight_cons] at hbud
    rw [List.length_cons] at hcap hfuel
    have hwr : 1 ≤ pairsWeight rest := pairsWeight_pos rest
    have htb : P (headPos rest) ≤ 63 := by
      cases rest with
      | nil =>
        obtain ⟨hq0, hPq, -⟩ := h10
        show P (headPos ([] : List (Nat × List Nat))) ≤ 63
        rw [show headPos ([] : List (Nat × List Nat)) = 0 from rfl, hPq]
        omega
      | cons pl2 rest2 =>
        obtain ⟨-, -, g3, -, g5, -⟩ := h10
        rw [g3]
        omega
    cases fuel with
    | zero => omega
    | succ f =>
      unfold name_from_wire_loop
      rw [wire_get P p (by omega)]
      simp only [ok_bind, h3]
      rw [if_pos (show pl.2.length ≤ 0x3F by omega)]
      have hemit : wireEmit st (wireOf P) p pl.2.length =
          .ok (st.1 ++ [p], st.2 + 1 + pl.2.length) := by
        unfold wireEmit scratchPush
        rw [if_neg (show ¬ (65536 ≤ p) by omega),
          if_pos (show st.1.length < MAX_LABS by
            unfold MAX_LABS MAX_NAME
            omega)]
        show (if 255 < st.2 + 1 + pl.2.length then Except.error Error.nameLength
          else Except.ok (st.1 ++ [p], st.2 + 1 + pl.2.length)) = _
        rw [if_neg (show ¬ (255 < st.2 + 1 + pl.2.length) by omega)]
      rw [hemit]
      simp only [ok_bind]
      rw [if_neg (show ¬ (pl.2.length = 0) by omega)]
      cases f with
      | zero => omega
      | succ f2 =>
        unfold name_from_wire_loop
        rw [wire_get P (p + 1 + pl.2.length) (by omega)]
        simp only [ok_bind, h8]
        rw [if_neg (show ¬ (192 + headPos rest / 256 ≤ 0x3F) by omega),
          if_neg (show ¬ (192 + headPos rest / 256 ≤ 0xBF) by omega),
          show p + 1 + pl.2.length + 1 = p + 2 + pl.2.length by omega,
          wire_get P (p + 2 + pl.2.length) (by omega)]
        simp only [ok_bind, h9]
        rw [ptr_decode (headPos rest) (by omega),
          wire_get P (headPos rest) (by omega)]
        simp only [ok_bind]
        rw [if_neg (show ¬ (0xC0 ≤ P (headPos rest)) by omega),
          if_neg (show ¬ (max ≤ headPos rest) by omega)]
        obtain ⟨E, hE⟩ := ih P p (st.1 ++ [p], st.2 + 1 + pl.2.length) f2
          (headPos rest) (headPos rest)
          (Nat.max (Nat.max end_ (p + 1 + pl.2.length))
            (p + 1 + pl.2.length + 2))
          h10 (by omega) (Nat.le_refl _)
          (by rw [List.length_append, List.length_singleton]; omega)
          (by omega) (by omega)
        refine ⟨E, ?_⟩
        rw [hE]
        have hlist : (st.1 ++ [p]) ++ rest.map Prod.fst ++ [0] =
            st.1 ++ (pl :: rest).map Prod.fst ++ [0] := by
          rw [List.map_cons, h1]
          simp
        have hn : st.2 + 1 + pl.2.length + pairsWeight rest =
            st.2 + pairsWeight (pl :: rest) := by
          rw [pairsWeight_cons]
          omega
        rw [hlist, hn]

lemma wire_getq (P : Nat → Nat) (i : Nat) (h : i < 512) :
    (wireOf P).get? i = some (P i) := by
  unfold wireOf
  rw [List.get?_map, List.get?_range (show i < MAX_PNAME from h)]
  rfl

lemma wire_getD (P : Nat → Nat) (i : Nat) (h : i < 512) :
    (wireOf P).getD i 0 = P i :=
  getD_of_get (wireOf P) i (P i) 0 (wire_getq P i h)

lemma wireOf_length (P : Nat → Nat) : (wireOf P).length = 512 := by
  unfold wireOf MAX_PNAME
  rw [List.length_map, List.length_range]

lemma wire_slice (P : Nat → Nat) : ∀ (len a : Nat), a + len ≤ 512 →
    ((wireOf P).drop a).take len =
      (List.range len).map (fun i => P (a + i)) := by
  intro len
  induction len with
  | zero => intro a _; rfl
  | succ len ih =>
    intro a h
    rw [List.take_succ, List.range_succ, List.map_append, ← ih a (by omega)]
    have hget : ((wireOf P).drop a)[len]? = some (P (a + len)) := by
      rw [← List.get?_eq_getElem?, List.get?_drop,
        wire_getq P (a + len) (by omega)]
    rw [hget]
    rfl

lemma range_map_ext (f g : Nat → Nat) : ∀ (n : Nat),
    (∀ i, i < n → f i = g i) →
    (List.range n).map f = (List.range n).map g := by
  intro n
  induction n with
  | zero => intro _; rfl
  | succ n ih =>
    intro h
    rw [List.range_succ, List.map_append, List.map_append,
      ih (fun i hi => h i (by omega))]
    show _ ++ [f n] = _ ++ [g n]
    rw [h n (by omega)]

lemma range_map_getD (f : Nat → Nat) : ∀ (l : List Nat),
    (List.range l.length).map (fun i => f (l.getD i 0)) = l.map f := by
  intro l
  induction l with
  | nil => rfl
  | cons x xs ih =>
    rw [List.length_cons, List.range_succ_eq_map, List.map_cons,
      List.map_map, List.map_cons]
    show f x :: (List.range xs.length).map
      ((fun i => f ((x :: xs).getD i 0)) ∘ Nat.succ) = f x :: xs.map f
    have hc : ((fun i => f ((x :: xs).getD i 0)) ∘ Nat.succ) =
        fun i => f (xs.getD i 0) := by
      funext i
      rfl
    rw [hc, ih]

lemma heapLabels_cons (wire : List Nat) (p : Nat) (rest : List Nat) :
    heapLabels wire (p :: rest) =
      (((wire.drop (p + 1)).take (wire.getD p 0)).map foldByte) ::
        heapLabels wire rest := rfl

lemma heapLabels_chain : ∀ (pls : List (Nat × List Nat)) (P : Nat → Nat)
    (bnd p : Nat), ChainAt P bnd p pls → bnd ≤ 512 →
    heapLabels (wireOf P) (pls.map Prod.fst ++ [0]) =
      pls.map (fun pl => pl.2.map foldByte) ++ [[]] := by
  intro pls
  induction pls with
  | nil =>
    intro P bnd p hchain hbnd
    obtain ⟨-, hP0, hpb⟩ := hchain
    show heapLabels (wireOf P) [0] = [[]]
    rw [show heapLabels (wireOf P) [0] =
        [(((wireOf P).drop 1).take ((wireOf P).getD 0 0)).map foldByte]
        from rfl,
      wire_getD P 0 (by omega), hP0]
    rfl
  | cons pl rest ih =>
    intro P bnd p hchain hbnd
    obtain ⟨h1, h2, h3, h4, h5, h6, h7, h8, h9, h10⟩ := hchain
    rw [List.map_cons, List.map_cons, List.cons_append, List.cons_append,
      heapLabels_cons, ih P p (headPos rest) h10 (by omega), h1,
      wire_getD P p (by omega), h3,
      wire_slice P pl.2.length (p + 1) (by omega), List.map_map]
    rw [range_map_ext (foldByte ∘ fun i => P (p + 1 + i))
      (fun i => foldByte (pl.2.getD i 0)) pl.2.length
      (fun i hi => by
        show foldByte (P (p + 1 + i)) = foldByte (pl.2.getD i 0)
        rw [h6 i hi, foldByte_idem]),
      range_map_getD foldByte pl.2]

lemma posLabels_length : ∀ (ls : List (List Nat)) (k : Nat),
    (posLabels k ls).length = ls.length := by
  intro ls
  induction ls with
  | nil => intro k; rfl
  | cons l ls ih =>
    intro k
    rw [posLabels_cons, List.length_cons, List.length_cons, ih]

lemma posLabels_canon : ∀ (ls : List (List Nat)) (k : Nat),
    (posLabels k ls).map (fun pl => pl.2.map foldByte) =
      ls.map (fun l => l.map foldByte) := by
  intro ls
  induction ls with
  | nil => intro k; rfl
  | cons l ls ih =>
    intro k
    rw [posLabels_cons, List.map_cons, List.map_cons, ih]

lemma pairsWeight_eq_sum : ∀ (pls : List (Nat × List Nat)),
    pairsWeight pls = (pls.map (fun pl => 1 + pl.2.length)).sum + 1 := by
  intro pls
  induction pls with
  | nil => rfl
  | cons pl rest ih =>
    rw [pairsWeight_cons, ih, List.map_cons, List.sum_cons]
    omega

lemma labelsWeight_eq_sum : ∀ (ls : List (List Nat)),
    labelsWeight ls = (ls.map (fun l => 1 + l.length)).sum + 1 := by
  intro ls
  induction ls with
  | nil => rfl
  | cons l ls ih =>
    rw [show labelsWeight (l :: ls) = 1 + l.length + labelsWeight ls
      from rfl, ih, List.map_cons, List.sum_cons]
    omega

lemma pairsWeight_posLabels (ls : List (List Nat)) (k : Nat) :
    pairsWeight ((posLabels k ls).reverse) = labelsWeight ls := by
  rw [pairsWeight_eq_sum, labelsWeight_eq_sum, List.map_reverse,
    List.sum_reverse]
  have h : (posLabels k ls).map (fun pl => 1 + pl.2.length) =
      ls.map (fun l => 1 + l.length) := by
    induction ls generalizing k with
    | nil => rfl
    | cons l ls ih =>
      rw [posLabels_cons, List.map_cons, List.map_cons, ih]
  rw [h]

lemma encWeight_le : ∀ (ls : List (List Nat)),
    (∀ l ∈ ls, 1 ≤ l.length) → encWeight ls + 1 ≤ 2 * labelsWeight ls := by
  intro ls
  induction ls with
  | nil =>
    intro _
    show 0 + 1 ≤ 2 * 1
    omega
  | cons l ls ih =>
    intro h
    have h1 := h l (List.mem_cons_self l ls)
    have h2 := ih (fun x hx => h x (List.mem_cons_of_mem l hx))
    rw [encWeight_cons,
      show labelsWeight (l :: ls) = 1 + l.length + labelsWeight ls from rfl]
    omega

lemma labelsWeight_len : ∀ (ls : List (List Nat)),
    (∀ l ∈ ls, 1 ≤ l.length) → 2 * ls.length + 1 ≤ labelsWeight ls := by
  intro ls
  induction ls with
  | nil =>
    intro _
    show 2 * 0 + 1 ≤ 1
    omega
  | cons l ls ih =>
    intro h
    have h1 := h l (List.mem_cons_self l ls)
    have h2 := ih (fun x hx => h x (List.mem_cons_of_mem l hx))
    rw [List.length_cons,
      show labelsWeight (l :: ls) = 1 + l.length + labelsWeight ls from rfl]
    omega

lemma canonLabels_reverse (ls : List (List Nat)) :
    canonLabels ls.reverse = (canonLabels ls).reverse := by
  unfold canonLabels
  rw [List.map_reverse]

/-- C2: decoding the trie key of a name yields its canonical (lower-cased,
uncompressed) form.  A name is its rlabel list (root label first); for
every well-formed name — root label present, every other label 1 to 63
bytes of byte values, total uncompressed length within 255 —
`TrieName::make_dns_name` on `TrieName::from_dns_name`'s key panics
nowhere, reparses its back-linked buffer successfully and produces exactly
the name's labels in wire order, each lower-cased. -/
theorem c2_trie_key_roundtrip (rlabels : List (List Nat))
    (hroot : rlabels.head? = some [])
    (hlab : ∀ l ∈ rlabels.drop 1,
      (1 ≤ l.length ∧ l.length ≤ 63) ∧ ∀ c ∈ l, c < 256)
    (hlen : labelsWeight (rlabels.drop 1) ≤ 255) :
    make_dns_name (from_dns_name rlabels) =
      some (.ok (canonLabels rlabels.reverse)) := by
  cases rlabels with
  | nil => simp at hroot
  | cons hd ls =>
    have hhd : hd = [] := by simpa using hroot
    subst hhd
    have hlab' : ∀ l ∈ ls, (1 ≤ l.length ∧ l.length ≤ 63) ∧
        ∀ c ∈ l, c < 256 := hlab
    have hlen' : labelsWeight ls ≤ 255 := hlen
    have hlen1 : ∀ l ∈ ls, 1 ≤ l.length := fun l hl => (hlab' l hl).1.1
    have hew := encWeight_le ls hlen1
    have hll := labelsWeight_len ls hlen1
    obtain ⟨P, hP, hPc⟩ := mk_encode ls (fun _ => 0) 0 1 []
      hlab' (by omega) rfl ⟨rfl, rfl, by omega⟩
    rw [List.append_nil] at hP hPc
    rw [show (1 : Nat) + 1 = 2 from rfl] at hP
    have hplen : ((posLabels 1 ls).reverse).length = ls.length := by
      rw [List.length_reverse, posLabels_length]
    obtain ⟨E, hE⟩ := parse_chain ((posLabels 1 ls).reverse) P
      (1 + encWeight ls) ([], 0) (WIRE_FUEL (wireOf P))
      (headPos ((posLabels 1 ls).reverse))
      (headPos ((posLabels 1 ls).reverse))
      (headPos ((posLabels 1 ls).reverse))
      hPc (by omega) (Nat.le_refl _)
      (by rw [hplen]; show 0 + ls.length + 1 ≤ 128; omega)
      (by rw [pairsWeight_posLabels]; show 0 + labelsWeight ls ≤ 255; omega)
      (by rw [hplen]
          unfold WIRE_FUEL
          rw [wireOf_length]
          omega)
    show make_dns_name
      ((ls.map encLabel).flatten ++ [SHIFT_NOBYTE]) = _
    unfold make_dns_name
    rw [hP]
    show (match name_from_wire_loop wireEmit (wireOf P)
        (WIRE_FUEL (wireOf P)) ([], 0)
        (headPos ((posLabels 1 ls).reverse))
        (headPos ((posLabels 1 ls).reverse))
        (headPos ((posLabels 1 ls).reverse)) with
      | .error e =>
        (some (Except.error e) : Option (Except Error (List (List Nat))))
      | .ok ((lposList, _nlen), _end) =>
        some (Except.ok (heapLabels (wireOf P) lposList))) = _
    rw [hE]
    show (some (Except.ok (heapLabels (wireOf P)
        (([] : List Nat) ++ ((posLabels 1 ls).reverse).map Prod.fst ++ [0]))) :
      Option (Except Error (List (List Nat)))) = _
    rw [List.nil_append,
      heapLabels_chain ((posLabels 1 ls).reverse) P (1 + encWeight ls)
        (headPos ((posLabels 1 ls).reverse)) hPc (by omega),
      List.map_reverse, posLabels_canon,
      List.reverse_cons]
    show (some (Except.ok ((canonLabels ls).reverse ++ [[]])) :
        Option (Except Error (List (List Nat)))) =
      some (Except.ok (canonLabels (ls.reverse ++ [[]])))
    unfold canonLabels
    rw [List.map_append, List.map_reverse]
    rfl

theorem c2_witness :
    (([[], [97, 116], [100, 111, 116, 97, 84]] :
        List (List Nat)).head? = some []) ∧
    (∀ l ∈ ([[], [97, 116], [100, 111, 116, 97, 84]] :
        List (List Nat)).drop 1,
      (1 ≤ l.length ∧ l.length ≤ 63) ∧ ∀ c ∈ l, c < 256) ∧
    labelsWeight (([[], [97, 116], [100, 111, 116, 97, 84]] :
        List (List Nat)).drop 1) ≤ 255 ∧
    make_dns_name (from_dns_name
        [[], [97, 116], [100, 111, 116, 97, 84]]) =
      some (.ok (canonLabels
        ([[], [97, 116], [100, 111, 116, 97, 84]] :
          List (List Nat)).reverse)) :=
  ⟨by decide, by decide, by decide,
   c2_trie_key_roundtrip [[], [97, 116], [100, 111, 116, 97, 84]]
     (by decide) (by decide) (by decide)⟩
